import Mathlib

/-!
# scribe2srt: the subtitle synthesis pipeline

A shallow embedding of `internal/pipeline` (types.go, preprocess.go,
punctuation.go, splitter.go, merger.go, formatter.go and processor.go), of
the settings and language tables of `internal/config` and of the chunk
handling of `internal/worker` (worker.go, concurrent.go), and the properties
proved about it.

Modelling conventions.

* A Go `string` holding valid UTF-8 is the list of its code points
  (`GoString`); `[]rune(s)` is then the list itself, `utf8.RuneCountInString`
  its length and `utf8.DecodeLastRuneInString` its last element.  The tag
  `Word.Type`, which the code only compares with string constants, is a
  `String`.
* A `map[rune]struct{}` used as a set is the list of its keys, given as code
  point numbers.
* A `float64` is the rational number it stands for; NaN and infinite inputs
  are outside the model.  The one infinity the code itself produces
  (`calculateCPS` on a non-positive duration) is kept, as the top element of
  `WithTop ℚ`.  Where the result of the code depends on IEEE rounding, in
  `formatSRTTime` and in the optimization pass of merger.go (`optimizeSingle`
  and the gap step of `OptimizeMergedEntries`), each operation is rounded to
  the nearest `float64`, ties to even, with `float64`; a Go constant `c` is
  then `float64 c`.  No operation there is a product followed by a sum, so
  no compiler fuses two of them.  The other functions (`canMerge`,
  `calculateMergeBenefit`, `applyTimeOffset`) compute with the exact values;
  `calculateCPS` and `getDynamicCPSLimit` give the exact quotient and product,
  which the optimization pass rounds where it calls them.
* A Go slice is a list; `append(s, x)` is `s ++ [x]`.
* A Go `int` is an `Int` (no computation here comes near the machine bounds);
  a loop counter or length that cannot be negative is a `Nat`.
* A function that may panic or loop forever returns an `Option`; `none` means
  that the Go function does not return.
* `sort.Slice` is not stable, so `Process` and `mergeResults` take the sorting
  function as a parameter, of which `IsSliceSort` and `IsIndexSort` state what
  the library guarantees.
* The transcriber is outside the program: the code that calls it takes the
  outcome of each call as a function and returns the calls it made next to its
  result.  The context is never cancelled, and the scheduling of the chunk
  tasks (`errgroup`, `sync.Mutex`) is outside the model.
-/

namespace Scribe2srt

/-- A Go string holding valid UTF-8, as the list of its code points. -/
abbrev GoString := List Char

/-! ## Standard library -/

/-- Go `unicode.IsSpace`: the Latin-1 switch and the `White_Space` table. -/
def isSpace (r : Char) : Bool :=
  let n := r.toNat
  (0x09 ≤ n && n ≤ 0x0d) || n == 0x20 || n == 0x85 || n == 0xa0 || n == 0x1680 ||
  (0x2000 ≤ n && n ≤ 0x200a) || n == 0x2028 || n == 0x2029 || n == 0x202f ||
  n == 0x205f || n == 0x3000

/-- Go `strings.TrimSpace`: drops leading and trailing white space. -/
def TrimSpace (s : GoString) : GoString :=
  ((s.dropWhile isSpace).reverse.dropWhile isSpace).reverse

/-- Go `utf8.RuneError`. -/
def RuneError : Char := Char.ofNat 0xFFFD

/-- Go `utf8.DecodeLastRuneInString`, first result: the last code point, and
`RuneError` on the empty string. -/
def DecodeLastRuneInString (s : GoString) : Char := s.getLast?.getD RuneError

/-- Go `strings.HasSuffix(s, " ")`. -/
def HasSuffixSpace (s : GoString) : Bool := s.getLast? == some ' '

/-! ## types.go -/

/-- A token of the transcript (types.go, `Word`).  The Go field `Type` is
`Type_` here. -/
structure Word where
  Text : GoString
  Start : ℚ
  End : ℚ
  Type_ : String
deriving DecidableEq

/-- One subtitle block (types.go, `SubtitleEntry`). -/
structure SubtitleEntry where
  Text : GoString
  Start : ℚ
  End : ℚ
  Words : List Word
  IsAudioEvent : Bool
  WordCount : Int
  CharCount : Int
deriving DecidableEq

/-! ## preprocess.go -/

/-- The keys of `cjkMergePunctuation`: 。 ？ ！ 」 「 、 ・ ， -/
def cjkMergePunctuation : List Nat :=
  [0x3002, 0xff1f, 0xff01, 0x300d, 0x300c, 0x3001, 0x30fb, 0xff0c]

/-- The lookup `_, ok := cjkMergePunctuation[r]`. -/
def isCJKMergePunct (r : Char) : Bool := decide (r.toNat ∈ cjkMergePunctuation)

/-- Output of preprocessing (preprocess.go, `preprocessResult`). -/
structure preprocessResult where
  Words : List Word
  AudioEvents : List Word
deriving DecidableEq

/-- The guards of preprocess.go lines 54-59 for a token `w` arriving when
`prev` is the last accepted word: `w.Text` is one rune of the fusion set,
`prev` is of type word with non-empty text, and that text does not already
end in a rune of the fusion set. -/
def fusesInto (prev w : Word) : Bool :=
  match w.Text with
  | [r] =>
    isCJKMergePunct r && decide (prev.Type_ = "word") && decide (prev.Text ≠ []) &&
      !isCJKMergePunct (DecodeLastRuneInString prev.Text)
  | _ => false

/-- The guards of preprocess.go lines 44-46 for a spacing token `w` arriving
when `prev` is the last accepted word. -/
def spaceGoesTo (prev w : Word) : Bool :=
  decide (TrimSpace w.Text = []) && decide (prev.Type_ = "word") && !HasSuffixSpace prev.Text

/-- One iteration of the loop of `preprocessWords` (preprocess.go lines 34-69),
on the two slices built so far. -/
def preprocessStep (st : preprocessResult) (w : Word) : preprocessResult :=
  if w.Type_ = "audio_event" then
    { st with AudioEvents := st.AudioEvents ++ [w] }
  else if w.Type_ = "spacing" then
    match st.Words.getLast? with
    | some prev =>
      if spaceGoesTo prev w then
        { st with Words := st.Words.dropLast ++ [{ prev with Text := prev.Text ++ [' '] }] }
      else st
    | none => st
  else
    match st.Words.getLast? with
    | some prev =>
      if fusesInto prev w then
        { st with Words := st.Words.dropLast ++
            [{ prev with Text := prev.Text ++ w.Text, End := w.End }] }
      else { st with Words := st.Words ++ [w] }
    | none => { st with Words := st.Words ++ [w] }

/-- The function `preprocessWords` of preprocess.go. -/
def preprocessWords (raw : List Word) : preprocessResult :=
  raw.foldl preprocessStep ⟨[], []⟩

/-! ## punctuation.go -/

def priorityHigh : Int := 0

def priorityMedium : Int := 1

def priorityLow : Int := 2

def priorityNone : Int := -1

/-- The keys of `highPriority`: . ! ? 。 ！ ？ -/
def highPriority : List Nat := [0x2e, 0x21, 0x3f, 0x3002, 0xff01, 0xff1f]

/-- The keys of `mediumPriority`: ; : ) ] } ； ： 》 」 】 ） -/
def mediumPriority : List Nat :=
  [0x3b, 0x3a, 0x29, 0x5d, 0x7d, 0xff1b, 0xff1a, 0x300b, 0x300d, 0x3011, 0xff09]

/-- The keys of `lowPriority`: , ( [ { - ， 、 《 「 【 （ -/
def lowPriority : List Nat :=
  [0x2c, 0x28, 0x5b, 0x7b, 0x2d, 0xff0c, 0x3001, 0x300a, 0x300c, 0x3010, 0xff08]

/-- The keys of `allPunctuation` as `init` fills it: the three priority sets
and the ellipsis U+2026. -/
def allPunctuation : List Nat := highPriority ++ mediumPriority ++ lowPriority ++ [0x2026]

/-- The function `getPriority` of punctuation.go. -/
def getPriority (r : Char) : Int :=
  if r.toNat ∈ highPriority then priorityHigh
  else if r.toNat ∈ mediumPriority then priorityMedium
  else if r.toNat ∈ lowPriority then priorityLow
  else if r.toNat = 0x2026 then priorityLow
  else priorityNone

/-- The function `isPunctuation` of punctuation.go. -/
def isPunctuation (r : Char) : Bool := decide (r.toNat ∈ allPunctuation)

/-- The function `wordEndsWithPunctuation` of punctuation.go, returning
`(hasPunct, punctRune, priority)`. -/
def wordEndsWithPunctuation (text : GoString) : Bool × Char × Int :=
  let text := TrimSpace text
  if text = [] then (false, Char.ofNat 0, priorityNone)
  else
    let lastRune := DecodeLastRuneInString text
    if lastRune = RuneError then (false, Char.ofNat 0, priorityNone)
    else
      let priority := getPriority lastRune
      if priority ≥ 0 then (true, lastRune, priority)
      else (false, Char.ofNat 0, priorityNone)

/-- The backward scan of `findSplitPosition` (punctuation.go lines 104-115),
entered with the loop variable `i`: the value `bestPos` has when the loop is
left.  Every index read is in range, `i` being below `len(runes)`. -/
def findSplitScan (runes : List Char) : Nat → Int
  | 0 => -1
  | i + 1 =>
    let r := runes.getD (i + 1) RuneError
    if r = ' ' then ((i + 1 : Nat) : Int)
    else if isPunctuation r then ((i + 1 : Nat) : Int) + 1
    else findSplitScan runes i

/-- The function `findSplitPosition` of punctuation.go. -/
def findSplitPosition (text : GoString) (maxLen : Int) : Int :=
  let runes := text
  if (runes.length : Int) ≤ maxLen then (runes.length : Int)
  else
    let searchEnd := min (maxLen + 1) (runes.length : Int)
    let bestPos := findSplitScan runes (searchEnd - 1).toNat
    if bestPos ≤ 0 then maxLen else bestPos

/-- The keys of `mergeJoinPunctuation`. -/
def mergeJoinPunctuation : List Nat :=
  [0x3002, 0xff1f, 0xff01, 0x3001, 0xff0c,
   0xff1b, 0xff1a,
   0x201c, 0x201d, 0x2018, 0x2019,
   0xff08, 0xff09, 0x300a, 0x300b,
   0x300c, 0x300d,
   0x2e, 0x3f, 0x21, 0x2c, 0x3b, 0x3a,
   0x28, 0x29, 0x22, 0x27, 0x2d]

/-- The function `endsWithJoinPunctuation` of punctuation.go. -/
def endsWithJoinPunctuation (text : GoString) : Bool :=
  if text = [] then false
  else decide ((DecodeLastRuneInString text).toNat ∈ mergeJoinPunctuation)

/-! ## splitter.go -/

/-- Stage 1 of the pipeline (splitter.go, `SentenceSplitter`). -/
structure SentenceSplitter where
  Language : GoString
  IsCJK : Bool
deriving DecidableEq

/-- The sum `totalChars` of splitter.go lines 51-54. -/
def totalChars (accumulated : List Word) : Nat :=
  (accumulated.map (fun w => w.Text.length)).sum

/-- The method `shouldSplitAtWord` of splitter.go. -/
def shouldSplitAtWord (_s : SentenceSplitter) (word : Word) (accumulated : List Word) : Bool :=
  let text := TrimSpace word.Text
  let res := wordEndsWithPunctuation text
  let hasPunct := res.1
  let priority := res.2.2
  if !hasPunct then false
  else if priority = priorityHigh then true
  else if priority = priorityMedium ∧ accumulated.length ≥ 3 then true
  else if priority = priorityLow ∧ accumulated.length ≥ 5 ∧ totalChars accumulated ≥ 15 then true
  else false

/-- The loop of `SplitIntoSentenceGroups` (splitter.go lines 73-87) from index
`i` on, `n` being `len(words)` and `rest` the words not yet visited; returns
`groups` and `current` as they are when the loop is left. -/
def splitLoop (s : SentenceSplitter) (n : Nat) :
    Nat → List Word → List (List Word) → List Word → List (List Word) × List Word
  | _, [], groups, current => (groups, current)
  | i, word :: rest, groups, current =>
    let current := current ++ [word]
    let accumulated := current.dropLast
    let shouldSplit := shouldSplitAtWord s word accumulated
    let isLast := decide (i = n - 1)
    if shouldSplit || isLast then
      if current.length > 0 then splitLoop s n (i + 1) rest (groups ++ [current]) []
      else splitLoop s n (i + 1) rest groups current
    else splitLoop s n (i + 1) rest groups current

/-- The method `SplitIntoSentenceGroups` of splitter.go. -/
def SplitIntoSentenceGroups (s : SentenceSplitter) (words : List Word) : List (List Word) :=
  if words.length = 0 then []
  else
    let st := splitLoop s words.length 0 words [] []
    if st.2.length > 0 then st.1 ++ [st.2] else st.1

/-- The body of the loop of `CreateBasicEntries` (splitter.go lines 101-137)
for one group: the entry it appends, or `none` where it says `continue`. -/
def basicEntryOf (group : List Word) : Option SubtitleEntry :=
  if group.length = 0 then none
  else
    let actualWords := group.filter (fun w => decide (w.Type_ = "word"))
    match actualWords with
    | [] => none
    | first :: more =>
      let text := TrimSpace (group.map (fun w => w.Text)).flatten
      if text = [] then none
      else
        let charCount := (text.filter (fun c => c ≠ ' ')).length
        some { Text := text
               Start := first.Start
               End := ((first :: more).getLast (List.cons_ne_nil first more)).End
               Words := group
               IsAudioEvent := false
               WordCount := ((first :: more).length : Int)
               CharCount := (charCount : Int) }

/-- The method `CreateBasicEntries` of splitter.go. -/
def CreateBasicEntries (_s : SentenceSplitter) (groups : List (List Word)) : List SubtitleEntry :=
  groups.filterMap basicEntryOf

/-! ## config -/

/-- Subtitle generation parameters (config.go, `SubtitleSettings`). -/
structure SubtitleSettings where
  MinSubtitleDuration : ℚ
  MaxSubtitleDuration : ℚ
  MinSubtitleGap : ℚ
  CJKCPS : ℚ
  LatinCPS : ℚ
  CJKCharsPerLine : Int
  LatinCharsPerLine : Int

/-- The `SubtitleSettings` of `config.Default()`. -/
def DefaultSubtitleSettings : SubtitleSettings :=
  { MinSubtitleDuration := 83 / 100
    MaxSubtitleDuration := 12
    MinSubtitleGap := 83 / 1000
    CJKCPS := 11
    LatinCPS := 15
    CJKCharsPerLine := 25
    LatinCharsPerLine := 42 }

/-- The keys of `cjkCodes` (language.go), all mapped to `true`. -/
def cjkCodes : List GoString :=
  ["zho".toList, "jpn".toList, "kor".toList, "chi".toList, "zh".toList, "ja".toList,
   "ko".toList]

/-- The function `config.IsCJK` of language.go, on an ASCII language code
(for which bytes and code points coincide). -/
def IsCJK (langCode : GoString) : Bool :=
  let langCode := if langCode.length > 3 then langCode.take 3 else langCode
  decide (langCode ∈ cjkCodes)

/-! ## merger.go -/

/-- Stage 2 of the pipeline (merger.go, `IntelligentMerger`). -/
structure IntelligentMerger where
  Language : GoString
  IsCJK : Bool
  MinSubtitleDuration : ℚ
  MaxSubtitleDuration : ℚ
  MinSubtitleGap : ℚ
  MaxCPS : ℚ
  MaxCharsPerLine : Int

/-- The function `NewIntelligentMerger` of merger.go, on an ASCII language
code. -/
def NewIntelligentMerger (langCode : GoString) (settings : SubtitleSettings) :
    IntelligentMerger :=
  let lang := if langCode.length > 3 then langCode.take 3 else langCode
  let isCJK := IsCJK lang
  { Language := lang
    IsCJK := isCJK
    MinSubtitleDuration := settings.MinSubtitleDuration
    MaxSubtitleDuration := settings.MaxSubtitleDuration
    MinSubtitleGap := settings.MinSubtitleGap
    MaxCPS := if isCJK then settings.CJKCPS else settings.LatinCPS
    MaxCharsPerLine := if isCJK then settings.CJKCharsPerLine else settings.LatinCharsPerLine }

/-- The merger of merger_test.go, `defaultMerger()`: language "en" with the
default settings. -/
def defaultMerger : IntelligentMerger := NewIntelligentMerger "en".toList DefaultSubtitleSettings

/-- The function `stripWhitespaceCount` of merger.go. -/
def stripWhitespaceCount (text : GoString) : Nat :=
  (text.filter (fun r => !isSpace r)).length

/-- The method `calculateCPS` of merger.go; `⊤` is `math.Inf(1)`. -/
def calculateCPS (_m : IntelligentMerger) (text : GoString) (duration : ℚ) : WithTop ℚ :=
  if duration ≤ 0 then ⊤
  else (((stripWhitespaceCount text : ℚ) / duration : ℚ) : WithTop ℚ)

/-- The method `getDynamicCPSLimit` of merger.go. -/
def getDynamicCPSLimit (m : IntelligentMerger) (text : GoString) : ℚ :=
  let base := m.MaxCPS
  let textLen := stripWhitespaceCount text
  if textLen ≤ 3 then base * 3
  else if textLen ≤ 5 then base * 2
  else if textLen ≤ 10 then base * (3 / 2)
  else base

/-- The slice expression `runes[i:]`: `none` where Go panics because `i` is
out of range. -/
def sliceFrom (runes : List Char) (i : Int) : Option (List Char) :=
  if 0 ≤ i ∧ i ≤ (runes.length : Int) then some (runes.drop i.toNat) else none

/-- The loop of `calculateDisplayLines` (merger.go lines 90-99), run for at
most `fuel` rounds from the given `remaining` and `lines`; `none` when the
slice panics or the rounds are used up. -/
def displayLinesLoop (maxCPL : Int) : Nat → GoString → Nat → Option Nat
  | 0, _, _ => none
  | fuel + 1, remaining, lines =>
    if remaining = [] then some lines
    else if (remaining.length : Int) ≤ maxCPL then some (lines + 1)
    else
      match sliceFrom remaining (findSplitPosition remaining maxCPL) with
      | none => none
      | some rest => displayLinesLoop maxCPL fuel (TrimSpace rest) (lines + 1)

/-- The method `calculateDisplayLines` of merger.go.  A round that does not
end the loop cuts at least one rune off `remaining` or leaves it as it is for
ever, so `len(text) + 1` rounds are used up only by a run that never ends:
whatever the loop returns with some number of rounds, it returns with these
(`calculateDisplayLines_fuel`). -/
def calculateDisplayLines (m : IntelligentMerger) (text : GoString) : Option Nat :=
  if text = [] then some 0
  else displayLinesLoop m.MaxCharsPerLine (text.length + 1) (TrimSpace text) 0

/-- The method `canMerge` of merger.go, returning `(ok, reason)`. -/
def canMerge (m : IntelligentMerger) (e1 e2 : SubtitleEntry) : Option (Bool × String) :=
  if e1.IsAudioEvent || e2.IsAudioEvent then some (false, "audio event")
  else
    let gap := e2.Start - e1.End
    if gap < m.MinSubtitleGap then some (false, "gap too small")
    else if gap > 2 then some (false, "gap too large")
    else
      let mergedText := e1.Text ++ [' '] ++ e2.Text
      let mergedDuration := e2.End - e1.Start
      let maxAllowed := min m.MaxSubtitleDuration 6
      if mergedDuration > maxAllowed then some (false, "duration too long")
      else
        let mergedCPS := calculateCPS m mergedText mergedDuration
        let dynamicLimit := getDynamicCPSLimit m mergedText
        if mergedCPS > (dynamicLimit : WithTop ℚ) then some (false, "CPS too high")
        else
          match calculateDisplayLines m mergedText with
          | none => none
          | some mergedLines =>
            if mergedLines > 2 then some (false, "too many lines")
            else if mergedLines = 1 ∧ (mergedText.length : Int) > m.MaxCharsPerLine then
              some (false, "single line too long")
            else some (true, "")

/-- The value `cc1` (and `cc2`) of `calculateMergeBenefit`, merger.go lines
162-169: the entry's `CharCount`, or the rune count of its text when that is 0. -/
def benefitCharCount (e : SubtitleEntry) : Int :=
  if e.CharCount = 0 then (e.Text.length : Int) else e.CharCount

/-- The method `calculateMergeBenefit` of merger.go. -/
def calculateMergeBenefit (m : IntelligentMerger) (e1 e2 : SubtitleEntry) : ℚ :=
  let benefit : ℚ := 0
  let d1 := e1.End - e1.Start
  let d2 := e2.End - e2.Start
  let benefit := if d1 < m.MinSubtitleDuration then benefit + (m.MinSubtitleDuration - d1) * 20
    else benefit
  let benefit := if d2 < m.MinSubtitleDuration then benefit + (m.MinSubtitleDuration - d2) * 20
    else benefit
  let gap := e2.Start - e1.End
  let benefit := if gap < 3 / 10 then benefit + (3 / 10 - gap) * 10
    else if gap < 1 / 2 then benefit + (1 / 2 - gap) * 5
    else benefit
  let cc1 := benefitCharCount e1
  let cc2 := benefitCharCount e2
  let benefit := if cc1 < 3 then benefit + ((3 - cc1 : Int) : ℚ) * 5
    else if cc1 < 8 then benefit + ((8 - cc1 : Int) : ℚ) * 2
    else benefit
  let benefit := if cc2 < 3 then benefit + ((3 - cc2 : Int) : ℚ) * 5
    else if cc2 < 8 then benefit + ((8 - cc2 : Int) : ℚ) * 2
    else benefit
  benefit

/-- The method `mergeTwoEntries` of merger.go. -/
def mergeTwoEntries (m : IntelligentMerger) (e1 e2 : SubtitleEntry) : SubtitleEntry :=
  let t1 := TrimSpace e1.Text
  let t2 := TrimSpace e2.Text
  let mergedText :=
    if t1 ≠ [] ∧ endsWithJoinPunctuation t1 then t1 ++ t2
    else if m.IsCJK then t1 ++ t2
    else t1 ++ [' '] ++ t2
  { Text := mergedText
    Start := e1.Start
    End := e2.End
    Words := e1.Words ++ e2.Words
    IsAudioEvent := e1.IsAudioEvent || e2.IsAudioEvent
    WordCount := e1.WordCount + e2.WordCount
    CharCount := (stripWhitespaceCount mergedText : Int) }

/-- The loops of `MergeBasicEntries` (merger.go lines 223-245) from the point
where `current` holds the running entry and `rest` is `entries[i+1:]`: the
entries appended to `merged` from there on.  Leaving the inner loop by `break`
appends `current` and makes the next entry the running one. -/
def mergeFrom (m : IntelligentMerger) :
    SubtitleEntry → List SubtitleEntry → Option (List SubtitleEntry)
  | current, [] => some [current]
  | current, next :: rest =>
    match canMerge m current next with
    | none => none
    | some (false, _) => (mergeFrom m next rest).map (fun out => current :: out)
    | some (true, _) =>
      if calculateMergeBenefit m current next ≤ 5 then
        (mergeFrom m next rest).map (fun out => current :: out)
      else mergeFrom m (mergeTwoEntries m current next) rest

/-- The method `MergeBasicEntries` of merger.go. -/
def MergeBasicEntries (m : IntelligentMerger) : List SubtitleEntry → Option (List SubtitleEntry)
  | [] => some []
  | first :: rest => mergeFrom m first rest

/-! ## float64 -/

/-- The integer nearest to `x`, the even one of the two when `x` lies half way
between them. -/
def roundEven (x : ℚ) : ℤ :=
  let f := ⌊x⌋
  let r := x - f
  if r < 1 / 2 then f else if 1 / 2 < r then f + 1 else if f % 2 = 0 then f else f + 1

/-- The `float64` nearest to the real number `q`, ties to even: the result of
a Go floating-point constant, division or product whose exact value is `q`
(IEEE 754 binary64, 53 significant bits, least exponent -1022; magnitudes that
round to an infinity are outside the model). -/
def float64 (q : ℚ) : ℚ :=
  if q = 0 then 0
  else
    let e := max (Int.log 2 |q|) (-1022) - 52
    (roundEven (q / 2 ^ e) : ℚ) * 2 ^ e

/-! ## merger.go: the optimization pass -/

/-- The entry `e` and the value `duration` of `optimizeSingle` after the two
clamps of merger.go lines 282-294.  The difference `e.End - e.Start` and the
sums `e.Start + m.MaxSubtitleDuration`, `e.Start + m.MinSubtitleDuration` are
rounded to `float64`. -/
def clampDuration (m : IntelligentMerger) (entry : SubtitleEntry) : SubtitleEntry × ℚ :=
  let e := entry
  let duration := float64 (e.End - e.Start)
  let st : SubtitleEntry × ℚ :=
    if duration > m.MaxSubtitleDuration then
      ({ e with End := float64 (e.Start + m.MaxSubtitleDuration) }, m.MaxSubtitleDuration)
    else (e, duration)
  if st.2 < m.MinSubtitleDuration then
    ({ st.1 with End := float64 (st.1.Start + m.MinSubtitleDuration) }, m.MinSubtitleDuration)
  else st

/-- The value `required` of merger.go lines 300-301,
`math.Min(float64(n) / dynamicLimit, MaxSubtitleDuration)`, the quotient
rounded to `float64`.  Dividing a positive count by a limit of 0 gives `+Inf`
in Go, and the minimum is then `MaxSubtitleDuration`.  (`0 / 0`, which is a
NaN in Go, is outside the model and is given the same value here; it needs
`MaxCPS = 0`, a text without a non-space rune and a clamped duration that is
not positive.) -/
def requiredDuration (m : IntelligentMerger) (n : Nat) (dynamicLimit : ℚ) : ℚ :=
  if dynamicLimit = 0 then m.MaxSubtitleDuration
  else min (float64 ((n : ℚ) / dynamicLimit)) m.MaxSubtitleDuration

/-- The method `optimizeSingle` of merger.go.  The quotient of `calculateCPS`,
the product of `getDynamicCPSLimit` and the sum `e.Start + required` are
rounded to `float64`. -/
def optimizeSingle (m : IntelligentMerger) (entry : SubtitleEntry) : SubtitleEntry :=
  let st := clampDuration m entry
  let e := st.1
  let duration := st.2
  let cps := (calculateCPS m e.Text duration).map float64
  let dynamicLimit := float64 (getDynamicCPSLimit m e.Text)
  if cps > (dynamicLimit : WithTop ℚ) then
    let required := requiredDuration m (stripWhitespaceCount e.Text) dynamicLimit
    { e with End := float64 (e.Start + required) }
  else e

/-- The gap step of `OptimizeMergedEntries` (merger.go lines 262-272) on the
optimized entry `e` when `next` is the entry after it in the input.  The
differences `nextStart - e.End`, `nextStart - m.MinSubtitleGap` and the sum
`e.Start + m.MinSubtitleDuration` are rounded to `float64`. -/
def ensureGap (m : IntelligentMerger) (e next : SubtitleEntry) : SubtitleEntry :=
  let nextStart := next.Start
  let gap := float64 (nextStart - e.End)
  if gap < m.MinSubtitleGap then
    let e := { e with End := float64 (nextStart - m.MinSubtitleGap) }
    let minEnd := float64 (e.Start + m.MinSubtitleDuration)
    if e.End < minEnd then { e with End := minEnd } else e
  else e

/-- The loop of `OptimizeMergedEntries` (merger.go lines 258-275) on the
entries from index `i` on: the entries appended to `optimized`. -/
def optimizeLoop (m : IntelligentMerger) : List SubtitleEntry → List SubtitleEntry
  | [] => []
  | entry :: rest =>
    let e := optimizeSingle m entry
    let e := match rest with
      | [] => e
      | next :: _ => ensureGap m e next
    e :: optimizeLoop m rest

/-- The method `OptimizeMergedEntries` of merger.go. -/
def OptimizeMergedEntries (m : IntelligentMerger) (entries : List SubtitleEntry) :
    List SubtitleEntry :=
  if entries.length = 0 then [] else optimizeLoop m entries

/-! ## formatter.go -/

/-- The slice expression `runes[:i]`: `none` where Go panics because `i` is out
of range. -/
def sliceTo (runes : List Char) (i : Int) : Option (List Char) :=
  if 0 ≤ i ∧ i ≤ (runes.length : Int) then some (runes.take i.toNat) else none

/-- The rune `'\n'`. -/
def newline : Char := Char.ofNat 0x0a

/-- The verb `%d` of `fmt` on a non-negative integer, padded with zeros to
`width` digits (`%02d`, `%03d`; `%d` is width 0). -/
def formatInt (width : Nat) (n : Nat) : GoString :=
  let digits := Nat.toDigits 10 n
  List.replicate (width - digits.length) '0' ++ digits

/-- Go `math.Mod(x, y)` for `x ≥ 0` and `y > 0`; its result is exact. -/
def fmod (x y : ℚ) : ℚ := x - y * ((x / y).floor : ℚ)

/-- The function `formatSRTTime` of formatter.go on a `float64` argument: the
two divisions and the product are rounded to `float64`, `math.Abs` and
`math.Mod` are exact, and `int(x)` of a non-negative `x` is its floor. -/
def formatSRTTime (seconds : ℚ) : GoString :=
  let totalSec := |seconds|
  let hours := (float64 (totalSec / 3600)).floor.toNat
  let remainder := fmod totalSec 3600
  let minutes := (float64 (remainder / 60)).floor.toNat
  let secs := fmod remainder 60
  let millis := (float64 (fmod secs 1 * 1000)).floor.toNat
  formatInt 2 hours ++ [':'] ++ formatInt 2 minutes ++ [':'] ++ formatInt 2 secs.floor.toNat ++
    [','] ++ formatInt 3 millis

/-- The function `splitTextIntoLines` of formatter.go. -/
def splitTextIntoLines (text : GoString) (maxCPL : Int) : Option GoString :=
  let text := TrimSpace text
  let runes := text
  if (runes.length : Int) ≤ maxCPL then some text
  else
    let splitPos := findSplitPosition text maxCPL
    match sliceTo runes splitPos, sliceFrom runes splitPos with
    | some head, some tail =>
      let firstLine := TrimSpace head
      let remaining := TrimSpace tail
      if remaining = [] then some firstLine
      else some (firstLine ++ [newline] ++ remaining)
    | _, _ => none

/-- The function `optimizeTextDisplay` of formatter.go. -/
def optimizeTextDisplay (text : GoString) (maxCPL : Int) : Option GoString :=
  let text := TrimSpace text
  if text = [] then some text
  else if (text.length : Int) ≤ maxCPL then some text
  else splitTextIntoLines text maxCPL

/-! ## processor.go -/

/-- What one round of the loop of `generateSRT` writes for `entry` at index
`i` when `optimizeTextDisplay` gave `text`: the output of
`fmt.Fprintf(&sb, "%d\n%s --> %s\n%s\n", i+1, startStr, endStr, text)`. -/
def srtBlock (i : Nat) (entry : SubtitleEntry) (text : GoString) : GoString :=
  formatInt 0 (i + 1) ++ [newline] ++ formatSRTTime entry.Start ++ " --> ".toList ++
    formatSRTTime entry.End ++ [newline] ++ text ++ [newline]

/-- The loop of `generateSRT` (processor.go lines 103-112) from index `i` on,
`n` being `len(entries)`, `rest` the entries not yet visited and `sb` what the
builder holds. -/
def generateLoop (maxCPL : Int) (n : Nat) : Nat → List SubtitleEntry → GoString → Option GoString
  | _, [], sb => some sb
  | i, entry :: rest, sb =>
    match optimizeTextDisplay entry.Text maxCPL with
    | none => none
    | some text =>
      let sb := sb ++ srtBlock i entry text
      let sb := if i < n - 1 then sb ++ [newline] else sb
      generateLoop maxCPL n (i + 1) rest sb

/-- The function `generateSRT` of processor.go. -/
def generateSRT (entries : List SubtitleEntry) (maxCPL : Int) : Option GoString :=
  if entries.length = 0 then some []
  else generateLoop maxCPL entries.length 0 entries []

/-! ## The terms of the merge benefit, as the specification words them -/

/-- The top-level transcript (types.go, `TranscriptResponse`). -/
structure TranscriptResponse where
  LanguageCode : GoString
  Text : GoString
  Words : List Word

/-- The function `config.CPSForLang` of language.go. -/
def CPSForLang (langCode : GoString) : ℚ := if IsCJK langCode then 11 else 15

/-- The function `config.CPLForLang` of language.go. -/
def CPLForLang (langCode : GoString) : Int := if IsCJK langCode then 25 else 42

/-- The function `NewSentenceSplitter` of splitter.go, on an ASCII language
code. -/
def NewSentenceSplitter (langCode : GoString) : SentenceSplitter :=
  let lang := if langCode.length > 3 then langCode.take 3 else langCode
  { Language := lang, IsCJK := IsCJK lang }

/-- The entry that the loop of `createAudioEventEntries` appends for the event
`ev` (processor.go lines 83-92). -/
def audioEventEntry (ev : Word) : SubtitleEntry :=
  let charCount := (ev.Text.filter (fun c => c ≠ ' ')).length
  { Text := ev.Text
    Start := ev.Start
    End := ev.End
    Words := [ev]
    IsAudioEvent := true
    WordCount := 0
    CharCount := (charCount : Int) }

/-- The function `createAudioEventEntries` of processor.go. -/
def createAudioEventEntries (events : List Word) : List SubtitleEntry :=
  events.map audioEventEntry

/-- What Go's `sort.Slice(all, func(i, j) bool { return all[i].Start <
all[j].Start })` guarantees of its result: a permutation of the slice in which
no entry starts before an earlier one.  The order of entries with equal
`Start` is left to the library. -/
def IsSliceSort (sortSlice : List SubtitleEntry → List SubtitleEntry) : Prop :=
  ∀ l, (sortSlice l).Perm l ∧ (sortSlice l).Pairwise (fun a b => a.Start ≤ b.Start)

/-- The value `maxCPL` of `Process` (processor.go lines 15-24). -/
def processMaxCPL (transcript : TranscriptResponse) (settings : SubtitleSettings) : Int :=
  let langCode := transcript.LanguageCode
  let langCode := if langCode.length > 3 then langCode.take 3 else langCode
  let isCJK := IsCJK langCode
  if isCJK then settings.CJKCharsPerLine else settings.LatinCharsPerLine

/-- The merger that `Process` builds (processor.go lines 48-65). -/
def processMerger (transcript : TranscriptResponse) (settings : SubtitleSettings) :
    IntelligentMerger :=
  let langCode := transcript.LanguageCode
  let langCode := if langCode.length > 3 then langCode.take 3 else langCode
  let isCJK := IsCJK langCode
  let mergerSettings : SubtitleSettings :=
    if isCJK then
      { MinSubtitleDuration := settings.MinSubtitleDuration
        MaxSubtitleDuration := settings.MaxSubtitleDuration
        MinSubtitleGap := settings.MinSubtitleGap
        CJKCPS := settings.CJKCPS
        LatinCPS := CPSForLang "en".toList
        CJKCharsPerLine := settings.CJKCharsPerLine
        LatinCharsPerLine := CPLForLang "en".toList }
    else
      { MinSubtitleDuration := settings.MinSubtitleDuration
        MaxSubtitleDuration := settings.MaxSubtitleDuration
        MinSubtitleGap := settings.MinSubtitleGap
        CJKCPS := CPSForLang "zh".toList
        LatinCPS := settings.LatinCPS
        CJKCharsPerLine := CPLForLang "zh".toList
        LatinCharsPerLine := settings.LatinCharsPerLine }
  NewIntelligentMerger langCode mergerSettings

/-- The slice `basicEntries` of `Process` (processor.go lines 34-39). -/
def processBasicEntries (transcript : TranscriptResponse) : List SubtitleEntry :=
  let langCode := transcript.LanguageCode
  let langCode := if langCode.length > 3 then langCode.take 3 else langCode
  let result := preprocessWords transcript.Words
  if result.Words.length > 0 then
    let splitter := NewSentenceSplitter langCode
    let groups := SplitIntoSentenceGroups splitter result.Words
    CreateBasicEntries splitter groups
  else []

/-- The slice `mergedEntries` of `Process` (processor.go lines 45-68); `none`
when the merger does not return. -/
def processMergedEntries (transcript : TranscriptResponse) (settings : SubtitleSettings) :
    Option (List SubtitleEntry) :=
  let basicEntries := processBasicEntries transcript
  if basicEntries.length > 0 then
    let merger := processMerger transcript settings
    (MergeBasicEntries merger basicEntries).map (fun mergedEntries =>
      OptimizeMergedEntries merger mergedEntries)
  else some []

/-- The function `Process` of processor.go, with the result of `sort.Slice`
given by `sortSlice`. -/
def Process (sortSlice : List SubtitleEntry → List SubtitleEntry)
    (transcript : TranscriptResponse) (settings : SubtitleSettings) : Option GoString :=
  let maxCPL := processMaxCPL transcript settings
  let result := preprocessWords transcript.Words
  if result.Words.length = 0 ∧ result.AudioEvents.length = 0 then some []
  else
    let audioEntries := createAudioEventEntries result.AudioEvents
    match processMergedEntries transcript settings with
    | none => none
    | some mergedEntries =>
      let all := sortSlice (mergedEntries ++ audioEntries)
      generateSRT all maxCPL

/-- A function that meets the contract `IsSliceSort` of `sort.Slice` in
`Process`: insertion sort on the start times. -/
def sortByStart (l : List SubtitleEntry) : List SubtitleEntry :=
  l.insertionSort (fun a b => a.Start ≤ b.Start)

/-! ## worker: worker.go and concurrent.go

The pieces of `internal/worker` that compute on transcripts.  A chunk task and
the sequential fallback are written with the outcome of each call of the
transcriber given by a function, and they record the calls they make; the
context is taken as never cancelled. -/

/-- Go `math.Round`: the nearest integer, a half rounded away from zero. -/
def mathRound (x : ℚ) : ℤ :=
  if 0 ≤ x then ⌊x + 1 / 2⌋ else -⌊-x + 1 / 2⌋

/-- The function `applyTimeOffset` of worker.go, the slice it rewrites given
as its result. -/
def applyTimeOffset (words : List Word) (offsetSec : ℚ) : List Word :=
  words.map (fun w =>
    { w with
      Start := (mathRound ((w.Start + offsetSec) * 1000) : ℚ) / 1000
      End := (mathRound ((w.End + offsetSec) * 1000) : ℚ) / 1000 })

/-- The result of one chunk (concurrent.go, `chunkResult`); the transcript is
never nil in a result. -/
structure chunkResult where
  Index : Int
  Transcript : TranscriptResponse

/-- What `sort.Slice(results, func(i, j) bool { return results[i].Index <
results[j].Index })` guarantees of its result: a permutation of the slice in
which no result has a smaller index than an earlier one. -/
def IsIndexSort (sortSlice : List chunkResult → List chunkResult) : Prop :=
  ∀ l, (sortSlice l).Perm l ∧ (sortSlice l).Pairwise (fun a b => a.Index ≤ b.Index)

/-- A function that meets the contract `IsIndexSort`: insertion sort on the
indices. -/
def sortByIndex (l : List chunkResult) : List chunkResult :=
  l.insertionSort (fun a b => a.Index ≤ b.Index)

/-- One round of the loop of `mergeResults` (concurrent.go lines 142-148). -/
def mergeStep (combined : TranscriptResponse) (r : chunkResult) : TranscriptResponse :=
  let words := combined.Words ++ r.Transcript.Words
  let text := if combined.Text ≠ [] then combined.Text ++ [' '] else combined.Text
  { combined with Words := words, Text := text ++ r.Transcript.Text }

/-- The function `mergeResults` of concurrent.go, with the result of
`sort.Slice` given by `sortSlice`; `none` when `results[0]` panics. -/
def mergeResults (sortSlice : List chunkResult → List chunkResult)
    (results : List chunkResult) : Option TranscriptResponse :=
  match sortSlice results with
  | [] => none
  | r0 :: rest =>
    some ((r0 :: rest).foldl mergeStep
      { LanguageCode := r0.Transcript.LanguageCode, Text := [], Words := [] })

/-- The time offset of a chunk (concurrent.go lines 103-105 and 181-183):
`applyTimeOffset(transcript.Words, float64(i*splitDurationSec))` when `i > 0`. -/
def offsetChunk (i : Int) (splitDurationSec : Int) (transcript : TranscriptResponse) :
    TranscriptResponse :=
  if i > 0 then
    { transcript with
      Words := applyTimeOffset transcript.Words ((i * splitDurationSec : Int) : ℚ) }
  else transcript

/-- What a chunk task does that the outside can see: `acquire` is a return of
`limiter.Wait` without error, `call k` the call of `api.Transcribe` in the
round `attempt = k`, and `backoff k` the wait of `1 << k` seconds after it. -/
inductive TaskEvent where
  | acquire
  | call (attempt : Nat)
  | backoff (attempt : Nat)
deriving DecidableEq

/-- The errors a chunk task returns: `fmt.Errorf("rate limiter: %w", err)` and
`fmt.Errorf("chunk %d/%d failed after %d retries: %w", i+1, len(chunks),
opts.MaxRetries, lastErr)`; `lastErr` is nil when no call was made. -/
inductive TaskError (ε : Type) where
  | rateLimiter (err : ε)
  | retriesExhausted (chunk total retries : Int) (lastErr : Option ε)

/-- The retry loop of a chunk task (concurrent.go lines 55-95) from the round
`attempt` on, `transcribe k` being the outcome of the call made in round `k`:
the events, the value of `transcript` (`none` for nil) and the value of
`lastErr` when the loop is left. -/
def retryLoop {ε : Type} (maxRetries : Int) (transcribe : Nat → Except ε TranscriptResponse)
    (attempt : Nat) (lastErr : Option ε) (trace : List TaskEvent) :
    List TaskEvent × Option TranscriptResponse × Option ε :=
  if (attempt : Int) < maxRetries then
    let trace := trace ++ [TaskEvent.call attempt]
    match transcribe attempt with
    | .ok t => (trace, some t, lastErr)
    | .error err =>
      let trace :=
        if (attempt : Int) < maxRetries - 1 then trace ++ [TaskEvent.backoff attempt] else trace
      retryLoop maxRetries transcribe (attempt + 1) (some err) trace
  else (trace, none, lastErr)
termination_by (maxRetries - attempt).toNat
decreasing_by omega

/-- The task that `processConcurrent` starts for the chunk `i` of `total`
(concurrent.go lines 43-113), `wait` being the outcome of `limiter.Wait`: the
events and either the error returned or the result appended to `results`. -/
def chunkTask {ε : Type} (i total : Nat) (splitDurationSec maxRetries : Int)
    (wait : Except ε Unit) (transcribe : Nat → Except ε TranscriptResponse) :
    List TaskEvent × Except (TaskError ε) chunkResult :=
  match wait with
  | .error err => ([], .error (TaskError.rateLimiter err))
  | .ok _ =>
    match retryLoop maxRetries transcribe 0 none [TaskEvent.acquire] with
    | (trace, none, lastErr) =>
      (trace, .error (TaskError.retriesExhausted ((i : Int) + 1) total maxRetries lastErr))
    | (trace, some transcript, _) =>
      (trace, .ok { Index := i, Transcript := offsetChunk i splitDurationSec transcript })

/-- The error of `fallbackToSequential`:
`fmt.Errorf("sequential fallback chunk %d/%d: %w", i+1, len(chunks), err)`. -/
inductive FallbackError (ε : Type) where
  | chunk (index total : Int) (err : ε)

/-- The loop of `fallbackToSequential` (concurrent.go lines 163-186) over the
chunk indices still to visit, `transcribe i` being the outcome of the one call
for chunk `i` and `done` the keys of the map `done`: the indices called, in
order, and either the error returned or the slice `completed` at the end. -/
def fallbackLoop {ε : Type} (total : Nat) (splitDurationSec : Int)
    (transcribe : Nat → Except ε TranscriptResponse) (done : List Int) :
    List Nat → List chunkResult → List Nat →
      List Nat × Except (FallbackError ε) (List chunkResult)
  | [], completed, calls => (calls, .ok completed)
  | i :: rest, completed, calls =>
    if (i : Int) ∈ done then
      fallbackLoop total splitDurationSec transcribe done rest completed calls
    else
      match transcribe i with
      | .error err => (calls ++ [i], .error (FallbackError.chunk ((i : Int) + 1) total err))
      | .ok transcript =>
        fallbackLoop total splitDurationSec transcribe done rest
          (completed ++ [{ Index := i, Transcript := offsetChunk i splitDurationSec transcript }])
          (calls ++ [i])

/-- The function `fallbackToSequential` of concurrent.go on `total` chunks:
the indices for which the transcriber was called, in order, and what is
returned; `none` when `mergeResults` panics. -/
def fallbackToSequential {ε : Type} (sortSlice : List chunkResult → List chunkResult)
    (total : Nat) (splitDurationSec : Int) (transcribe : Nat → Except ε TranscriptResponse)
    (completed : List chunkResult) :
    List Nat × Option (Except (FallbackError ε) TranscriptResponse) :=
  let done := completed.map (fun r => r.Index)
  match fallbackLoop total splitDurationSec transcribe done (List.range total) completed [] with
  | (calls, .error e) => (calls, some (.error e))
  | (calls, .ok completed) => (calls, (mergeResults sortSlice completed).map .ok)

/-! ### What the statements observe of the worker -/

/-- The rounds in which a chunk task called the transcriber. -/
def callsOf (trace : List TaskEvent) : List Nat :=
  trace.filterMap (fun ev => match ev with
    | TaskEvent.call k => some k
    | _ => none)

/-- The number of limiter tokens a chunk task acquired. -/
def acquisitions (trace : List TaskEvent) : Nat :=
  trace.count TaskEvent.acquire

/-- The test `!done[i]` of `fallbackToSequential`, `done` given by its keys. -/
def notDone (done : List Int) (i : Nat) : Bool :=
  decide ((i : Int) ∉ done)

/-! ## Auxiliary predicates -/

/-- The merger of merger_test.go, `defaultMerger()`, with its four `float64`
fields as Go holds them: the constants 0.83, 12.0, 0.083 and 15 rounded to
`float64`. -/
def defaultMerger64 : IntelligentMerger :=
  { defaultMerger with
    MinSubtitleDuration := float64 defaultMerger.MinSubtitleDuration
    MaxSubtitleDuration := float64 defaultMerger.MaxSubtitleDuration
    MinSubtitleGap := float64 defaultMerger.MinSubtitleGap
    MaxCPS := float64 defaultMerger.MaxCPS }

/-- The four `float64` fields of a merger hold `float64` values. -/
def IsFloat64Merger (m : IntelligentMerger) : Prop :=
  float64 m.MinSubtitleDuration = m.MinSubtitleDuration ∧
  float64 m.MaxSubtitleDuration = m.MaxSubtitleDuration ∧
  float64 m.MinSubtitleGap = m.MinSubtitleGap ∧
  float64 m.MaxCPS = m.MaxCPS

/-- A bound on the distance from a real number of magnitude at most `x` to the
`float64` nearest to it: half a unit in the last place of `x`, which is at
most `x / 2 ^ 53`, or half the least subnormal. -/
def roundingError (x : ℚ) : ℚ := x / 2 ^ 53 + 1 / 2 ^ 1075

/-- A token that `preprocessWords` keeps in `Words`: neither an audio event
nor a spacing token. -/
def isKept (w : Word) : Prop := w.Type_ ≠ "audio_event" ∧ w.Type_ ≠ "spacing"

/-- A word list on which `preprocessWords` has nothing left to do: only kept
tokens, and no token fuses into the one before it. -/
def Settled (ws : List Word) : Prop :=
  (∀ w ∈ ws, isKept w) ∧ List.Chain' (fun p w => fusesInto p w = false) ws

/-- No word of `c` asks for a split, given the words of `c` before it. -/
def NoSplitIn (s : SentenceSplitter) (c : List Word) : Prop :=
  ∀ pre w post, c = pre ++ w :: post → shouldSplitAtWord s w pre = false

/-- No word of `g` but possibly the last asks for a split, given the words of
`g` before it. -/
def OpenGroup (s : SentenceSplitter) (g : List Word) : Prop :=
  ∀ pre w post, g = pre ++ w :: post → post ≠ [] → shouldSplitAtWord s w pre = false

/-- The last word of `g` asks for a split, given the words of `g` before it. -/
def ClosedGroup (s : SentenceSplitter) (g : List Word) : Prop :=
  ∀ pre w, g = pre ++ [w] → shouldSplitAtWord s w pre = true

/-- The invariant of the loop of `SplitIntoSentenceGroups`, at index `i` with
`rest` still to visit. -/
def SplitInv (s : SentenceSplitter) (words : List Word) (i : Nat) (rest : List Word)
    (groups : List (List Word)) (current : List Word) : Prop :=
  groups.flatten ++ current ++ rest = words ∧ i + rest.length = words.length ∧
  (∀ g ∈ groups, g ≠ [] ∧ OpenGroup s g) ∧ NoSplitIn s current ∧
  (∀ g ∈ groups.dropLast, ClosedGroup s g) ∧ (rest ≠ [] → ∀ g ∈ groups, ClosedGroup s g) ∧
  (rest = [] → current = [])

/-- A group that `CreateBasicEntries` turns into an entry: it holds a token of
type word and the concatenation of its texts is not blank. -/
def makesEntry (group : List Word) : Bool :=
  group.any (fun w => decide (w.Type_ = "word")) &&
    decide (TrimSpace (group.map (fun w => w.Text)).flatten ≠ [])

/-- What the entry made from `group` holds: the trimmed concatenation of all
the texts, the first word-type token's `Start`, the last one's `End`, and the
number of word-type tokens. -/
def EntryOfGroup (group : List Word) (e : SubtitleEntry) : Prop :=
  e.Text = TrimSpace (group.map (fun w => w.Text)).flatten ∧
  (group.filter (fun w => decide (w.Type_ = "word"))).head?.map (fun w => w.Start) = some e.Start ∧
  (group.filter (fun w => decide (w.Type_ = "word"))).getLast?.map (fun w => w.End) = some e.End ∧
  e.WordCount = ((group.filter (fun w => decide (w.Type_ = "word"))).length : Int)

/-- The texts of the entries that `MergeBasicEntries` receives from
`CreateBasicEntries`: every text is trimmed and is not empty, and the text of
every entry that has a successor ends in a rune of `allPunctuation`, the one
that made `SplitIntoSentenceGroups` close its group. -/
def PunctuatedEntries : List SubtitleEntry → Prop
  | [] => True
  | e :: rest =>
    (TrimSpace e.Text = e.Text ∧ e.Text ≠ []) ∧
    (rest ≠ [] → ∃ p, e.Text.getLast? = some p ∧ isPunctuation p = true) ∧
    PunctuatedEntries rest

/-! # Theorems -/

/-! ## preprocessWords -/

theorem fusesInto_append_space (q p : Word) :
    fusesInto q { p with Text := p.Text ++ [' '] } = false := by
  unfold fusesInto
  rcases h : p.Text with _ | ⟨c, t⟩
  · simp [isCJKMergePunct, cjkMergePunctuation]
  · cases t <;> simp

theorem fusesInto_append_text (q p w : Word) (hp : p.Text ≠ []) (hw : w.Text ≠ []) :
    fusesInto q { p with Text := p.Text ++ w.Text, End := w.End } = false := by
  unfold fusesInto
  rcases h : p.Text with _ | ⟨c, t⟩
  · exact absurd h hp
  · rcases h2 : w.Text with _ | ⟨d, u⟩
    · exact absurd h2 hw
    · cases t <;> simp

theorem fusesInto_text_ne_nil {prev w : Word} (h : fusesInto prev w = true) :
    prev.Text ≠ [] ∧ w.Text ≠ [] := by
  unfold fusesInto at h
  split at h
  · rename_i r hr
    simp only [Bool.and_eq_true, decide_eq_true_eq] at h
    exact ⟨h.1.2, by simp [hr]⟩
  · exact absurd h (by simp)

theorem chain_replace_last {R : Word → Word → Prop} (ini : List Word) (p p2 : Word)
    (h : List.Chain' R (ini ++ [p])) (hp : ∀ q, R q p2) : List.Chain' R (ini ++ [p2]) := by
  rw [List.chain'_append] at h ⊢
  refine ⟨h.1, List.chain'_singleton _, ?_⟩
  intro x _ y hy
  simp at hy
  subst hy
  exact hp x

theorem preprocessStep_settled (st : preprocessResult) (w : Word) (h : Settled st.Words) :
    Settled (preprocessStep st w).Words := by
  unfold preprocessStep
  split_ifs with ha hs
  · exact h
  · cases hl : st.Words.getLast? with
    | none => simpa [hl] using h
    | some prev =>
      simp only [hl]
      have hsplit : st.Words.dropLast ++ [prev] = st.Words :=
        List.dropLast_append_getLast? prev (by simp [hl])
      split_ifs with hg
      · rw [← hsplit] at h
        refine ⟨?_, chain_replace_last _ _ _ h.2 (fun q => fusesInto_append_space q prev)⟩
        intro x hx
        rcases List.mem_append.1 hx with hx | hx
        · exact h.1 x (List.mem_append_left _ hx)
        · simp at hx
          subst hx
          exact h.1 prev (by simp)
      · exact h
  · cases hl : st.Words.getLast? with
    | none =>
      have hnil : st.Words = [] := by simpa using hl
      simp only [hnil, List.nil_append]
      exact ⟨by intro x hx; simp at hx; subst hx; exact ⟨ha, hs⟩, List.chain'_singleton _⟩
    | some prev =>
      simp only [hl]
      have hsplit : st.Words.dropLast ++ [prev] = st.Words :=
        List.dropLast_append_getLast? prev (by simp [hl])
      split_ifs with hg
      · obtain ⟨h1, h2⟩ := fusesInto_text_ne_nil hg
        rw [← hsplit] at h
        refine ⟨?_, chain_replace_last _ _ _ h.2 (fun q => fusesInto_append_text q prev w h1 h2)⟩
        intro x hx
        rcases List.mem_append.1 hx with hx | hx
        · exact h.1 x (List.mem_append_left _ hx)
        · simp at hx
          subst hx
          exact h.1 prev (by simp)
      · refine ⟨?_, ?_⟩
        · intro x hx
          rcases List.mem_append.1 hx with hx | hx
          · exact h.1 x hx
          · simp at hx
            subst hx
            exact ⟨ha, hs⟩
        · rw [List.chain'_append]
          refine ⟨h.2, List.chain'_singleton _, ?_⟩
          intro x hx y hy
          simp at hy
          subst hy
          rw [hl] at hx
          simp at hx
          subst hx
          simpa using hg

theorem foldl_preprocessStep_settled (raw : List Word) :
    ∀ st : preprocessResult, Settled st.Words → Settled (raw.foldl preprocessStep st).Words := by
  induction raw with
  | nil => intro st h; exact h
  | cons w rest ih => intro st h; exact ih _ (preprocessStep_settled st w h)

theorem preprocessWords_settled (raw : List Word) : Settled (preprocessWords raw).Words :=
  foldl_preprocessStep_settled raw ⟨[], []⟩ ⟨by simp, List.chain'_nil⟩

theorem foldl_preprocessStep_of_settled (ws : List Word) :
    ∀ (acc ev : List Word), (∀ w ∈ ws, isKept w) →
      List.Chain' (fun p w => fusesInto p w = false) (acc ++ ws) →
      ws.foldl preprocessStep ⟨acc, ev⟩ = ⟨acc ++ ws, ev⟩ := by
  induction ws with
  | nil => intro acc ev _ _; simp
  | cons w rest ih =>
    intro acc ev hk hc
    have hw := hk w (by simp)
    have hstep : preprocessStep ⟨acc, ev⟩ w = ⟨acc ++ [w], ev⟩ := by
      unfold preprocessStep
      rw [if_neg hw.1, if_neg hw.2]
      cases hl : acc.getLast? with
      | none => simp [hl]
      | some prev =>
        simp only [hl]
        have hR : fusesInto prev w = false := by
          rw [List.chain'_append] at hc
          exact hc.2.2 prev (by simp [hl]) w (by simp)
        simp [hR]
    rw [List.foldl_cons, hstep]
    have := ih (acc ++ [w]) ev (fun x hx => hk x (List.mem_cons_of_mem _ hx))
      (by simpa using hc)
    simpa using this

/-- C1: running `preprocessWords` again on the `Words` it returned gives the
same `Words` back and no audio events. -/
theorem preprocessWords_idempotent (raw : List Word) :
    (preprocessWords (preprocessWords raw).Words).Words = (preprocessWords raw).Words ∧
    (preprocessWords (preprocessWords raw).Words).AudioEvents = [] := by
  have hs := preprocessWords_settled raw
  have h := foldl_preprocessStep_of_settled (preprocessWords raw).Words [] [] hs.1
    (by simpa using hs.2)
  have h2 : preprocessWords (preprocessWords raw).Words = ⟨(preprocessWords raw).Words, []⟩ := by
    simpa [preprocessWords] using h
  rw [h2]
  exact ⟨rfl, rfl⟩

theorem isCJKMergePunct_iff (c : Char) :
    isCJKMergePunct c = true ↔ c ∈ ['。', '？', '！', '」', '「', '、', '・', '，'] := by
  have key : ∀ d : Char, c.toNat = d.toNat ↔ c = d := fun d =>
    ⟨fun h => Char.ext (UInt32.ext (by simpa [Char.toNat, UInt32.toNat] using h)), fun h => by rw [h]⟩
  simp only [isCJKMergePunct, cjkMergePunctuation, decide_eq_true_eq, List.mem_cons,
    List.mem_singleton, List.not_mem_nil, or_false]
  rw [← key '。', ← key '？', ← key '！', ← key '」', ← key '「', ← key '、', ← key '・', ← key '，']
  rfl

/-- C2: for a word `w` with non-empty text followed by a token `p` that is
neither spacing nor an audio event and whose text is one rune of the fusion
set, `preprocessWords [w, p]` leaves `[w, p]` as it is when the text of `w`
already ends in a rune of the fusion set, and otherwise returns the single
token `w` with the text of `p` appended and `End` set to `p.End`. -/
theorem preprocessWords_fuses_cjk_punctuation (w p : Word) (r : Char)
    (hw : w.Type_ = "word") (hwt : w.Text ≠ [])
    (hps : p.Type_ ≠ "spacing") (hpa : p.Type_ ≠ "audio_event")
    (hpt : p.Text = [r]) (hr : r ∈ ['。', '？', '！', '」', '「', '、', '・', '，']) :
    (preprocessWords [w, p]).Words =
      if w.Text.getLast hwt ∈ ['。', '？', '！', '」', '「', '、', '・', '，'] then [w, p]
      else [{ w with Text := w.Text ++ p.Text, End := p.End }] := by
  have hwa : w.Type_ ≠ "audio_event" := by rw [hw]; decide
  have hws : w.Type_ ≠ "spacing" := by rw [hw]; decide
  have hlast : DecodeLastRuneInString w.Text = w.Text.getLast hwt := by
    simp [DecodeLastRuneInString, List.getLast?_eq_getLast _ hwt]
  have hf : fusesInto w p = !decide (w.Text.getLast hwt ∈ ['。', '？', '！', '」', '「', '、', '・', '，']) := by
    have h1 : isCJKMergePunct r = true := (isCJKMergePunct_iff r).2 hr
    have h2 : isCJKMergePunct (w.Text.getLast hwt) =
        decide (w.Text.getLast hwt ∈ ['。', '？', '！', '」', '「', '、', '・', '，']) := by
      rw [Bool.eq_iff_iff, isCJKMergePunct_iff]; simp
    simp only [fusesInto, hpt, h1, hw, hlast, h2]
    simp [hwt]
  simp only [preprocessWords, List.foldl_cons, List.foldl_nil]
  have s1 : preprocessStep ⟨[], []⟩ w = ⟨[w], []⟩ := by
    simp [preprocessStep, hwa, hws]
  rw [s1]
  simp only [preprocessStep, if_neg hpa, if_neg hps, List.getLast?_singleton, hf]
  by_cases hc : w.Text.getLast hwt ∈ ['。', '？', '！', '」', '「', '、', '・', '，']
  · simp [hc]
  · simp [hc]

/-- C2 at the tokens "こんにちは" and "。" of
`TestPreprocessWords_MergesCJKPunctuation`. -/
theorem preprocessWords_fuses_cjk_punctuation_witness :
    (preprocessWords [⟨"こんにちは".toList, 0, 1, "word"⟩, ⟨"。".toList, 1, 6/5, "word"⟩]).Words =
      [⟨"こんにちは。".toList, 0, 6/5, "word"⟩] := by
  have h := preprocessWords_fuses_cjk_punctuation ⟨"こんにちは".toList, 0, 1, "word"⟩
    ⟨"。".toList, 1, 6/5, "word"⟩ '。' rfl (by decide) (by decide) (by decide) rfl (by decide)
  simpa using h

theorem foldl_preprocessStep_audio (raw : List Word) :
    ∀ st : preprocessResult, (raw.foldl preprocessStep st).AudioEvents =
      st.AudioEvents ++ raw.filter (fun w => decide (w.Type_ = "audio_event")) := by
  induction raw with
  | nil => intro st; simp
  | cons w rest ih =>
    intro st
    rw [List.foldl_cons, ih]
    by_cases ha : w.Type_ = "audio_event"
    · simp [preprocessStep, ha]
    · have : (preprocessStep st w).AudioEvents = st.AudioEvents := by
        unfold preprocessStep
        rw [if_neg ha]
        split_ifs <;> (try split) <;> (try split_ifs) <;> rfl
      rw [this]
      simp [ha]

/-- C3: `AudioEvents` is the sub-list of the tokens of type audio_event, in
order and unchanged, and no token of type audio_event or spacing is in
`Words`. -/
theorem preprocessWords_routes_audio_events (raw : List Word) :
    (preprocessWords raw).AudioEvents = raw.filter (fun w => decide (w.Type_ = "audio_event")) ∧
    ∀ w ∈ (preprocessWords raw).Words, w.Type_ ≠ "audio_event" ∧ w.Type_ ≠ "spacing" := by
  refine ⟨?_, (preprocessWords_settled raw).1⟩
  simpa [preprocessWords] using foldl_preprocessStep_audio raw ⟨[], []⟩

/-! ## SplitIntoSentenceGroups -/

theorem snoc_eq_append_cons {α : Type} (c : List α) (x : α) (pre : List α) (w : α)
    (post : List α) (h : c ++ [x] = pre ++ w :: post) :
    (post = [] ∧ pre = c ∧ w = x) ∨ (∃ post2, post = post2 ++ [x] ∧ c = pre ++ w :: post2) := by
  rcases List.eq_nil_or_concat post with hp | ⟨post2, b, hp⟩
  · subst hp
    have := List.append_inj' h (by simp)
    left
    exact ⟨rfl, this.1.symm, by simpa using this.2.symm⟩
  · subst hp
    have h2 : c ++ [x] = (pre ++ w :: post2) ++ [b] := by simpa using h
    have := List.append_inj' h2 (by simp)
    right
    have hb : x = b := by simpa using this.2
    exact ⟨post2, by rw [hb, List.concat_eq_append], this.1⟩

theorem splitLoop_inv (s : SentenceSplitter) (words : List Word) (rest : List Word) :
    ∀ (i : Nat) (groups : List (List Word)) (current : List Word),
      SplitInv s words i rest groups current →
      SplitInv s words words.length []
        (splitLoop s words.length i rest groups current).1
        (splitLoop s words.length i rest groups current).2 := by
  induction rest with
  | nil =>
    intro i groups current h
    obtain ⟨h1, h2, h3, h4, h5, h6, h7⟩ := h
    simp only [splitLoop]
    exact ⟨h1, by simp at h2; simp [h2], h3, h4, h5, h6, h7⟩
  | cons word rest ih =>
    intro i groups current h
    obtain ⟨h1, h2, h3, h4, h5, h6, h7⟩ := h
    have hclosed := h6 (by simp)
    have hlast : (i = words.length - 1) ↔ rest = [] := by
      simp only [List.length_cons] at h2
      constructor
      · intro hi
        apply List.eq_nil_of_length_eq_zero
        omega
      · intro hr
        subst hr
        simp at h2
        omega
    have hdl : (current ++ [word]).dropLast = current := by simp
    simp only [splitLoop, hdl]
    by_cases hflush : (shouldSplitAtWord s word current || decide (i = words.length - 1)) = true
    · rw [if_pos hflush, if_pos (by simp)]
      apply ih
      refine ⟨by simp [← h1], by simp at h2 ⊢; omega, ?_, ?_, ?_, ?_, fun _ => rfl⟩
      · intro g hg
        rcases List.mem_append.1 hg with hg | hg
        · exact h3 g hg
        · simp at hg
          subst hg
          refine ⟨by simp, ?_⟩
          intro pre w post hdec hpost
          rcases snoc_eq_append_cons _ _ _ _ _ hdec with ⟨hp, _, _⟩ | ⟨post2, _, hc⟩
          · exact absurd hp hpost
          · exact h4 pre w post2 hc
      · intro pre w post hdec
        simp at hdec
      · intro g hg
        rw [List.dropLast_concat] at hg
        exact hclosed g hg
      · intro hrest g hg
        rcases List.mem_append.1 hg with hg | hg
        · exact hclosed g hg
        · simp at hg
          subst hg
          intro pre w hdec
          have := List.append_inj' hdec (by simp)
          have hw : word = w := by simpa using this.2
          rw [← this.1, ← hw]
          have hnl : ¬ (i = words.length - 1) := fun hi => hrest (hlast.1 hi)
          simpa [hnl] using hflush
    · rw [if_neg hflush]
      have hf : shouldSplitAtWord s word current = false ∧ ¬ (i = words.length - 1) := by
        simpa using hflush
      have hrest : rest ≠ [] := fun hr => hf.2 (hlast.2 hr)
      apply ih
      refine ⟨by simp [← h1], by simp at h2 ⊢; omega, h3, ?_, h5, fun _ => hclosed,
        fun hr => absurd hr hrest⟩
      intro pre w post hdec
      rcases snoc_eq_append_cons _ _ _ _ _ hdec with ⟨_, hp, hw⟩ | ⟨post2, _, hc⟩
      · rw [hp, hw]
        exact hf.1
      · exact h4 pre w post2 hc

/-- C4: on a non-empty word list, `SplitIntoSentenceGroups` returns non-empty
groups whose concatenation is the input; the last word of every group but the
final one satisfies `shouldSplitAtWord` given the words of the group before
it, and no word that is not the last of its group does. -/
theorem SplitIntoSentenceGroups_groups (s : SentenceSplitter) (words : List Word)
    (hne : words ≠ []) :
    (∀ g ∈ SplitIntoSentenceGroups s words, g ≠ []) ∧
    (SplitIntoSentenceGroups s words).flatten = words ∧
    (∀ g ∈ (SplitIntoSentenceGroups s words).dropLast, ∀ pre w, g = pre ++ [w] →
      shouldSplitAtWord s w pre = true) ∧
    (∀ g ∈ SplitIntoSentenceGroups s words, ∀ pre w post, g = pre ++ w :: post → post ≠ [] →
      shouldSplitAtWord s w pre = false) := by
  have hinit : SplitInv s words 0 words [] [] :=
    ⟨by simp, by simp, by simp, by intro pre w post h; simp at h, by simp, by simp,
      fun h => absurd h hne⟩
  obtain ⟨h1, _, h3, _, h5, _, h7⟩ := splitLoop_inv s words words 0 [] [] hinit
  have hcur := h7 rfl
  have hlen : ¬ words.length = 0 := fun h => hne (List.eq_nil_of_length_eq_zero h)
  have hres : SplitIntoSentenceGroups s words = (splitLoop s words.length 0 words [] []).1 := by
    simp [SplitIntoSentenceGroups, hlen, hcur]
  rw [hres]
  refine ⟨fun g hg => (h3 g hg).1, ?_, h5, fun g hg => (h3 g hg).2⟩
  simpa [hcur] using h1

/-- C4 at the three words "Hello ", "world. ", "How". -/
theorem SplitIntoSentenceGroups_groups_witness :
    (SplitIntoSentenceGroups ⟨"en".toList, false⟩
      [⟨"Hello ".toList, 0, 1, "word"⟩, ⟨"world. ".toList, 1, 2, "word"⟩,
       ⟨"How".toList, 2, 3, "word"⟩]).flatten =
      [⟨"Hello ".toList, 0, 1, "word"⟩, ⟨"world. ".toList, 1, 2, "word"⟩,
       ⟨"How".toList, 2, 3, "word"⟩] :=
  (SplitIntoSentenceGroups_groups ⟨"en".toList, false⟩
    [⟨"Hello ".toList, 0, 1, "word"⟩, ⟨"world. ".toList, 1, 2, "word"⟩,
     ⟨"How".toList, 2, 3, "word"⟩] (by simp)).2.1

/-! ## shouldSplitAtWord -/

theorem TrimSpace_eq (s : GoString) :
    TrimSpace s = (s.dropWhile isSpace).rdropWhile isSpace := rfl

theorem dropWhile_TrimSpace (s : GoString) :
    (TrimSpace s).dropWhile isSpace = TrimSpace s := by
  rw [List.dropWhile_eq_self_iff]
  show ∀ hl : 0 < (List.rdropWhile isSpace (s.dropWhile isSpace)).length,
    ¬ isSpace ((List.rdropWhile isSpace (s.dropWhile isSpace)).get ⟨0, hl⟩) = true
  intro hl
  have hpre := List.rdropWhile_prefix isSpace (s.dropWhile isSpace)
  have hA : 0 < (s.dropWhile isSpace).length := lt_of_lt_of_le hl hpre.length_le
  have h0 := List.dropWhile_get_zero_not isSpace s hA
  have heq := hpre.getElem hl
  simp only [List.get_eq_getElem] at h0 ⊢
  rw [heq]
  exact h0

theorem TrimSpace_idem (s : GoString) : TrimSpace (TrimSpace s) = TrimSpace s := by
  have h : TrimSpace (TrimSpace s) = ((TrimSpace s).dropWhile isSpace).rdropWhile isSpace := rfl
  rw [h, dropWhile_TrimSpace, TrimSpace_eq, List.rdropWhile_idempotent]

theorem getPriority_cases (c : Char) :
    getPriority c = priorityHigh ∨ getPriority c = priorityMedium ∨
      getPriority c = priorityLow ∨ getPriority c = priorityNone := by
  unfold getPriority
  split_ifs <;> simp

theorem getPriority_none_iff (c : Char) :
    getPriority c = priorityNone ↔ isPunctuation c = false := by
  unfold getPriority isPunctuation allPunctuation
  simp only [List.mem_append, List.mem_singleton, decide_eq_false_iff_not]
  split_ifs <;> simp_all [priorityHigh, priorityMedium, priorityLow, priorityNone]

theorem getPriority_RuneError : getPriority RuneError = priorityNone := by decide

/-- C5: `shouldSplitAtWord` is true exactly when the trimmed text ends in a
rune of high priority, or of medium priority with at least 3 accumulated
words, or of low priority with at least 5 accumulated words whose texts total
at least 15 code points; it is false when the trimmed text ends in no
punctuation rune. -/
theorem shouldSplitAtWord_iff (s : SentenceSplitter) (word : Word) (accumulated : List Word) :
    (shouldSplitAtWord s word accumulated = true ↔
      ∃ c, (TrimSpace word.Text).getLast? = some c ∧
        (getPriority c = priorityHigh ∨
         (getPriority c = priorityMedium ∧ 3 ≤ accumulated.length) ∨
         (getPriority c = priorityLow ∧ 5 ≤ accumulated.length ∧
           15 ≤ (accumulated.map (fun w => w.Text.length)).sum))) ∧
    ((∀ c, (TrimSpace word.Text).getLast? = some c → isPunctuation c = false) →
      shouldSplitAtWord s word accumulated = false) := by
  have main : shouldSplitAtWord s word accumulated = true ↔
      ∃ c, (TrimSpace word.Text).getLast? = some c ∧
        (getPriority c = priorityHigh ∨
         (getPriority c = priorityMedium ∧ 3 ≤ accumulated.length) ∨
         (getPriority c = priorityLow ∧ 5 ≤ accumulated.length ∧
           15 ≤ (accumulated.map (fun w => w.Text.length)).sum)) := by
    unfold shouldSplitAtWord wordEndsWithPunctuation totalChars
    simp only [TrimSpace_idem]
    cases hl : (TrimSpace word.Text).getLast? with
    | none =>
      have hnil : TrimSpace word.Text = [] := by simpa using hl
      simp [hnil]
    | some c =>
      have hne : TrimSpace word.Text ≠ [] := by
        intro h; rw [h] at hl; simp at hl
      have hd : DecodeLastRuneInString (TrimSpace word.Text) = c := by
        simp [DecodeLastRuneInString, hl]
      simp only [if_neg hne, hd, Option.some.injEq, exists_eq_left']
      by_cases hre : c = RuneError
      · subst hre
        simp [getPriority_RuneError, priorityNone, priorityHigh, priorityMedium, priorityLow]
      · rcases getPriority_cases c with h | h | h | h <;>
          simp [hre, h, priorityNone, priorityHigh, priorityMedium, priorityLow]
  refine ⟨main, ?_⟩
  intro hnone
  rw [Bool.eq_false_iff]
  intro htrue
  obtain ⟨c, hc, hp⟩ := main.1 htrue
  have := (getPriority_none_iff c).2 (hnone c hc)
  rw [this] at hp
  simp [priorityNone, priorityHigh, priorityMedium, priorityLow] at hp

/-- C5 at the word "Hello", whose trimmed text ends in no punctuation rune. -/
theorem shouldSplitAtWord_iff_witness :
    shouldSplitAtWord ⟨"en".toList, false⟩ ⟨"Hello".toList, 0, 1, "word"⟩ [] = false :=
  (shouldSplitAtWord_iff ⟨"en".toList, false⟩ ⟨"Hello".toList, 0, 1, "word"⟩ []).2 (by
    intro c hc
    have hl : (TrimSpace "Hello".toList).getLast? = some 'o' := by decide
    rw [hl] at hc
    simp only [Option.some.injEq] at hc
    subst hc
    decide)

/-! ## CreateBasicEntries -/

theorem basicEntryOf_spec (group : List Word) :
    (makesEntry group = false ∧ basicEntryOf group = none) ∨
    (makesEntry group = true ∧ ∃ e, basicEntryOf group = some e ∧ EntryOfGroup group e) := by
  unfold basicEntryOf makesEntry EntryOfGroup
  by_cases hlen : group.length = 0
  · have : group = [] := List.eq_nil_of_length_eq_zero hlen
    subst this
    left
    simp
  · rw [if_neg hlen]
    cases hf : group.filter (fun w => decide (w.Type_ = "word")) with
    | nil =>
      left
      have : group.any (fun w => decide (w.Type_ = "word")) = false := by
        rw [List.any_eq_false]
        intro x hx hw
        have : x ∈ group.filter (fun w => decide (w.Type_ = "word")) := by
          simp [List.mem_filter, hx] at hw ⊢
          exact hw
        rw [hf] at this
        simp at this
      simp [this]
    | cons first more =>
      have hany : group.any (fun w => decide (w.Type_ = "word")) = true := by
        have hm : first ∈ group.filter (fun w => decide (w.Type_ = "word")) := by
          rw [hf]; simp
        rw [List.mem_filter] at hm
        rw [List.any_eq_true]
        exact ⟨first, hm.1, hm.2⟩
      by_cases ht : TrimSpace (group.map (fun w => w.Text)).flatten = []
      · left
        simp [ht]
      · right
        simp only [hany, ht, if_false, Bool.true_and, ne_eq, not_false_eq_true, decide_True,
          true_and]
        refine ⟨_, rfl, rfl, by simp, ?_, by simp⟩
        simp [List.getLast?_eq_getLast]

/-- C6: `CreateBasicEntries` yields, in order, one entry for each group that
holds a token of type word and whose concatenated text is not blank, and none
for any other group; the entry has the trimmed concatenation of the texts, the
first word-type token's `Start`, the last word-type token's `End`, and the
number of word-type tokens as `WordCount`. -/
theorem CreateBasicEntries_entries (s : SentenceSplitter) (groups : List (List Word)) :
    List.Forall₂
      (fun group e =>
        e.Text = TrimSpace (group.map (fun w => w.Text)).flatten ∧
        (group.filter (fun w => decide (w.Type_ = "word"))).head?.map (fun w => w.Start) =
          some e.Start ∧
        (group.filter (fun w => decide (w.Type_ = "word"))).getLast?.map (fun w => w.End) =
          some e.End ∧
        e.WordCount = ((group.filter (fun w => decide (w.Type_ = "word"))).length : Int))
      (groups.filter (fun group =>
        group.any (fun w => decide (w.Type_ = "word")) &&
          decide (TrimSpace (group.map (fun w => w.Text)).flatten ≠ [])))
      (CreateBasicEntries s groups) := by
  show List.Forall₂ EntryOfGroup (groups.filter makesEntry) (CreateBasicEntries s groups)
  unfold CreateBasicEntries
  induction groups with
  | nil => simp
  | cons g rest ih =>
    rcases basicEntryOf_spec g with ⟨h1, h2⟩ | ⟨h1, e, h2, h3⟩
    · simpa [List.filter_cons, h1, List.filterMap_cons, h2] using ih
    · simp only [List.filter_cons, h1, List.filterMap_cons, h2, if_true]
      exact List.Forall₂.cons h3 ih

/-! ## canMerge -/

theorem TrimSpace_length_le (s : GoString) : (TrimSpace s).length ≤ s.length := by
  rw [TrimSpace_eq]
  exact le_trans (List.rdropWhile_prefix isSpace (s.dropWhile isSpace)).length_le
    (List.dropWhile_suffix isSpace).length_le

theorem findSplitScan_range (runes : List Char) (k : Nat) :
    findSplitScan runes k = -1 ∨ (1 ≤ findSplitScan runes k ∧ findSplitScan runes k ≤ (k : Int) + 1) := by
  induction k with
  | zero => left; rfl
  | succ i ih =>
    unfold findSplitScan
    simp only
    split_ifs
    · right; constructor <;> push_cast <;> omega
    · right; constructor <;> push_cast <;> omega
    · rcases ih with h | h
      · left; exact h
      · right; constructor
        · exact h.1
        · push_cast; omega

theorem findSplitPosition_range (text : GoString) (maxLen : Int) (hmax : 1 ≤ maxLen)
    (hlen : maxLen < (text.length : Int)) :
    1 ≤ findSplitPosition text maxLen ∧ findSplitPosition text maxLen ≤ (text.length : Int) := by
  unfold findSplitPosition
  simp only
  rw [if_neg (by omega)]
  have hk := findSplitScan_range text (min (maxLen + 1) (text.length : Int) - 1).toNat
  have hmin : min (maxLen + 1) (text.length : Int) = maxLen + 1 := min_eq_left (by omega)
  rw [hmin] at hk ⊢
  have hcast : (((maxLen + 1 - 1).toNat : Nat) : Int) = maxLen := by
    rw [Int.toNat_of_nonneg (by omega)]; omega
  rw [hcast] at hk
  split_ifs with hb
  · omega
  · rcases hk with h | h
    · omega
    · omega

theorem displayLinesLoop_isSome (maxCPL : Int) (hmax : 1 ≤ maxCPL) (fuel : Nat) :
    ∀ (remaining : GoString) (lines : Nat), remaining.length < fuel →
      ∃ n, displayLinesLoop maxCPL fuel remaining lines = some n := by
  induction fuel with
  | zero => intro remaining lines h; omega
  | succ fuel ih =>
    intro remaining lines h
    unfold displayLinesLoop
    split_ifs with h1 h2
    · exact ⟨_, rfl⟩
    · exact ⟨_, rfl⟩
    · have hr := findSplitPosition_range remaining maxCPL hmax (by omega)
      simp only [sliceFrom, hr.2, (by omega : 0 ≤ findSplitPosition remaining maxCPL), and_self,
        if_true]
      apply ih
      have h3 := TrimSpace_length_le
        (List.drop (findSplitPosition remaining maxCPL).toNat remaining)
      rw [List.length_drop] at h3
      have h4 : 1 ≤ (findSplitPosition remaining maxCPL).toNat := by omega
      omega

theorem calculateDisplayLines_isSome (m : IntelligentMerger) (hmax : 1 ≤ m.MaxCharsPerLine)
    (text : GoString) : ∃ n, calculateDisplayLines m text = some n := by
  unfold calculateDisplayLines
  split_ifs
  · exact ⟨0, rfl⟩
  · exact displayLinesLoop_isSome _ hmax _ _ _
      (Nat.lt_succ_of_le (TrimSpace_length_le text))

theorem displayLinesLoop_mono (maxCPL : Int) (fuel : Nat) :
    ∀ (remaining : GoString) (lines n k : Nat),
      displayLinesLoop maxCPL fuel remaining lines = some n →
      displayLinesLoop maxCPL (fuel + k) remaining lines = some n := by
  induction fuel with
  | zero => intro remaining lines n k h; simp [displayLinesLoop] at h
  | succ fuel ih =>
    intro remaining lines n k h
    rw [Nat.add_right_comm]
    unfold displayLinesLoop at h ⊢
    split_ifs at h ⊢ with h1 h2
    · exact h
    · exact h
    · cases hs : sliceFrom remaining (findSplitPosition remaining maxCPL) with
      | none => rw [hs] at h; simp at h
      | some rest =>
        rw [hs] at h
        simp only at h ⊢
        exact ih _ _ _ _ h

theorem findSplitPosition_of_nonpos (text : GoString) (maxLen : Int) (hmax : maxLen ≤ 0)
    (hne : text ≠ []) : findSplitPosition text maxLen = maxLen := by
  have hlen : 0 < text.length := List.length_pos.2 hne
  unfold findSplitPosition
  simp only
  rw [if_neg (by omega)]
  have hk : (min (maxLen + 1) (text.length : Int) - 1).toNat = 0 := by
    have : min (maxLen + 1) (text.length : Int) ≤ maxLen + 1 := min_le_left _ _
    omega
  rw [hk]
  simp [findSplitScan]

theorem displayLinesLoop_of_nonpos (maxCPL : Int) (hmax : maxCPL ≤ 0) (text : GoString)
    (hne : TrimSpace text ≠ []) (fuel : Nat) :
    ∀ lines, displayLinesLoop maxCPL fuel (TrimSpace text) lines = none := by
  induction fuel with
  | zero => intro lines; rfl
  | succ fuel ih =>
    intro lines
    have hlen : 0 < (TrimSpace text).length := List.length_pos.2 hne
    unfold displayLinesLoop
    rw [if_neg hne, if_neg (by omega), findSplitPosition_of_nonpos _ _ hmax hne]
    by_cases h0 : maxCPL = 0
    · subst h0
      simp only [sliceFrom, le_refl, Int.toNat_zero, List.drop_zero, TrimSpace_idem]
      rw [if_pos ⟨trivial, by omega⟩]
      simp only [TrimSpace_idem]
      exact ih _
    · have : ¬ (0 ≤ maxCPL ∧ maxCPL ≤ ((TrimSpace text).length : Int)) := by omega
      simp [sliceFrom, this]

theorem calculateDisplayLines_fuel (m : IntelligentMerger) (text : GoString) (hne : text ≠ [])
    (fuel n : Nat) (h : displayLinesLoop m.MaxCharsPerLine fuel (TrimSpace text) 0 = some n) :
    calculateDisplayLines m text = some n := by
  unfold calculateDisplayLines
  rw [if_neg hne]
  by_cases hmax : 1 ≤ m.MaxCharsPerLine
  · obtain ⟨n2, h2⟩ := displayLinesLoop_isSome m.MaxCharsPerLine hmax (text.length + 1)
      (TrimSpace text) 0 (Nat.lt_succ_of_le (TrimSpace_length_le text))
    have e1 := displayLinesLoop_mono _ _ _ _ _ (text.length + 1) h
    have e2 := displayLinesLoop_mono _ _ _ _ _ fuel h2
    rw [Nat.add_comm] at e1
    rw [e1] at e2
    rw [h2, e2]
  · by_cases ht : TrimSpace text = []
    · rw [ht] at h ⊢
      cases fuel with
      | zero => simp [displayLinesLoop] at h
      | succ fuel =>
        simp only [displayLinesLoop, if_true] at h ⊢
        exact h
    · rw [displayLinesLoop_of_nonpos _ (by omega) text ht fuel 0] at h
      simp at h

theorem canMerge_isSome (m : IntelligentMerger) (hmax : 1 ≤ m.MaxCharsPerLine)
    (a b : SubtitleEntry) : ∃ c r, canMerge m a b = some (c, r) := by
  obtain ⟨n, hn⟩ := calculateDisplayLines_isSome m hmax (a.Text ++ [' '] ++ b.Text)
  unfold canMerge
  simp only [hn]
  split_ifs <;> exact ⟨_, _, rfl⟩

theorem mergeFrom_isSome (m : IntelligentMerger) (hmax : 1 ≤ m.MaxCharsPerLine)
    (rest : List SubtitleEntry) :
    ∀ current, ∃ out, mergeFrom m current rest = some out := by
  induction rest with
  | nil => intro current; exact ⟨_, rfl⟩
  | cons next rest ih =>
    intro current
    obtain ⟨c, r, hc⟩ := canMerge_isSome m hmax current next
    unfold mergeFrom
    rw [hc]
    cases c
    · obtain ⟨out, ho⟩ := ih next
      exact ⟨current :: out, by simp [ho]⟩
    · simp only
      split_ifs
      · obtain ⟨out, ho⟩ := ih next
        exact ⟨current :: out, by simp [ho]⟩
      · exact ih _

/-! ## canMerge counts white space -/

theorem mergeFrom_starts (m : IntelligentMerger) (rest : List SubtitleEntry) :
    ∀ current out, mergeFrom m current rest = some out →
      ∃ tail, out.map (fun e => e.Start) = current.Start :: tail ∧
        tail.Sublist (rest.map (fun e => e.Start)) := by
  induction rest with
  | nil =>
    intro current out h
    simp only [mergeFrom, Option.some.injEq] at h
    subst h
    exact ⟨[], rfl, List.Sublist.refl _⟩
  | cons next rest ih =>
    intro current out h
    have keep : ∀ o, (mergeFrom m next rest).map (fun out => current :: out) = some o →
        ∃ tail, o.map (fun e => e.Start) = current.Start :: tail ∧
          tail.Sublist ((next :: rest).map (fun e => e.Start)) := by
      intro o ho
      cases hn : mergeFrom m next rest with
      | none => rw [hn] at ho; simp at ho
      | some o2 =>
        rw [hn] at ho
        simp only [Option.map_some', Option.some.injEq] at ho
        subst ho
        obtain ⟨tail, ht, hs⟩ := ih next o2 hn
        refine ⟨o2.map (fun (e : SubtitleEntry) => e.Start), rfl, ?_⟩
        rw [ht, List.map_cons]
        exact hs.cons₂ _
    unfold mergeFrom at h
    cases hcm : canMerge m current next with
    | none => rw [hcm] at h; simp at h
    | some cr =>
      obtain ⟨c, r⟩ := cr
      rw [hcm] at h
      cases c
      · exact keep out h
      · simp only at h
        split_ifs at h
        · exact keep out h
        · obtain ⟨tail, ht, hs⟩ := ih (mergeTwoEntries m current next) out h
          refine ⟨tail, ht, ?_⟩
          rw [List.map_cons]
          exact hs.cons _

/-- C9: whenever `MergeBasicEntries` returns, the `Start` values of its output
are a sub-list of the `Start` values of the input, beginning with the same
value; and it does return when `MaxCharsPerLine` is at least 1. -/
theorem MergeBasicEntries_starts (m : IntelligentMerger) (entries : List SubtitleEntry) :
    (∀ out, MergeBasicEntries m entries = some out →
      (out.map (fun e => e.Start)).Sublist (entries.map (fun e => e.Start)) ∧
      out.head?.map (fun e => e.Start) = entries.head?.map (fun e => e.Start)) ∧
    (1 ≤ m.MaxCharsPerLine → ∃ out, MergeBasicEntries m entries = some out) := by
  cases entries with
  | nil =>
    refine ⟨?_, fun _ => ⟨[], rfl⟩⟩
    intro out h
    simp only [MergeBasicEntries, Option.some.injEq] at h
    subst h
    exact ⟨List.Sublist.refl _, rfl⟩
  | cons first rest =>
    refine ⟨?_, fun hmax => mergeFrom_isSome m hmax rest first⟩
    intro out h
    obtain ⟨tail, ht, hs⟩ := mergeFrom_starts m rest first out h
    constructor
    · rw [ht, List.map_cons]
      exact hs.cons₂ _
    · cases out with
      | nil => simp at ht
      | cons o os =>
        simp only [List.map_cons, List.cons.injEq] at ht
        simp [ht.1]

theorem MergeBasicEntries_two (m : IntelligentMerger) (a b : SubtitleEntry) (c : Bool)
    (r : String) (h : canMerge m a b = some (c, r)) :
    MergeBasicEntries m [a, b] =
      some (if c = true ∧ calculateMergeBenefit m a b > 5 then [mergeTwoEntries m a b]
            else [a, b]) := by
  simp only [MergeBasicEntries, mergeFrom, h]
  cases c
  · simp
  · by_cases hb : calculateMergeBenefit m a b ≤ 5
    · simp [hb, not_lt.2 hb]
    · simp [hb, not_le.1 hb]

theorem canMerge_hi_there (wa wb : List Word) (na nb : Int) :
    canMerge defaultMerger ⟨"Hi".toList, 0, 3 / 10, wa, false, na, 2⟩
      ⟨"there".toList, 2 / 5, 7 / 10, wb, false, nb, 5⟩ = some (true, "") := by
  have hd : calculateDisplayLines defaultMerger ("Hi".toList ++ [' '] ++ "there".toList) =
      some 1 := by decide
  have hs : stripWhitespaceCount ("Hi".toList ++ [' '] ++ "there".toList) = 7 := by decide
  have hl : ("Hi".toList ++ [' '] ++ "there".toList).length = 8 := by decide
  have hm : defaultMerger.MaxCharsPerLine = 42 := rfl
  have h1 : defaultMerger.MinSubtitleGap = 83 / 1000 := rfl
  have h2 : defaultMerger.MaxSubtitleDuration = 12 := rfl
  have h3 : defaultMerger.MaxCPS = 15 := rfl
  have hc : ¬ (calculateCPS defaultMerger ("Hi".toList ++ [' '] ++ "there".toList)
      ((7 / 10 : ℚ) - 0) >
      ((getDynamicCPSLimit defaultMerger ("Hi".toList ++ [' '] ++ "there".toList) : ℚ) :
        WithTop ℚ)) := by
    simp only [calculateCPS, getDynamicCPSLimit, hs, h3]
    rw [if_neg (by norm_num)]
    simp only [gt_iff_lt, WithTop.coe_lt_coe]
    norm_num
  unfold canMerge
  simp only [hd, hl, hm, h1, h2, if_neg hc]
  norm_num

theorem calculateMergeBenefit_hi_there (wa wb : List Word) (na nb : Int) :
    calculateMergeBenefit defaultMerger ⟨"Hi".toList, 0, 3 / 10, wa, false, na, 2⟩
      ⟨"there".toList, 2 / 5, 7 / 10, wb, false, nb, 5⟩ = 171 / 5 := by
  have h1 : defaultMerger.MinSubtitleDuration = 83 / 100 := rfl
  simp only [calculateMergeBenefit, benefitCharCount, h1]
  norm_num

/-- C8: `MergeBasicEntries [a, b]` returns when `canMerge a b` does, which it
does whenever `MaxCharsPerLine` is at least 1; its result is then the single
entry `mergeTwoEntries a b` when `canMerge` returned true and
`calculateMergeBenefit a b > 5`, and `[a, b]` otherwise.  With the default
settings the entries "Hi" (0 to 0.3, 2 characters) and "there" (0.4 to 0.7,
5 characters) merge into one entry with `Start` 0, `End` 0.7 and text
"Hi there". -/
theorem MergeBasicEntries_pair :
    (∀ (m : IntelligentMerger) (a b : SubtitleEntry),
      MergeBasicEntries m [a, b] =
        (canMerge m a b).map (fun cr =>
          if cr.1 = true ∧ calculateMergeBenefit m a b > 5 then [mergeTwoEntries m a b]
          else [a, b])) ∧
    (∀ (m : IntelligentMerger) (a b : SubtitleEntry), 1 ≤ m.MaxCharsPerLine →
      ∃ c r, canMerge m a b = some (c, r)) ∧
    (∀ (wa wb : List Word) (na nb : Int), ∃ e,
      MergeBasicEntries defaultMerger
        [⟨"Hi".toList, 0, 3 / 10, wa, false, na, 2⟩,
         ⟨"there".toList, 2 / 5, 7 / 10, wb, false, nb, 5⟩] = some [e] ∧
      e.Start = 0 ∧ e.End = 7 / 10 ∧ e.Text = "Hi there".toList) := by
  refine ⟨?_, fun m a b hmax => canMerge_isSome m hmax a b, ?_⟩
  · intro m a b
    cases hcm : canMerge m a b with
    | none => simp [MergeBasicEntries, mergeFrom, hcm]
    | some cr =>
      obtain ⟨c, r⟩ := cr
      rw [MergeBasicEntries_two m a b c r hcm]
      rfl
  · intro wa wb na nb
    have h := MergeBasicEntries_two defaultMerger _ _ true "" (canMerge_hi_there wa wb na nb)
    rw [calculateMergeBenefit_hi_there, if_pos ⟨rfl, by norm_num⟩] at h
    exact ⟨_, h, rfl, rfl, rfl⟩

/-- C8 at the two entries of `TestMergeBasicEntries_MergesShortEntries`. -/
theorem MergeBasicEntries_pair_witness :
    MergeBasicEntries defaultMerger
      [⟨"Hi".toList, 0, 3 / 10, [⟨"Hi".toList, 0, 3 / 10, "word"⟩], false, 1, 2⟩,
       ⟨"there".toList, 2 / 5, 7 / 10, [⟨"there".toList, 2 / 5, 7 / 10, "word"⟩], false, 1, 5⟩] =
    some [mergeTwoEntries defaultMerger
      ⟨"Hi".toList, 0, 3 / 10, [⟨"Hi".toList, 0, 3 / 10, "word"⟩], false, 1, 2⟩
      ⟨"there".toList, 2 / 5, 7 / 10, [⟨"there".toList, 2 / 5, 7 / 10, "word"⟩], false, 1, 5⟩] := by
  have h := MergeBasicEntries_pair.1 defaultMerger
    ⟨"Hi".toList, 0, 3 / 10, [⟨"Hi".toList, 0, 3 / 10, "word"⟩], false, 1, 2⟩
    ⟨"there".toList, 2 / 5, 7 / 10, [⟨"there".toList, 2 / 5, 7 / 10, "word"⟩], false, 1, 5⟩
  rw [canMerge_hi_there, calculateMergeBenefit_hi_there] at h
  rw [h]
  simp only [Option.map_some', true_and]
  rw [if_pos (by norm_num)]

/-- C9 at the two entries "Hi" and "there", which merge: the output starts are
`[0]`, a sub-list of the input starts `[0, 0.4]`. -/
theorem MergeBasicEntries_starts_witness :
    ([mergeTwoEntries defaultMerger ⟨"Hi".toList, 0, 3 / 10, [], false, 1, 2⟩
        ⟨"there".toList, 2 / 5, 7 / 10, [], false, 1, 5⟩].map (fun e => e.Start)).Sublist
      ([(⟨"Hi".toList, 0, 3 / 10, [], false, 1, 2⟩ : SubtitleEntry),
        ⟨"there".toList, 2 / 5, 7 / 10, [], false, 1, 5⟩].map (fun e => e.Start)) :=
  ((MergeBasicEntries_starts defaultMerger
      [⟨"Hi".toList, 0, 3 / 10, [], false, 1, 2⟩,
       ⟨"there".toList, 2 / 5, 7 / 10, [], false, 1, 5⟩]).1 _ (by
    have h := MergeBasicEntries_two defaultMerger _ _ true "" (canMerge_hi_there [] [] 1 1)
    rw [calculateMergeBenefit_hi_there, if_pos ⟨rfl, by norm_num⟩] at h
    exact h)).1

/-! ## float64 rounding -/

theorem roundEven_eq (x : ℚ) (n : ℤ) (h : |x - n| < 1 / 2) : roundEven x = n := by
  rw [abs_lt] at h
  obtain ⟨h1, h2⟩ := h
  unfold roundEven
  simp only
  by_cases hx : (n : ℚ) ≤ x
  · have hf : ⌊x⌋ = n := by
      rw [Int.floor_eq_iff]
      constructor
      · exact hx
      · linarith
    rw [hf, if_pos (by linarith)]
  · have hf : ⌊x⌋ = n - 1 := by
      rw [Int.floor_eq_iff]
      push_cast
      constructor <;> linarith
    rw [hf]
    push_cast
    rw [if_neg (by linarith), if_pos (by linarith)]
    ring

/-- The value of `float64 q` for a positive `q`, from the exponent `e` of its
last bit and the integer `n` nearest to `q / 2 ^ e`. -/
theorem float64_eq_of (q v : ℚ) (e n : ℤ) (he : -1074 ≤ e) (hlo : (2 : ℚ) ^ (e + 52) ≤ q)
    (hhi : q < (2 : ℚ) ^ (e + 53)) (hn : |q / 2 ^ e - n| < 1 / 2)
    (hv : (n : ℚ) * 2 ^ e = v) : float64 q = v := by
  have hpos : 0 < q := lt_of_lt_of_le (by positivity) hlo
  have hlog : Int.log 2 |q| = e + 52 := by
    rw [abs_of_pos hpos]
    have a := (Int.zpow_le_iff_le_log (by norm_num : 1 < 2) hpos).1 (by exact_mod_cast hlo)
    have b := (Int.lt_zpow_iff_log_lt (by norm_num : 1 < 2) hpos).1 (by exact_mod_cast hhi)
    omega
  unfold float64
  rw [if_neg (ne_of_gt hpos)]
  simp only [hlog]
  have hm : max (e + 52) (-1022) - 52 = e := by
    rw [max_eq_left (by omega)]; ring
  rw [hm, roundEven_eq _ n hn, hv]

/-- The nearest integer at a tie: the even one. -/
theorem roundEven_eq_even (x : ℚ) (n : ℤ) (h : |x - n| ≤ 1 / 2) (hn : n % 2 = 0) :
    roundEven x = n := by
  rcases lt_or_eq_of_le h with h1 | h1
  · exact roundEven_eq x n h1
  · rcases abs_eq (by norm_num : (0 : ℚ) ≤ 1 / 2) |>.1 h1 with h2 | h2
    · have hf : ⌊x⌋ = n := by
        rw [Int.floor_eq_iff]
        constructor <;> linarith
      have hr : x - (n : ℚ) = 1 / 2 := h2
      unfold roundEven
      simp only
      rw [hf, hr, if_neg (lt_irrefl _), if_neg (lt_irrefl _), if_pos hn]
    · have hf : ⌊x⌋ = n - 1 := by
        rw [Int.floor_eq_iff]
        push_cast
        constructor <;> linarith
      have hr : x - ((n - 1 : ℤ) : ℚ) = 1 / 2 := by push_cast; linarith
      unfold roundEven
      simp only
      rw [hf, hr, if_neg (lt_irrefl _), if_neg (lt_irrefl _), if_neg (by omega)]
      ring

/-- The value of `float64 q` for a positive `q` that lies half way between two
`float64` values. -/
theorem float64_eq_of_even (q v : ℚ) (e n : ℤ) (he : -1074 ≤ e)
    (hlo : (2 : ℚ) ^ (e + 52) ≤ q) (hhi : q < (2 : ℚ) ^ (e + 53))
    (hn : |q / 2 ^ e - n| ≤ 1 / 2) (hev : n % 2 = 0)
    (hv : (n : ℚ) * 2 ^ e = v) : float64 q = v := by
  have hpos : 0 < q := lt_of_lt_of_le (by positivity) hlo
  have hlog : Int.log 2 |q| = e + 52 := by
    rw [abs_of_pos hpos]
    have a := (Int.zpow_le_iff_le_log (by norm_num : 1 < 2) hpos).1 (by exact_mod_cast hlo)
    have b := (Int.lt_zpow_iff_log_lt (by norm_num : 1 < 2) hpos).1 (by exact_mod_cast hhi)
    omega
  unfold float64
  rw [if_neg (ne_of_gt hpos)]
  simp only [hlog]
  have hm : max (e + 52) (-1022) - 52 = e := by
    rw [max_eq_left (by omega)]; ring
  rw [hm, roundEven_eq_even _ n hn hev, hv]

theorem roundEven_sub_le (x : ℚ) : |(roundEven x : ℚ) - x| ≤ 1 / 2 := by
  have h1 : (⌊x⌋ : ℚ) ≤ x := Int.floor_le x
  have h2 : x < ⌊x⌋ + 1 := Int.lt_floor_add_one x
  unfold roundEven
  simp only
  split_ifs with a b c
  · rw [abs_le]; constructor <;> linarith
  · push_cast; rw [abs_le]; constructor <;> linarith
  · rw [abs_le]; constructor <;> linarith
  · push_cast; rw [abs_le]; constructor <;> linarith

theorem roundEven_intCast (n : ℤ) : roundEven (n : ℚ) = n :=
  roundEven_eq _ n (by simp)

theorem roundEven_mono {x y : ℚ} (h : x ≤ y) : roundEven x ≤ roundEven y := by
  rcases eq_or_lt_of_le h with h | h
  · rw [h]
  · have a := abs_le.1 (roundEven_sub_le x)
    have b := abs_le.1 (roundEven_sub_le y)
    have c : (roundEven x : ℚ) < roundEven y + 1 := by linarith
    have d : roundEven x < roundEven y + 1 := by exact_mod_cast c
    omega

theorem roundEven_neg (x : ℚ) : roundEven (-x) = -roundEven x := by
  have h1 : (⌊x⌋ : ℚ) ≤ x := Int.floor_le x
  have h2 : x < ⌊x⌋ + 1 := Int.lt_floor_add_one x
  by_cases hlt : x - ⌊x⌋ < 1 / 2
  · have a : roundEven x = ⌊x⌋ := roundEven_eq _ _ (by rw [abs_lt]; constructor <;> linarith)
    rw [a]
    exact roundEven_eq _ _ (by push_cast; rw [abs_lt]; constructor <;> linarith)
  · by_cases hgt : 1 / 2 < x - ⌊x⌋
    · have a : roundEven x = ⌊x⌋ + 1 :=
        roundEven_eq _ _ (by push_cast; rw [abs_lt]; constructor <;> linarith)
      rw [a]
      exact roundEven_eq _ _ (by push_cast; rw [abs_lt]; constructor <;> linarith)
    · have hx : x = ⌊x⌋ + 1 / 2 := by linarith [not_lt.1 hlt, not_lt.1 hgt]
      have hf : ⌊-x⌋ = -⌊x⌋ - 1 := by
        rw [Int.floor_eq_iff]
        push_cast
        constructor <;> linarith
      have hr : -x - ((-⌊x⌋ - 1 : ℤ) : ℚ) = 1 / 2 := by push_cast; linarith
      have e1 : roundEven x = if ⌊x⌋ % 2 = 0 then ⌊x⌋ else ⌊x⌋ + 1 := by
        unfold roundEven
        simp only
        rw [if_neg hlt, if_neg hgt]
      have e2 : roundEven (-x) = if (-⌊x⌋ - 1) % 2 = 0 then -⌊x⌋ - 1 else -⌊x⌋ - 1 + 1 := by
        unfold roundEven
        simp only
        rw [hf, hr, if_neg (lt_irrefl _), if_neg (lt_irrefl _)]
      rw [e1, e2]
      split_ifs <;> omega

theorem float64_zero : float64 0 = 0 := by simp [float64]

theorem float64_neg (q : ℚ) : float64 (-q) = -float64 q := by
  unfold float64
  by_cases h : q = 0
  · simp [h]
  · rw [if_neg h, if_neg (neg_ne_zero.2 h)]
    simp only [abs_neg, neg_div, roundEven_neg]
    push_cast
    ring

/-- The shape of `float64 q` for a positive `q`: an integer of at most 53 bits
times a power of two. -/
theorem float64_pos_shape (q : ℚ) (hq : 0 < q) :
    ∃ (e n : ℤ), -1074 ≤ e ∧ e = max (Int.log 2 q) (-1022) - 52 ∧ float64 q = (n : ℚ) * 2 ^ e ∧
      n = roundEven (q / 2 ^ e) ∧ 0 ≤ n ∧ n ≤ 2 ^ 53 ∧
      (-1022 ≤ Int.log 2 q → 2 ^ 52 ≤ n) ∧ |(n : ℚ) - q / 2 ^ e| ≤ 1 / 2 := by
  refine ⟨max (Int.log 2 q) (-1022) - 52, roundEven (q / 2 ^ (max (Int.log 2 q) (-1022) - 52)),
    ?_, rfl, ?_, rfl, ?_, ?_, ?_, roundEven_sub_le _⟩
  · have := le_max_right (Int.log 2 q) (-1022)
    omega
  · unfold float64
    rw [if_neg hq.ne', abs_of_pos hq]
  · have h0 : roundEven (0 : ℚ) = 0 := by exact_mod_cast roundEven_intCast 0
    rw [← h0]
    exact roundEven_mono (by positivity)
  · have hlt : q < (2 : ℚ) ^ (Int.log 2 q + 1) := Int.lt_zpow_succ_log_self (by norm_num) q
    have hle : (2 : ℚ) ^ (Int.log 2 q + 1) ≤
        2 ^ (max (Int.log 2 q) (-1022) - 52) * 2 ^ (53 : ℤ) := by
      rw [← zpow_add₀ (by norm_num : (2 : ℚ) ≠ 0)]
      apply zpow_le_zpow_right₀ (by norm_num)
      have := le_max_left (Int.log 2 q) (-1022)
      omega
    have hd : q / 2 ^ (max (Int.log 2 q) (-1022) - 52) ≤ ((2 ^ 53 : ℤ) : ℚ) := by
      rw [div_le_iff₀ (by positivity)]
      push_cast
      have e : (2 : ℚ) ^ (53 : ℤ) = 2 ^ 53 := by norm_num
      rw [e] at hle
      linarith
    have := roundEven_mono hd
    rwa [roundEven_intCast] at this
  · intro hl
    have hge : (2 : ℚ) ^ (Int.log 2 q) ≤ q := Int.zpow_log_le_self (by norm_num) hq
    have hm : max (Int.log 2 q) (-1022) = Int.log 2 q := max_eq_left hl
    have e : ((2 ^ 52 : ℤ) : ℚ) * 2 ^ (Int.log 2 q - 52) = 2 ^ (Int.log 2 q) := by
      rw [zpow_sub₀ (by norm_num : (2 : ℚ) ≠ 0)]
      push_cast
      field_simp
      norm_num
      ring
    have hd : ((2 ^ 52 : ℤ) : ℚ) ≤ q / 2 ^ (max (Int.log 2 q) (-1022) - 52) := by
      rw [le_div_iff₀ (by positivity), hm, e]
      exact hge
    have := roundEven_mono hd
    rwa [roundEven_intCast] at this

theorem float64_nonneg {q : ℚ} (hq : 0 ≤ q) : 0 ≤ float64 q := by
  rcases eq_or_lt_of_le hq with h | h
  · rw [← h, float64_zero]
  · obtain ⟨e, n, _, _, hv, _, hn, _⟩ := float64_pos_shape q h
    rw [hv]
    have : (0 : ℚ) ≤ n := by exact_mod_cast hn
    positivity

/-- The rounding error of `float64`: half a unit in the last place of its
argument, or half the least subnormal. -/
theorem float64_abs_sub_le (q : ℚ) : |float64 q - q| ≤ |q| / 2 ^ 53 + 1 / 2 ^ 1075 := by
  have key : ∀ q : ℚ, 0 < q → |float64 q - q| ≤ |q| / 2 ^ 53 + 1 / 2 ^ 1075 := by
    intro q hq
    obtain ⟨e, n, he, hdef, hv, _, hn, _, _, herr⟩ := float64_pos_shape q hq
    have hpe : (0 : ℚ) < 2 ^ e := by positivity
    have h1 : |float64 q - q| = |(n : ℚ) - q / 2 ^ e| * 2 ^ e := by
      rw [hv, ← abs_of_pos hpe, ← abs_mul, abs_of_pos hpe]
      congr 1
      field_simp
    rw [h1, abs_of_pos hq]
    have h2 : |(n : ℚ) - q / 2 ^ e| * 2 ^ e ≤ 1 / 2 * 2 ^ e :=
      mul_le_mul_of_nonneg_right herr hpe.le
    refine le_trans h2 ?_
    by_cases hl : -1022 ≤ Int.log 2 q
    · have hm : e = Int.log 2 q - 52 := by rw [hdef, max_eq_left hl]
      have hge : (2 : ℚ) ^ (Int.log 2 q) ≤ q := Int.zpow_log_le_self (by norm_num) hq
      have e53 : (1 / 2 : ℚ) * 2 ^ e = 2 ^ (Int.log 2 q) / 2 ^ 53 := by
        rw [hm, zpow_sub₀ (by norm_num : (2 : ℚ) ≠ 0)]
        norm_num
        ring
      rw [e53]
      have : (2 : ℚ) ^ (Int.log 2 q) / 2 ^ 53 ≤ q / 2 ^ 53 :=
        div_le_div_of_nonneg_right hge (by positivity)
      have : (0 : ℚ) ≤ 1 / 2 ^ 1075 := by positivity
      linarith
    · have hm : e = -1074 := by
        rw [hdef, max_eq_right (by omega)]
        norm_num
      have e75 : (1 / 2 : ℚ) * 2 ^ e = 1 / 2 ^ 1075 := by
        rw [hm]
        norm_num
      rw [e75]
      have : (0 : ℚ) ≤ q / 2 ^ 53 := by positivity
      linarith
  rcases lt_trichotomy q 0 with h | h | h
  · have := key (-q) (neg_pos.2 h)
    have e : float64 (-q) - -q = -(float64 q - q) := by rw [float64_neg]; ring
    rwa [e, abs_neg, abs_neg] at this
  · rw [h, float64_zero]
    simp
  · exact key q h

theorem float64_mono {x y : ℚ} (h : x ≤ y) : float64 x ≤ float64 y := by
  have key : ∀ x y : ℚ, 0 < x → x ≤ y → float64 x ≤ float64 y := by
    intro x y hx hxy
    have hy : 0 < y := lt_of_lt_of_le hx hxy
    obtain ⟨ex, nx, hex, hdx, hvx, hrx, _, hnx, _, _⟩ := float64_pos_shape x hx
    obtain ⟨ey, ny, hey, hdy, hvy, hry, _, _, hny, _⟩ := float64_pos_shape y hy
    have hlog : Int.log 2 x ≤ Int.log 2 y := Int.log_mono_right hx hxy
    have hee : ex ≤ ey := by
      rw [hdx, hdy]
      have := max_le_max hlog (le_refl (-1022 : ℤ))
      omega
    rw [hvx, hvy]
    rcases eq_or_lt_of_le hee with he | he
    · have hn : nx ≤ ny := by
        rw [hrx, hry, he]
        exact roundEven_mono (div_le_div_of_nonneg_right hxy (by positivity))
      rw [he]
      exact mul_le_mul_of_nonneg_right (by exact_mod_cast hn) (by positivity)
    · have hl : -1022 ≤ Int.log 2 y := by
        by_contra hc
        rw [max_eq_right (by omega)] at hdy
        omega
      have h52 := hny hl
      have a : (nx : ℚ) * 2 ^ ex ≤ 2 ^ 53 * 2 ^ ex :=
        mul_le_mul_of_nonneg_right (by exact_mod_cast hnx) (by positivity)
      have b : (2 : ℚ) ^ 52 * 2 ^ ey ≤ ny * 2 ^ ey :=
        mul_le_mul_of_nonneg_right (by exact_mod_cast h52) (by positivity)
      have c : (2 : ℚ) ^ 53 * 2 ^ ex ≤ 2 ^ 52 * 2 ^ ey := by
        have e1 : (2 : ℚ) ^ 53 * 2 ^ ex = 2 ^ (ex + 53) := by
          rw [zpow_add₀ (by norm_num : (2 : ℚ) ≠ 0)]
          norm_num
          ring
        have e2 : (2 : ℚ) ^ 52 * 2 ^ ey = 2 ^ (ey + 52) := by
          rw [zpow_add₀ (by norm_num : (2 : ℚ) ≠ 0)]
          norm_num
          ring
        rw [e1, e2]
        exact zpow_le_zpow_right₀ (by norm_num) (by omega)
      linarith
  rcases lt_or_le 0 x with hx | hx
  · exact key x y hx h
  · rcases lt_or_le y 0 with hy | hy
    · have := key (-y) (-x) (neg_pos.2 hy) (neg_le_neg h)
      rw [float64_neg, float64_neg] at this
      linarith
    · have a : float64 x ≤ 0 := by
        have := float64_nonneg (neg_nonneg.2 hx)
        rw [float64_neg] at this
        linarith
      exact le_trans a (float64_nonneg hy)

/-- A number `n * 2 ^ e` with `|n| ≤ 2 ^ 53` and `e ≥ -1074` is a `float64`. -/
theorem float64_of_repr (n e : ℤ) (he : -1074 ≤ e) (hn : |n| ≤ 2 ^ 53) :
    float64 ((n : ℚ) * 2 ^ e) = (n : ℚ) * 2 ^ e := by
  have key : ∀ n : ℤ, 0 < n → n ≤ 2 ^ 53 → float64 ((n : ℚ) * 2 ^ e) = (n : ℚ) * 2 ^ e := by
    intro n hn0 hn
    have hq : (0 : ℚ) < (n : ℚ) * 2 ^ e := by
      have : (0 : ℚ) < n := by exact_mod_cast hn0
      positivity
    obtain ⟨e2, n2, _, hd, hv, hr, _, _, _, _⟩ := float64_pos_shape _ hq
    have hlt : (n : ℚ) * 2 ^ e < 2 ^ (Int.log 2 ((n : ℚ) * 2 ^ e) + 1) :=
      Int.lt_zpow_succ_log_self (by norm_num) _
    have hge : (2 : ℚ) ^ (Int.log 2 ((n : ℚ) * 2 ^ e)) ≤ (n : ℚ) * 2 ^ e :=
      Int.zpow_log_le_self (by norm_num) hq
    have hle53 : (n : ℚ) * 2 ^ e ≤ 2 ^ (e + 53) := by
      rw [zpow_add₀ (by norm_num : (2 : ℚ) ≠ 0), mul_comm ((2 : ℚ) ^ e)]
      exact mul_le_mul_of_nonneg_right (by exact_mod_cast hn) (by positivity)
    have hl53 : Int.log 2 ((n : ℚ) * 2 ^ e) ≤ e + 53 := by
      have := le_trans hge hle53
      exact (zpow_le_zpow_iff_right₀ (by norm_num : (1 : ℚ) < 2)).1 this
    -- the quotient by the unit in the last place is an integer
    have hint : ∃ k : ℤ, (n : ℚ) * 2 ^ e / 2 ^ e2 = (k : ℚ) := by
      by_cases hcase : e2 ≤ e
      · refine ⟨n * 2 ^ (e - e2).toNat, ?_⟩
        have hd2 : ((e - e2).toNat : ℤ) = e - e2 := Int.toNat_of_nonneg (by omega)
        have e3 : (2 : ℚ) ^ (e - e2) = (2 : ℚ) ^ (e - e2).toNat := by
          conv_lhs => rw [← hd2]
          exact zpow_natCast _ _
        push_cast
        rw [mul_div_assoc, ← zpow_sub₀ (by norm_num : (2 : ℚ) ≠ 0), e3]
      · have hl : Int.log 2 ((n : ℚ) * 2 ^ e) = e + 53 := by
          have : max (Int.log 2 ((n : ℚ) * 2 ^ e)) (-1022) ≤ e + 53 := max_le hl53 (by omega)
          have hmx : max (Int.log 2 ((n : ℚ) * 2 ^ e)) (-1022) = e + 53 := by omega
          rcases max_cases (Int.log 2 ((n : ℚ) * 2 ^ e)) (-1022) with ⟨h1, _⟩ | ⟨h1, _⟩
          · rw [← h1]; exact hmx
          · omega
        have he2 : e2 = e + 1 := by
          rw [hd, hl, max_eq_left (by omega)]
          ring
        have hn53 : (n : ℚ) = 2 ^ 53 := by
          rw [hl] at hge
          have h3 : (2 : ℚ) ^ (e + 53) ≤ n * 2 ^ e := hge
          rw [zpow_add₀ (by norm_num : (2 : ℚ) ≠ 0), mul_comm ((2 : ℚ) ^ e)] at h3
          have h4 : (2 : ℚ) ^ (53 : ℤ) ≤ n := le_of_mul_le_mul_right h3 (by positivity)
          have h5 : (n : ℚ) ≤ 2 ^ 53 := by exact_mod_cast hn
          have h6 : (2 : ℚ) ^ (53 : ℤ) = 2 ^ 53 := by norm_num
          linarith
        refine ⟨2 ^ 52, ?_⟩
        rw [hn53, he2, zpow_add₀ (by norm_num : (2 : ℚ) ≠ 0)]
        push_cast
        field_simp
        ring
    obtain ⟨k, hk⟩ := hint
    rw [hv, hr, hk, roundEven_intCast, ← hk]
    field_simp
  rcases lt_trichotomy n 0 with h | h | h
  · have h2 : -n ≤ 2 ^ 53 := by
      have := neg_le_abs n
      omega
    have := key (-n) (by omega) h2
    push_cast at this
    rw [neg_mul, float64_neg] at this
    linarith
  · rw [h]
    simp [float64_zero]
  · exact key n h (le_trans (le_abs_self n) hn)

theorem float64_idem (q : ℚ) : float64 (float64 q) = float64 q := by
  have key : ∀ q : ℚ, 0 < q → float64 (float64 q) = float64 q := by
    intro q hq
    obtain ⟨e, n, he, _, hv, _, hn0, hn, _, _⟩ := float64_pos_shape q hq
    rw [hv]
    exact float64_of_repr n e he (by rw [abs_of_nonneg hn0]; exact hn)
  rcases lt_trichotomy q 0 with h | h | h
  · have := key (-q) (neg_pos.2 h)
    rw [float64_neg, float64_neg] at this
    linarith
  · rw [h, float64_zero, float64_zero]
  · exact key q h

/-- The rounding error of `float64` against the magnitude of the result. -/
theorem float64_abs_sub_le_result (q : ℚ) :
    |float64 q - q| ≤ |float64 q| / 2 ^ 53 + 1 / 2 ^ 1075 := by
  have key : ∀ q : ℚ, 0 < q → |float64 q - q| ≤ |float64 q| / 2 ^ 53 + 1 / 2 ^ 1075 := by
    intro q hq
    obtain ⟨e, n, he, hdef, hv, _, hn, _, h52, herr⟩ := float64_pos_shape q hq
    have hpe : (0 : ℚ) < 2 ^ e := by positivity
    have hn0 : (0 : ℚ) ≤ n := by exact_mod_cast hn
    have h1 : |float64 q - q| = |(n : ℚ) - q / 2 ^ e| * 2 ^ e := by
      rw [hv, ← abs_of_pos hpe, ← abs_mul, abs_of_pos hpe]
      congr 1
      field_simp
    have h2 : |(n : ℚ) - q / 2 ^ e| * 2 ^ e ≤ 1 / 2 * 2 ^ e :=
      mul_le_mul_of_nonneg_right herr hpe.le
    rw [h1]
    refine le_trans h2 ?_
    rw [hv, abs_of_nonneg (mul_nonneg hn0 hpe.le)]
    by_cases hl : -1022 ≤ Int.log 2 q
    · have hn52 : (2 : ℚ) ^ 52 ≤ n := by exact_mod_cast h52 hl
      have : (2 : ℚ) ^ 52 * 2 ^ e ≤ n * 2 ^ e := mul_le_mul_of_nonneg_right hn52 hpe.le
      have e53 : (1 / 2 : ℚ) * 2 ^ e = 2 ^ 52 * 2 ^ e / 2 ^ 53 := by
        field_simp
        ring
      rw [e53]
      have : (2 : ℚ) ^ 52 * 2 ^ e / 2 ^ 53 ≤ n * 2 ^ e / 2 ^ 53 :=
        div_le_div_of_nonneg_right this (by positivity)
      have : (0 : ℚ) ≤ 1 / 2 ^ 1075 := by positivity
      linarith
    · have hm : e = -1074 := by
        rw [hdef, max_eq_right (by omega)]
        norm_num
      have e75 : (1 / 2 : ℚ) * 2 ^ e = 1 / 2 ^ 1075 := by
        rw [hm]
        norm_num
      rw [e75]
      have : (0 : ℚ) ≤ n * 2 ^ e / 2 ^ 53 := by positivity
      linarith
  rcases lt_trichotomy q 0 with h | h | h
  · have := key (-q) (neg_pos.2 h)
    have e : float64 (-q) - -q = -(float64 q - q) := by rw [float64_neg]; ring
    rwa [e, abs_neg, float64_neg, abs_neg] at this
  · rw [h, float64_zero]
    simp
  · exact key q h

/-! ## optimizeSingle and OptimizeMergedEntries -/

theorem clampDuration_frame (m : IntelligentMerger) (entry : SubtitleEntry) :
    (clampDuration m entry).1.Start = entry.Start ∧ (clampDuration m entry).1.Text = entry.Text ∧
    (clampDuration m entry).1.Words = entry.Words ∧
    (clampDuration m entry).1.IsAudioEvent = entry.IsAudioEvent ∧
    (clampDuration m entry).1.WordCount = entry.WordCount ∧
    (clampDuration m entry).1.CharCount = entry.CharCount := by
  unfold clampDuration
  simp only
  split_ifs <;> simp

theorem clampDuration_bounds (m : IntelligentMerger) (entry : SubtitleEntry)
    (h : m.MinSubtitleDuration ≤ m.MaxSubtitleDuration) :
    m.MinSubtitleDuration ≤ (clampDuration m entry).2 ∧
      (clampDuration m entry).2 ≤ m.MaxSubtitleDuration := by
  unfold clampDuration
  simp only
  split_ifs with h1 h2 h3
  · exact ⟨le_refl _, h⟩
  · exact ⟨not_lt.1 h2, le_refl _⟩
  · exact ⟨le_refl _, h⟩
  · exact ⟨not_lt.1 h3, not_lt.1 h1⟩

theorem optimizeSingle_frame (m : IntelligentMerger) (entry : SubtitleEntry) :
    (optimizeSingle m entry).Start = entry.Start ∧ (optimizeSingle m entry).Text = entry.Text ∧
    (optimizeSingle m entry).Words = entry.Words ∧
    (optimizeSingle m entry).IsAudioEvent = entry.IsAudioEvent ∧
    (optimizeSingle m entry).WordCount = entry.WordCount ∧
    (optimizeSingle m entry).CharCount = entry.CharCount := by
  have h := clampDuration_frame m entry
  unfold optimizeSingle
  simp only
  split_ifs <;> exact h

theorem ensureGap_frame (m : IntelligentMerger) (e next : SubtitleEntry) :
    (ensureGap m e next).Start = e.Start ∧ (ensureGap m e next).Text = e.Text ∧
    (ensureGap m e next).Words = e.Words ∧
    (ensureGap m e next).IsAudioEvent = e.IsAudioEvent ∧
    (ensureGap m e next).WordCount = e.WordCount ∧
    (ensureGap m e next).CharCount = e.CharCount := by
  unfold ensureGap
  simp only
  split_ifs <;> simp

theorem optimizeLoop_frame (m : IntelligentMerger) (entries : List SubtitleEntry) :
    List.Forall₂
      (fun entry e => e.Start = entry.Start ∧ e.Text = entry.Text ∧ e.Words = entry.Words ∧
        e.IsAudioEvent = entry.IsAudioEvent ∧ e.WordCount = entry.WordCount ∧
        e.CharCount = entry.CharCount)
      entries (optimizeLoop m entries) := by
  induction entries with
  | nil => exact List.Forall₂.nil
  | cons entry rest ih =>
    unfold optimizeLoop
    refine List.Forall₂.cons ?_ ih
    have h1 := optimizeSingle_frame m entry
    cases rest with
    | nil => exact h1
    | cons next tail =>
      have h2 := ensureGap_frame m (optimizeSingle m entry) next
      simp only
      exact ⟨h2.1.trans h1.1, h2.2.1.trans h1.2.1, h2.2.2.1.trans h1.2.2.1,
        h2.2.2.2.1.trans h1.2.2.2.1, h2.2.2.2.2.1.trans h1.2.2.2.2.1,
        h2.2.2.2.2.2.trans h1.2.2.2.2.2⟩

theorem OptimizeMergedEntries_eq (m : IntelligentMerger) (entries : List SubtitleEntry) :
    OptimizeMergedEntries m entries = optimizeLoop m entries := by
  unfold OptimizeMergedEntries
  split_ifs with h
  · rw [List.eq_nil_of_length_eq_zero h]; rfl
  · rfl

/-- C15: `OptimizeMergedEntries` returns a list of the same length, each entry
agreeing with the input entry at its position on `Start`, `Text`, `Words`,
`IsAudioEvent`, `WordCount` and `CharCount`. -/
theorem OptimizeMergedEntries_frame (m : IntelligentMerger) (entries : List SubtitleEntry) :
    (OptimizeMergedEntries m entries).length = entries.length ∧
    List.Forall₂
      (fun entry e => e.Start = entry.Start ∧ e.Text = entry.Text ∧ e.Words = entry.Words ∧
        e.IsAudioEvent = entry.IsAudioEvent ∧ e.WordCount = entry.WordCount ∧
        e.CharCount = entry.CharCount)
      entries (OptimizeMergedEntries m entries) := by
  rw [OptimizeMergedEntries_eq]
  exact ⟨(optimizeLoop_frame m entries).length_eq.symm, optimizeLoop_frame m entries⟩

/-! ### Rounding in the optimization pass -/

theorem roundingError_mono {x y : ℚ} (h : x ≤ y) : roundingError x ≤ roundingError y := by
  unfold roundingError
  have := div_le_div_of_nonneg_right h (by positivity : (0 : ℚ) ≤ 2 ^ 53)
  linarith

theorem roundingError_pos {x : ℚ} (h : 0 ≤ x) : 0 < roundingError x := by
  unfold roundingError
  have a : (0 : ℚ) ≤ x / 2 ^ 53 := div_nonneg h (by positivity)
  have b : (0 : ℚ) < 1 / 2 ^ 1075 := by positivity
  linarith

theorem float64_near (q : ℚ) : |float64 q - q| ≤ roundingError |q| :=
  float64_abs_sub_le q

theorem float64_near_result (q : ℚ) : |float64 q - q| ≤ roundingError |float64 q| :=
  float64_abs_sub_le_result q

theorem float64_intCast (n : ℤ) (h : |n| ≤ 2 ^ 53) : float64 (n : ℚ) = n := by
  have := float64_of_repr n 0 (by norm_num) h
  simpa using this

theorem float64_add_near (a b B : ℚ) (hb : |b| ≤ B) :
    |float64 (a + b) - a - b| ≤ roundingError (|a| + B) := by
  have h := float64_near (a + b)
  have h2 : |a + b| ≤ |a| + B := le_trans (abs_add a b) (by linarith)
  have h3 := roundingError_mono h2
  rw [show float64 (a + b) - a - b = float64 (a + b) - (a + b) by ring]
  linarith

theorem lt_of_float64_lt_float {x g : ℚ} (hg : float64 g = g) (h : float64 x < g) : x < g := by
  by_contra hc
  have := float64_mono (not_lt.1 hc)
  rw [hg] at this
  linarith

theorem clampDuration_end_near (m : IntelligentMerger) (entry : SubtitleEntry) :
    |(clampDuration m entry).1.End - entry.Start - (clampDuration m entry).2| ≤
      roundingError (|entry.Start| + max |m.MinSubtitleDuration| |m.MaxSubtitleDuration|) := by
  unfold clampDuration
  simp only
  split_ifs with h1 h2 h3
  · exact float64_add_near _ _ _ (le_max_left _ _)
  · exact float64_add_near _ _ _ (le_max_right _ _)
  · exact float64_add_near _ _ _ (le_max_left _ _)
  · have hb : |float64 (entry.End - entry.Start)| ≤
        max |m.MinSubtitleDuration| |m.MaxSubtitleDuration| :=
      abs_le_max_abs_abs (not_lt.1 h3) (not_lt.1 h1)
    have h4 := float64_near_result (entry.End - entry.Start)
    rw [abs_sub_comm] at h4
    have h5 := roundingError_mono (show |float64 (entry.End - entry.Start)| ≤
      |entry.Start| + max |m.MinSubtitleDuration| |m.MaxSubtitleDuration| by
        linarith [abs_nonneg entry.Start])
    linarith

theorem clampDuration_snd_float (m : IntelligentMerger) (hm : IsFloat64Merger m)
    (entry : SubtitleEntry) :
    float64 (clampDuration m entry).2 = (clampDuration m entry).2 := by
  unfold clampDuration
  simp only
  split_ifs
  · exact hm.1
  · exact hm.2.1
  · exact hm.1
  · exact float64_idem _

theorem clampDuration_end_cases (m : IntelligentMerger) (entry : SubtitleEntry) :
    (clampDuration m entry).1.End = float64 (entry.Start + (clampDuration m entry).2) ∨
    ((clampDuration m entry).1.End = entry.End ∧
      (clampDuration m entry).2 = float64 (entry.End - entry.Start)) := by
  unfold clampDuration
  simp only
  split_ifs
  · left; rfl
  · left; rfl
  · left; rfl
  · right; exact ⟨rfl, rfl⟩

theorem getDynamicCPSLimit_ge (m : IntelligentMerger) (h : 0 < m.MaxCPS) (text : GoString) :
    m.MaxCPS ≤ getDynamicCPSLimit m text := by
  unfold getDynamicCPSLimit
  simp only
  split_ifs <;> nlinarith

theorem float64_limit_pos (m : IntelligentMerger) (h : 0 < m.MaxCPS)
    (hf : float64 m.MaxCPS = m.MaxCPS) (text : GoString) :
    0 < float64 (getDynamicCPSLimit m text) := by
  have := float64_mono (getDynamicCPSLimit_ge m h text)
  rw [hf] at this
  linarith

theorem optimizeSingle_end (m : IntelligentMerger) (entry : SubtitleEntry) :
    (optimizeSingle m entry).End =
      if (calculateCPS m entry.Text (clampDuration m entry).2).map float64 >
          ((float64 (getDynamicCPSLimit m entry.Text) : ℚ) : WithTop ℚ) then
        float64 (entry.Start + requiredDuration m (stripWhitespaceCount entry.Text)
          (float64 (getDynamicCPSLimit m entry.Text)))
      else (clampDuration m entry).1.End := by
  have hf := clampDuration_frame m entry
  unfold optimizeSingle
  simp only [hf.1, hf.2.1]
  split_ifs <;> rfl

/-- When the rounded characters per second over the clamped duration exceed
the rounded limit, the rounded duration the limit asks for is at least the
clamped one. -/
theorem required_ge_clamped (m : IntelligentMerger) (hcps : 0 < m.MaxCPS)
    (hm : IsFloat64Merger m) (entry : SubtitleEntry)
    (h : (calculateCPS m entry.Text (clampDuration m entry).2).map float64 >
      ((float64 (getDynamicCPSLimit m entry.Text) : ℚ) : WithTop ℚ)) :
    (clampDuration m entry).2 ≤
      float64 ((stripWhitespaceCount entry.Text : ℚ) /
        float64 (getDynamicCPSLimit m entry.Text)) := by
  have hl := float64_limit_pos m hcps hm.2.2.2 entry.Text
  have hd := clampDuration_snd_float m hm entry
  unfold calculateCPS at h
  split_ifs at h with hle
  · exact le_trans hle (float64_nonneg (div_nonneg (Nat.cast_nonneg _) hl.le))
  · rw [WithTop.map_coe, gt_iff_lt, WithTop.coe_lt_coe] at h
    have hpos := not_le.1 hle
    have h2 : float64 (getDynamicCPSLimit m entry.Text) <
        (stripWhitespaceCount entry.Text : ℚ) / (clampDuration m entry).2 := by
      by_contra hc
      have := float64_mono (not_lt.1 hc)
      rw [float64_idem] at this
      linarith
    rw [lt_div_iff₀ hpos] at h2
    have h3 : (clampDuration m entry).2 ≤
        (stripWhitespaceCount entry.Text : ℚ) / float64 (getDynamicCPSLimit m entry.Text) := by
      rw [le_div_iff₀ hl]
      linarith
    have := float64_mono h3
    rwa [hd] at this

/-- The duration of the entry `optimizeSingle` returns is within one rounding
error of a value between the two bounds. -/
theorem optimizeSingle_near (m : IntelligentMerger)
    (hmm : m.MinSubtitleDuration ≤ m.MaxSubtitleDuration) (hcps : 0 < m.MaxCPS)
    (hm : IsFloat64Merger m) (entry : SubtitleEntry) :
    ∃ d : ℚ, m.MinSubtitleDuration ≤ d ∧ d ≤ m.MaxSubtitleDuration ∧
      |(optimizeSingle m entry).End - entry.Start - d| ≤
        roundingError (|entry.Start| + max |m.MinSubtitleDuration| |m.MaxSubtitleDuration|) := by
  have hb := clampDuration_bounds m entry hmm
  have hl := float64_limit_pos m hcps hm.2.2.2 entry.Text
  rw [optimizeSingle_end]
  split_ifs with hc
  · have hr := required_ge_clamped m hcps hm entry hc
    unfold requiredDuration
    rw [if_neg hl.ne']
    have h1 : m.MinSubtitleDuration ≤ min (float64 ((stripWhitespaceCount entry.Text : ℚ) /
        float64 (getDynamicCPSLimit m entry.Text))) m.MaxSubtitleDuration :=
      le_min (le_trans hb.1 hr) hmm
    exact ⟨_, h1, min_le_right _ _,
      float64_add_near _ _ _ (abs_le_max_abs_abs h1 (min_le_right _ _))⟩
  · exact ⟨_, hb.1, hb.2, clampDuration_end_near m entry⟩

theorem optimizeSingle_bounds (m : IntelligentMerger)
    (hmm : m.MinSubtitleDuration ≤ m.MaxSubtitleDuration) (hcps : 0 < m.MaxCPS)
    (hm : IsFloat64Merger m) (entry : SubtitleEntry) :
    m.MinSubtitleDuration -
        roundingError (|(optimizeSingle m entry).Start| +
          max |m.MinSubtitleDuration| |m.MaxSubtitleDuration|) ≤
      (optimizeSingle m entry).End - (optimizeSingle m entry).Start ∧
    (optimizeSingle m entry).End - (optimizeSingle m entry).Start ≤
      m.MaxSubtitleDuration +
        roundingError (|(optimizeSingle m entry).Start| +
          max |m.MinSubtitleDuration| |m.MaxSubtitleDuration|) := by
  obtain ⟨d, h1, h2, h3⟩ := optimizeSingle_near m hmm hcps hm entry
  rw [(optimizeSingle_frame m entry).1]
  rw [abs_le] at h3
  constructor <;> linarith [h3.1, h3.2]

theorem optimizeSingle_end_float (m : IntelligentMerger) (entry : SubtitleEntry)
    (hE : float64 entry.End = entry.End) :
    float64 (optimizeSingle m entry).End = (optimizeSingle m entry).End := by
  rw [optimizeSingle_end]
  split_ifs
  · exact float64_idem _
  · rcases clampDuration_end_cases m entry with h | h
    · rw [h]
      exact float64_idem _
    · rw [h.1]
      exact hE

theorem ensureGap_bounds (m : IntelligentMerger)
    (hmm : m.MinSubtitleDuration ≤ m.MaxSubtitleDuration)
    (hg : float64 m.MinSubtitleGap = m.MinSubtitleGap) (e next : SubtitleEntry)
    (hE : float64 e.End = e.End)
    (h : m.MinSubtitleDuration -
          roundingError (|e.Start| + max |m.MinSubtitleDuration| |m.MaxSubtitleDuration|) ≤
        e.End - e.Start ∧
      e.End - e.Start ≤ m.MaxSubtitleDuration +
        roundingError (|e.Start| + max |m.MinSubtitleDuration| |m.MaxSubtitleDuration|)) :
    m.MinSubtitleDuration -
        roundingError (|(ensureGap m e next).Start| +
          max |m.MinSubtitleDuration| |m.MaxSubtitleDuration|) ≤
      (ensureGap m e next).End - (ensureGap m e next).Start ∧
    (ensureGap m e next).End - (ensureGap m e next).Start ≤
      m.MaxSubtitleDuration +
        roundingError (|(ensureGap m e next).Start| +
          max |m.MinSubtitleDuration| |m.MaxSubtitleDuration|) := by
  have hmin := abs_le.1 (float64_add_near e.Start m.MinSubtitleDuration _
    (le_max_left |m.MinSubtitleDuration| |m.MaxSubtitleDuration|))
  rw [(ensureGap_frame m e next).1]
  unfold ensureGap
  simp only
  split_ifs with h1 h2
  · simp only
    constructor <;> linarith [hmin.1, hmin.2]
  · simp only
    have hlt : next.Start - e.End < m.MinSubtitleGap := lt_of_float64_lt_float hg h1
    have hle : float64 (next.Start - m.MinSubtitleGap) ≤ e.End := by
      have := float64_mono (show next.Start - m.MinSubtitleGap ≤ e.End by linarith)
      rwa [hE] at this
    constructor
    · linarith [not_lt.1 h2, hmin.1]
    · linarith [h.2]
  · exact h

theorem optimizeLoop_bounds (m : IntelligentMerger)
    (hmm : m.MinSubtitleDuration ≤ m.MaxSubtitleDuration) (hcps : 0 < m.MaxCPS)
    (hm : IsFloat64Merger m) (entries : List SubtitleEntry)
    (hE : ∀ entry ∈ entries, float64 entry.End = entry.End) :
    ∀ e ∈ optimizeLoop m entries,
      m.MinSubtitleDuration -
          roundingError (|e.Start| + max |m.MinSubtitleDuration| |m.MaxSubtitleDuration|) ≤
        e.End - e.Start ∧
      e.End - e.Start ≤ m.MaxSubtitleDuration +
        roundingError (|e.Start| + max |m.MinSubtitleDuration| |m.MaxSubtitleDuration|) := by
  induction entries with
  | nil => intro e he; simp [optimizeLoop] at he
  | cons entry rest ih =>
    intro e he
    unfold optimizeLoop at he
    rcases List.mem_cons.1 he with h | h
    · subst h
      cases rest with
      | nil => exact optimizeSingle_bounds m hmm hcps hm entry
      | cons next tail =>
        exact ensureGap_bounds m hmm hm.2.2.1 _ next
          (optimizeSingle_end_float m entry (hE entry (List.mem_cons_self _ _)))
          (optimizeSingle_bounds m hmm hcps hm entry)
    · exact ih (fun x hx => hE x (List.mem_cons_of_mem _ hx)) e h

theorem ensureGap_gap (m : IntelligentMerger)
    (hg : float64 m.MinSubtitleGap = m.MinSubtitleGap) (e next : SubtitleEntry) :
    m.MinSubtitleGap - roundingError (|next.Start| + |m.MinSubtitleGap|) ≤
        next.Start - (ensureGap m e next).End ∨
    ((ensureGap m e next).End =
        float64 ((ensureGap m e next).Start + m.MinSubtitleDuration) ∧
      float64 (next.Start - m.MinSubtitleGap) <
        float64 ((ensureGap m e next).Start + m.MinSubtitleDuration)) := by
  have hn : (0 : ℚ) ≤ |next.Start| := abs_nonneg _
  unfold ensureGap
  simp only
  split_ifs with h1 h2
  · right
    exact ⟨rfl, h2⟩
  · left
    simp only
    have h3 := abs_le.1 (float64_near (next.Start - m.MinSubtitleGap))
    have h4 := roundingError_mono (abs_sub next.Start m.MinSubtitleGap)
    linarith [h3.2]
  · left
    have h3 : m.MinSubtitleGap ≤ float64 (next.Start - e.End) := not_lt.1 h1
    have h5 := roundingError_mono (show |m.MinSubtitleGap| ≤ |next.Start| + |m.MinSubtitleGap| by
      linarith)
    rcases le_or_lt m.MinSubtitleGap (next.Start - e.End) with h4 | h4
    · have := (roundingError_pos (abs_nonneg m.MinSubtitleGap)).le
      linarith
    · have h6 : float64 (next.Start - e.End) = m.MinSubtitleGap := by
        have := float64_mono h4.le
        rw [hg] at this
        exact le_antisymm this h3
      have h7 := abs_le.1 (float64_near_result (next.Start - e.End))
      rw [h6] at h7
      linarith [h7.2]

theorem optimizeLoop_head (m : IntelligentMerger) (next : SubtitleEntry)
    (tail : List SubtitleEntry) :
    ∀ y ∈ (optimizeLoop m (next :: tail)).head?, y.Start = next.Start := by
  intro y hy
  unfold optimizeLoop at hy
  simp only [List.head?_cons, Option.mem_def, Option.some.injEq] at hy
  subst hy
  cases tail with
  | nil => exact (optimizeSingle_frame m next).1
  | cons t ts =>
    exact ((ensureGap_frame m (optimizeSingle m next) t).1).trans (optimizeSingle_frame m next).1

theorem optimizeSingle_reading_speed (m : IntelligentMerger) (hcps : 0 < m.MaxCPS)
    (hm : IsFloat64Merger m) (entry : SubtitleEntry)
    (hfit : float64 ((stripWhitespaceCount entry.Text : ℚ) /
        float64 (getDynamicCPSLimit m entry.Text)) ≤ m.MaxSubtitleDuration) :
    (stripWhitespaceCount entry.Text : ℚ) ≤
      (float64 (getDynamicCPSLimit m entry.Text) +
          2 * roundingError (float64 (getDynamicCPSLimit m entry.Text))) *
        ((optimizeSingle m entry).End - entry.Start +
          2 * roundingError (|entry.Start| +
            max |m.MinSubtitleDuration| |m.MaxSubtitleDuration|)) := by
  have hl := float64_limit_pos m hcps hm.2.2.2 entry.Text
  have hn : (0 : ℚ) ≤ (stripWhitespaceCount entry.Text : ℚ) := Nat.cast_nonneg _
  have hmx : (0 : ℚ) ≤ max |m.MinSubtitleDuration| |m.MaxSubtitleDuration| :=
    le_trans (abs_nonneg _) (le_max_left _ _)
  have hρ := roundingError_pos (add_nonneg (abs_nonneg entry.Start) hmx)
  have hε := roundingError_pos hl.le
  have hη : (1 : ℚ) / 2 ^ 1075 ≤ roundingError (|entry.Start| +
      max |m.MinSubtitleDuration| |m.MaxSubtitleDuration|) := by
    unfold roundingError
    have : (0 : ℚ) ≤ (|entry.Start| + max |m.MinSubtitleDuration| |m.MaxSubtitleDuration|) /
        2 ^ 53 := div_nonneg (add_nonneg (abs_nonneg _) hmx) (by positivity)
    linarith
  rw [optimizeSingle_end]
  unfold requiredDuration
  generalize hL : float64 (getDynamicCPSLimit m entry.Text) = L at *
  generalize hR : roundingError (|entry.Start| +
      max |m.MinSubtitleDuration| |m.MaxSubtitleDuration|) = ρ at *
  generalize hN : (stripWhitespaceCount entry.Text : ℚ) = n at *
  have hεL : roundingError L = L / 2 ^ 53 + 1 / 2 ^ 1075 := rfl
  split_ifs with hc h0
  · exact absurd h0 hl.ne'
  · rw [min_eq_left hfit]
    have hr0 : 0 ≤ float64 (n / L) := float64_nonneg (div_nonneg hn hl.le)
    have hrM : |float64 (n / L)| ≤ max |m.MinSubtitleDuration| |m.MaxSubtitleDuration| := by
      rw [abs_of_nonneg hr0]
      exact le_trans hfit (le_trans (le_abs_self _) (le_max_right _ _))
    have h1 := abs_le.1 (float64_add_near entry.Start (float64 (n / L)) _ hrM)
    rw [hR] at h1
    have h2 := abs_le.1 (float64_near_result (n / L))
    rw [abs_of_nonneg hr0] at h2
    unfold roundingError at h2
    generalize float64 (n / L) = r at *
    generalize float64 (entry.Start + r) = E at *
    have h3 : n = n / L * L := by field_simp
    have h4 : n / L ≤ r + (r / 2 ^ 53 + 1 / 2 ^ 1075) := by linarith [h2.1]
    have h5 : n ≤ (r + (r / 2 ^ 53 + 1 / 2 ^ 1075)) * L := by
      rw [h3]
      exact mul_le_mul_of_nonneg_right h4 hl.le
    have h6 : r ≤ E - entry.Start + ρ := by linarith [h1.1]
    have h7 : (L + 2 * roundingError L) * (r + ρ) ≤
        (L + 2 * roundingError L) * (E - entry.Start + 2 * ρ) :=
      mul_le_mul_of_nonneg_left (by linarith) (by linarith)
    have h8 : (r + (r / 2 ^ 53 + 1 / 2 ^ 1075)) * L ≤ (L + 2 * roundingError L) * (r + ρ) := by
      rw [hεL]
      have a : (0 : ℚ) ≤ L * (ρ - 1 / 2 ^ 1075) := mul_nonneg hl.le (by linarith)
      have b : (0 : ℚ) ≤ r * (L / 2 ^ 53) := mul_nonneg hr0 (by positivity)
      have c : (0 : ℚ) ≤ r * (1 / 2 ^ 1075) := mul_nonneg hr0 (by positivity)
      have d : (0 : ℚ) ≤ (L / 2 ^ 53 + 1 / 2 ^ 1075) * ρ := mul_nonneg (by positivity) hρ.le
      nlinarith
    linarith
  · have hpos : 0 < (clampDuration m entry).2 := by
      by_contra hle
      apply hc
      unfold calculateCPS
      rw [if_pos (not_lt.1 hle), WithTop.map_top]
      exact WithTop.coe_lt_top _
    have hcl : float64 (n / (clampDuration m entry).2) ≤ L := by
      unfold calculateCPS at hc
      rw [if_neg (not_le.2 hpos), WithTop.map_coe, gt_iff_lt, WithTop.coe_lt_coe, hN] at hc
      exact not_lt.1 hc
    have hc0 : 0 ≤ float64 (n / (clampDuration m entry).2) :=
      float64_nonneg (div_nonneg hn hpos.le)
    have h1 := abs_le.1 (clampDuration_end_near m entry)
    rw [hR] at h1
    have h2 := abs_le.1 (float64_near_result (n / (clampDuration m entry).2))
    rw [abs_of_nonneg hc0] at h2
    have h2b := roundingError_mono hcl
    generalize (clampDuration m entry).2 = dur at *
    generalize (clampDuration m entry).1.End = E at *
    have h3 : n = n / dur * dur := by field_simp
    have h4 : n / dur ≤ L + roundingError L := by linarith [h2.1]
    have h5 : n ≤ (L + roundingError L) * dur := by
      rw [h3]
      exact mul_le_mul_of_nonneg_right h4 hpos.le
    have h6 : dur ≤ E - entry.Start + ρ := by linarith [h1.1]
    have h7 : (L + roundingError L) * dur ≤ (L + roundingError L) * (E - entry.Start + ρ) :=
      mul_le_mul_of_nonneg_left h6 (by linarith)
    have h8 : (L + roundingError L) * (E - entry.Start + ρ) ≤
        (L + 2 * roundingError L) * (E - entry.Start + 2 * ρ) := by
      have a : (0 : ℚ) ≤ roundingError L * (E - entry.Start + ρ) :=
        mul_nonneg hε.le (by linarith)
      have b : (0 : ℚ) ≤ (L + 2 * roundingError L) * ρ := mul_nonneg (by linarith) hρ.le
      nlinarith
    linarith

theorem optimizeLoop_getLast? (m : IntelligentMerger) (entries : List SubtitleEntry) :
    (optimizeLoop m entries).getLast? = entries.getLast?.map (optimizeSingle m) := by
  induction entries with
  | nil => rfl
  | cons entry rest ih =>
    cases rest with
    | nil => rfl
    | cons next tail =>
      rw [optimizeLoop, List.getLast?_cons_cons]
      have hne : ∃ y ys, optimizeLoop m (next :: tail) = y :: ys := by
        unfold optimizeLoop
        exact ⟨_, _, rfl⟩
      obtain ⟨y, ys, hy⟩ := hne
      rw [hy, List.getLast?_cons_cons, ← hy, ih]

/-- C11, amended: with `MinSubtitleDuration ≤ MaxSubtitleDuration`,
`MaxCPS > 0` and `float64` fields, every entry that `optimizeSingle` returns,
and every entry that `OptimizeMergedEntries` returns on entries with `float64`
`End`s, lasts at least `MinSubtitleDuration` and at most `MaxSubtitleDuration`
up to one rounding error of its `End`: at most `2 ^ -53` times
`|Start| + max |MinSubtitleDuration| |MaxSubtitleDuration|`, plus half the
least subnormal. -/
theorem optimize_duration_bounds (m : IntelligentMerger)
    (hmm : m.MinSubtitleDuration ≤ m.MaxSubtitleDuration) (hcps : 0 < m.MaxCPS)
    (hm : IsFloat64Merger m) :
    (∀ entry : SubtitleEntry,
      m.MinSubtitleDuration -
          roundingError (|(optimizeSingle m entry).Start| +
            max |m.MinSubtitleDuration| |m.MaxSubtitleDuration|) ≤
        (optimizeSingle m entry).End - (optimizeSingle m entry).Start ∧
      (optimizeSingle m entry).End - (optimizeSingle m entry).Start ≤
        m.MaxSubtitleDuration +
          roundingError (|(optimizeSingle m entry).Start| +
            max |m.MinSubtitleDuration| |m.MaxSubtitleDuration|)) ∧
    (∀ entries : List SubtitleEntry, (∀ entry ∈ entries, float64 entry.End = entry.End) →
      ∀ e ∈ OptimizeMergedEntries m entries,
        m.MinSubtitleDuration -
            roundingError (|e.Start| + max |m.MinSubtitleDuration| |m.MaxSubtitleDuration|) ≤
          e.End - e.Start ∧
        e.End - e.Start ≤ m.MaxSubtitleDuration +
          roundingError (|e.Start| + max |m.MinSubtitleDuration| |m.MaxSubtitleDuration|)) := by
  refine ⟨optimizeSingle_bounds m hmm hcps hm, ?_⟩
  intro entries hE e he
  rw [OptimizeMergedEntries_eq] at he
  exact optimizeLoop_bounds m hmm hcps hm entries hE e he

/-- C12, amended: with a `float64` `MinSubtitleGap`, in the output of
`OptimizeMergedEntries` every entry ends at least `MinSubtitleGap` before the
next one starts, up to one rounding error (at most `2 ^ -53` times
`|next Start| + |MinSubtitleGap|`, plus half the least subnormal), unless that
would leave it shorter than `MinSubtitleDuration`: then its `End` is the
`float64` sum of its `Start` and `MinSubtitleDuration`. -/
theorem OptimizeMergedEntries_gaps (m : IntelligentMerger)
    (hg : float64 m.MinSubtitleGap = m.MinSubtitleGap) (entries : List SubtitleEntry) :
    List.Chain'
      (fun a b =>
        m.MinSubtitleGap - roundingError (|b.Start| + |m.MinSubtitleGap|) ≤ b.Start - a.End ∨
        (a.End = float64 (a.Start + m.MinSubtitleDuration) ∧
          float64 (b.Start - m.MinSubtitleGap) < float64 (a.Start + m.MinSubtitleDuration)))
      (OptimizeMergedEntries m entries) := by
  rw [OptimizeMergedEntries_eq]
  induction entries with
  | nil => exact List.chain'_nil
  | cons entry rest ih =>
    cases rest with
    | nil => simp [optimizeLoop]
    | cons next tail =>
      rw [optimizeLoop, List.chain'_cons']
      refine ⟨?_, ih⟩
      intro y hy
      rw [optimizeLoop_head m next tail y hy]
      exact ensureGap_gap m hg (optimizeSingle m entry) next

/-- C13, amended: with `MaxCPS > 0` and `float64` fields, the entry that
`optimizeSingle` returns keeps to its dynamic CPS limit up to rounding
whenever the `float64` duration the limit asks for, the non-white-space count
divided by the limit, is at most `MaxSubtitleDuration`: the count is at most
the product of the limit and the duration, each raised by two rounding errors.
So does an entry of the output of `OptimizeMergedEntries` whose `End` is the
one `optimizeSingle` set, as is that of the last entry. -/
theorem optimize_reading_speed (m : IntelligentMerger) (hcps : 0 < m.MaxCPS)
    (hm : IsFloat64Merger m) :
    (∀ entry : SubtitleEntry,
      float64 ((stripWhitespaceCount entry.Text : ℚ) /
          float64 (getDynamicCPSLimit m entry.Text)) ≤ m.MaxSubtitleDuration →
      (stripWhitespaceCount (optimizeSingle m entry).Text : ℚ) ≤
        (float64 (getDynamicCPSLimit m (optimizeSingle m entry).Text) +
            2 * roundingError (float64 (getDynamicCPSLimit m (optimizeSingle m entry).Text))) *
          ((optimizeSingle m entry).End - (optimizeSingle m entry).Start +
            2 * roundingError (|(optimizeSingle m entry).Start| +
              max |m.MinSubtitleDuration| |m.MaxSubtitleDuration|))) ∧
    (∀ entries : List SubtitleEntry,
      List.Forall₂
        (fun entry e => e.End = (optimizeSingle m entry).End →
          float64 ((stripWhitespaceCount entry.Text : ℚ) /
              float64 (getDynamicCPSLimit m entry.Text)) ≤ m.MaxSubtitleDuration →
          (stripWhitespaceCount e.Text : ℚ) ≤
            (float64 (getDynamicCPSLimit m e.Text) +
                2 * roundingError (float64 (getDynamicCPSLimit m e.Text))) *
              (e.End - e.Start +
                2 * roundingError (|e.Start| +
                  max |m.MinSubtitleDuration| |m.MaxSubtitleDuration|)))
        entries (OptimizeMergedEntries m entries)) ∧
    (∀ entries : List SubtitleEntry,
      (OptimizeMergedEntries m entries).getLast? = entries.getLast?.map (optimizeSingle m)) := by
  refine ⟨?_, ?_, ?_⟩
  · intro entry hfit
    rw [(optimizeSingle_frame m entry).1, (optimizeSingle_frame m entry).2.1]
    exact optimizeSingle_reading_speed m hcps hm entry hfit
  · intro entries
    rw [OptimizeMergedEntries_eq]
    refine (optimizeLoop_frame m entries).imp ?_
    intro entry e hf hend hfit
    rw [hend, hf.1, hf.2.1]
    exact optimizeSingle_reading_speed m hcps hm entry hfit
  · intro entries
    rw [OptimizeMergedEntries_eq]
    exact optimizeLoop_getLast? m entries

/-- C14, amended: with `MinSubtitleDuration ≤ MaxSubtitleDuration`,
`MaxCPS > 0` and `float64` fields, when the `float64` characters per second of
an entry over its clamped duration exceed its `float64` dynamic CPS limit, the
CPS step of `optimizeSingle` lengthens the entry: the `End` it returns is the
`float64` sum of `Start` and the smaller of the `float64` quotient of the
non-white-space count by the limit and `MaxSubtitleDuration`, and is not
earlier than the `End` obtained by clamping, up to three rounding errors (each
at most `2 ^ -53` times `|Start| + |End|` of the input, plus half the least
subnormal). -/
theorem optimizeSingle_cps_step (m : IntelligentMerger)
    (hmm : m.MinSubtitleDuration ≤ m.MaxSubtitleDuration) (hcps : 0 < m.MaxCPS)
    (hm : IsFloat64Merger m) (entry : SubtitleEntry)
    (h : (calculateCPS m entry.Text (clampDuration m entry).2).map float64 >
      ((float64 (getDynamicCPSLimit m entry.Text) : ℚ) : WithTop ℚ)) :
    (optimizeSingle m entry).End = float64 (entry.Start +
      min (float64 ((stripWhitespaceCount entry.Text : ℚ) /
        float64 (getDynamicCPSLimit m entry.Text))) m.MaxSubtitleDuration) ∧
    (clampDuration m entry).1.End - 3 * roundingError (|entry.Start| + |entry.End|) ≤
      (optimizeSingle m entry).End := by
  have hl := float64_limit_pos m hcps hm.2.2.2 entry.Text
  have hb := clampDuration_bounds m entry hmm
  have hr := required_ge_clamped m hcps hm entry h
  have he : (optimizeSingle m entry).End = float64 (entry.Start +
      min (float64 ((stripWhitespaceCount entry.Text : ℚ) /
        float64 (getDynamicCPSLimit m entry.Text))) m.MaxSubtitleDuration) := by
    rw [optimizeSingle_end, if_pos h]
    unfold requiredDuration
    rw [if_neg hl.ne']
  refine ⟨he, ?_⟩
  have hge : float64 (entry.Start + (clampDuration m entry).2) ≤ (optimizeSingle m entry).End := by
    rw [he]
    exact float64_mono (add_le_add_left (le_min hr hb.2) _)
  have hρ := roundingError_pos (add_nonneg (abs_nonneg entry.Start) (abs_nonneg entry.End))
  rcases clampDuration_end_cases m entry with hcase | hcase
  · rw [hcase]
    linarith
  · rw [hcase.1]
    rw [hcase.2] at hge
    have a := abs_le.1 (float64_near (entry.End - entry.Start))
    have a2 := roundingError_mono (show |entry.End - entry.Start| ≤ |entry.Start| + |entry.End| by
      have := abs_sub entry.End entry.Start
      linarith)
    have b := abs_le.1 (float64_near (entry.Start + float64 (entry.End - entry.Start)))
    have b1 : |entry.Start + float64 (entry.End - entry.Start)| ≤
        |entry.End| + roundingError (|entry.Start| + |entry.End|) := by
      have e1 : entry.Start + float64 (entry.End - entry.Start) =
          entry.End + (float64 (entry.End - entry.Start) - (entry.End - entry.Start)) := by ring
      rw [e1]
      refine le_trans (abs_add _ _) ?_
      have := float64_near (entry.End - entry.Start)
      linarith
    have b2 := roundingError_mono b1
    have b3 : roundingError (|entry.End| + roundingError (|entry.Start| + |entry.End|)) ≤
        2 * roundingError (|entry.Start| + |entry.End|) := by
      have hs : (0 : ℚ) ≤ |entry.Start| := abs_nonneg _
      have c1 : roundingError (|entry.End| + roundingError (|entry.Start| + |entry.End|)) =
          (|entry.End| / 2 ^ 53 + 1 / 2 ^ 1075) +
            roundingError (|entry.Start| + |entry.End|) / 2 ^ 53 := by
        unfold roundingError
        ring
      have c2 : |entry.End| / 2 ^ 53 + 1 / 2 ^ 1075 ≤
          roundingError (|entry.Start| + |entry.End|) := by
        unfold roundingError
        have : |entry.End| / 2 ^ 53 ≤ (|entry.Start| + |entry.End|) / 2 ^ 53 :=
          div_le_div_of_nonneg_right (by linarith) (by positivity)
        linarith
      have c3 : roundingError (|entry.Start| + |entry.End|) / 2 ^ 53 ≤
          roundingError (|entry.Start| + |entry.End|) :=
        div_le_self hρ.le (by norm_num)
      linarith
    linarith [a.1, b.1]

/-! ### The optimization pass on `float64` inputs -/

theorem defaultMerger64_fields :
    defaultMerger64.MinSubtitleDuration = (7475975381435023 / 9007199254740992) ∧
    defaultMerger64.MaxSubtitleDuration = 12 ∧
    defaultMerger64.MinSubtitleGap = (5980780305148019 / 72057594037927936) ∧
    defaultMerger64.MaxCPS = 15 := by
  refine ⟨?_, ?_, ?_, ?_⟩
  · show float64 (83 / 100) = _
    exact float64_eq_of _ _ (-53) 7475975381435023 (by norm_num) (by norm_num) (by norm_num)
      (by rw [abs_lt]; constructor <;> norm_num) (by norm_num)
  · show float64 12 = 12
    exact_mod_cast float64_intCast 12 (by norm_num)
  · show float64 (83 / 1000) = _
    exact float64_eq_of _ _ (-56) 5980780305148019 (by norm_num) (by norm_num) (by norm_num)
      (by rw [abs_lt]; constructor <;> norm_num) (by norm_num)
  · show float64 15 = 15
    exact_mod_cast float64_intCast 15 (by norm_num)

theorem defaultMerger64_isFloat64 : IsFloat64Merger defaultMerger64 :=
  ⟨float64_idem defaultMerger.MinSubtitleDuration, float64_idem defaultMerger.MaxSubtitleDuration,
    float64_idem defaultMerger.MinSubtitleGap, float64_idem defaultMerger.MaxCPS⟩

theorem defaultMerger64_min_le_max :
    defaultMerger64.MinSubtitleDuration ≤ defaultMerger64.MaxSubtitleDuration := by
  rw [defaultMerger64_fields.1, defaultMerger64_fields.2.1]
  norm_num

theorem defaultMerger64_cps_pos : 0 < defaultMerger64.MaxCPS := by
  rw [defaultMerger64_fields.2.2.2]
  norm_num

theorem clampDuration_eq_keep (m : IntelligentMerger) (entry : SubtitleEntry) (d : ℚ)
    (h1 : float64 (entry.End - entry.Start) = d) (h2 : ¬ d > m.MaxSubtitleDuration)
    (h3 : ¬ d < m.MinSubtitleDuration) :
    clampDuration m entry = (entry, d) := by
  unfold clampDuration
  simp only [h1]
  rw [if_neg h2]
  simp only
  rw [if_neg h3]

theorem clampDuration_eq_min (m : IntelligentMerger) (entry : SubtitleEntry) (d E1 : ℚ)
    (h1 : float64 (entry.End - entry.Start) = d) (h2 : ¬ d > m.MaxSubtitleDuration)
    (h3 : d < m.MinSubtitleDuration)
    (h4 : float64 (entry.Start + m.MinSubtitleDuration) = E1) :
    clampDuration m entry = ({ entry with End := E1 }, m.MinSubtitleDuration) := by
  unfold clampDuration
  simp only [h1]
  rw [if_neg h2]
  simp only
  rw [if_pos h3, h4]

theorem optimizeSingle_eq_keep (m : IntelligentMerger) (entry e : SubtitleEntry) (dur : ℚ)
    (n : Nat) (c l : ℚ) (hc : clampDuration m entry = (e, dur))
    (hn : stripWhitespaceCount e.Text = n) (hpos : 0 < dur)
    (hcps : float64 ((n : ℚ) / dur) = c) (hl : float64 (getDynamicCPSLimit m e.Text) = l)
    (hle : c ≤ l) :
    optimizeSingle m entry = e := by
  unfold optimizeSingle
  simp only [hc, calculateCPS, hn, hl]
  rw [if_neg (not_le.2 hpos), WithTop.map_coe, hcps, if_neg]
  rw [gt_iff_lt, WithTop.coe_lt_coe]
  exact not_lt.2 hle

theorem optimizeSingle_eq_step (m : IntelligentMerger) (entry e : SubtitleEntry) (dur : ℚ)
    (n : Nat) (c l r E1 : ℚ) (hc : clampDuration m entry = (e, dur))
    (hn : stripWhitespaceCount e.Text = n) (hpos : 0 < dur)
    (hcps : float64 ((n : ℚ) / dur) = c) (hl : float64 (getDynamicCPSLimit m e.Text) = l)
    (hlt : l < c) (hl0 : l ≠ 0) (hr : float64 ((n : ℚ) / l) = r)
    (hE : float64 (e.Start + min r m.MaxSubtitleDuration) = E1) :
    optimizeSingle m entry = { e with End := E1 } := by
  unfold optimizeSingle
  simp only [hc, calculateCPS, hn, hl, requiredDuration]
  rw [if_neg (not_le.2 hpos), WithTop.map_coe, hcps, if_pos, if_neg hl0, hr, hE]
  rw [gt_iff_lt, WithTop.coe_lt_coe]
  exact hlt

theorem ensureGap_eq_cut (m : IntelligentMerger) (e next : SubtitleEntry) (E1 mE : ℚ)
    (h2 : float64 (next.Start - e.End) < m.MinSubtitleGap)
    (h3 : float64 (next.Start - m.MinSubtitleGap) = E1)
    (h4 : float64 (e.Start + m.MinSubtitleDuration) = mE) (h5 : ¬ E1 < mE) :
    ensureGap m e next = { e with End := E1 } := by
  unfold ensureGap
  simp only [h3, h4]
  rw [if_pos h2, if_neg h5]

theorem ensureGap_eq_min (m : IntelligentMerger) (e next : SubtitleEntry) (E1 mE : ℚ)
    (h2 : float64 (next.Start - e.End) < m.MinSubtitleGap)
    (h3 : float64 (next.Start - m.MinSubtitleGap) = E1)
    (h4 : float64 (e.Start + m.MinSubtitleDuration) = mE) (h5 : E1 < mE) :
    ensureGap m e next = { e with End := mE } := by
  unfold ensureGap
  simp only [h3, h4]
  rw [if_pos h2, if_pos h5]

theorem cpsStep_fires (m : IntelligentMerger) (entry e : SubtitleEntry) (dur : ℚ)
    (n : Nat) (c l : ℚ) (hc : clampDuration m entry = (e, dur))
    (hn : stripWhitespaceCount entry.Text = n) (hpos : 0 < dur)
    (hcps : float64 ((n : ℚ) / dur) = c) (hl : float64 (getDynamicCPSLimit m entry.Text) = l)
    (hlt : l < c) :
    (calculateCPS m entry.Text (clampDuration m entry).2).map float64 >
      ((float64 (getDynamicCPSLimit m entry.Text) : ℚ) : WithTop ℚ) := by
  simp only [hc, calculateCPS, hn, hl]
  rw [if_neg (not_le.2 hpos), WithTop.map_coe, hcps, gt_iff_lt, WithTop.coe_lt_coe]
  exact hlt

theorem OptimizeMergedEntries_pair (m : IntelligentMerger) (e1 e2 : SubtitleEntry) :
    OptimizeMergedEntries m [e1, e2] =
      [ensureGap m (optimizeSingle m e1) e2, optimizeSingle m e2] := by
  rw [OptimizeMergedEntries_eq]
  simp only [optimizeLoop]

theorem getDynamicCPSLimit64 (text : GoString) :
    float64 (getDynamicCPSLimit defaultMerger64 text) =
      if stripWhitespaceCount text ≤ 3 then 45
      else if stripWhitespaceCount text ≤ 5 then 30
      else if stripWhitespaceCount text ≤ 10 then 45 / 2
      else 15 := by
  unfold getDynamicCPSLimit
  simp only [defaultMerger64_fields.2.2.2]
  split_ifs
  · norm_num
    exact_mod_cast float64_intCast 45 (by norm_num)
  · norm_num
    exact_mod_cast float64_intCast 30 (by norm_num)
  · norm_num
    have := float64_of_repr 45 (-1) (by norm_num) (by norm_num)
    norm_num at this
    exact this
  · exact_mod_cast float64_intCast 15 (by norm_num)

theorem optimizeSingle_Hi_example :
    optimizeSingle defaultMerger64
        ⟨"Hi".toList, float64 (3 / 10), float64 (2 / 5), [], false, 1, 2⟩ =
      ⟨"Hi".toList, (5404319552844595 / 18014398509481984), (1272266894732165 / 1125899906842624), [], false, 1, 2⟩ := by
  obtain ⟨hMin, hMax, hG, hCPS⟩ := defaultMerger64_fields
  have hS : float64 (3 / 10) = (5404319552844595 / 18014398509481984) :=
    float64_eq_of _ _ (-54) 5404319552844595 (by norm_num) (by norm_num) (by norm_num)
      (by rw [abs_lt]; constructor <;> norm_num) (by norm_num)
  have hE : float64 (2 / 5) = (3602879701896397 / 9007199254740992) :=
    float64_eq_of _ _ (-54) 7205759403792794 (by norm_num) (by norm_num) (by norm_num)
      (by rw [abs_lt]; constructor <;> norm_num) (by norm_num)
  have hs : stripWhitespaceCount "Hi".toList = 2 := by decide
  have hl : float64 (getDynamicCPSLimit defaultMerger64 "Hi".toList) = 45 := by
    rw [getDynamicCPSLimit64, hs]
    norm_num
  rw [hS, hE]
  have hc : clampDuration defaultMerger64
      ⟨"Hi".toList, (5404319552844595 / 18014398509481984), (3602879701896397 / 9007199254740992), [], false, 1, 2⟩ =
      (⟨"Hi".toList, (5404319552844595 / 18014398509481984), (1272266894732165 / 1125899906842624), [], false, 1, 2⟩,
        defaultMerger64.MinSubtitleDuration) :=
    clampDuration_eq_min _ _ (1801439850948199 / 18014398509481984) _
      (float64_eq_of _ _ (-56) 7205759403792796 (by norm_num) (by norm_num) (by norm_num)
        (by rw [abs_lt]; constructor <;> norm_num) (by norm_num))
      (by rw [hMax]; norm_num) (by rw [hMin]; norm_num)
      (by
        rw [hMin]
        exact float64_eq_of _ _ (-52) 5089067578928660 (by norm_num) (by norm_num) (by norm_num)
            (by rw [abs_lt]; constructor <;> norm_num) (by norm_num))
  exact optimizeSingle_eq_keep _ _ _ _ 2 (5426023647434333 / 2251799813685248) 45 hc hs (by rw [hMin]; norm_num)
    (by
      rw [hMin]
      exact float64_eq_of _ _ (-51) 5426023647434333 (by norm_num) (by norm_num) (by norm_num)
          (by rw [abs_lt]; constructor <;> norm_num) (by norm_num))
    hl (by norm_num)

/-- C11, counterexample: the default merger has
`MinSubtitleDuration ≤ MaxSubtitleDuration` and `MaxCPS > 0`, and the entry
"Hi" shown from 0.3 to 0.4 comes out of `optimizeSingle` with the `End`
`float64 (0.3 + 0.83)`, which is 1.13: its duration, `End - Start`, is below
`MinSubtitleDuration` (by `2 ^ -54`; in `float64` the difference is
0.8299999999999998). -/
theorem optimizeSingle_below_minimum_duration :
    defaultMerger64.MinSubtitleDuration ≤ defaultMerger64.MaxSubtitleDuration ∧
    0 < defaultMerger64.MaxCPS ∧
    (optimizeSingle defaultMerger64
        ⟨"Hi".toList, float64 (3 / 10), float64 (2 / 5), [], false, 1, 2⟩).End =
      float64 (113 / 100) ∧
    ¬ (defaultMerger64.MinSubtitleDuration ≤
      (optimizeSingle defaultMerger64
          ⟨"Hi".toList, float64 (3 / 10), float64 (2 / 5), [], false, 1, 2⟩).End -
        (optimizeSingle defaultMerger64
          ⟨"Hi".toList, float64 (3 / 10), float64 (2 / 5), [], false, 1, 2⟩).Start) := by
  have h113 : float64 (113 / 100) = (1272266894732165 / 1125899906842624) :=
    float64_eq_of _ _ (-52) 5089067578928660 (by norm_num) (by norm_num) (by norm_num)
      (by rw [abs_lt]; constructor <;> norm_num) (by norm_num)
  refine ⟨defaultMerger64_min_le_max, defaultMerger64_cps_pos, ?_, ?_⟩
  · rw [optimizeSingle_Hi_example, h113]
  · rw [optimizeSingle_Hi_example, defaultMerger64_fields.1]
    norm_num

theorem ensureGap_Hi_there_example :
    ensureGap defaultMerger64
        (optimizeSingle defaultMerger64 ⟨"Hi".toList, 0, (1 / 2), [], false, 1, 2⟩)
        ⟨"there".toList, float64 (3 / 5), 2, [], false, 1, 5⟩ =
      ⟨"Hi".toList, 0, (7475975381435023 / 9007199254740992), [], false, 1, 2⟩ := by
  obtain ⟨hMin, hMax, hG, hCPS⟩ := defaultMerger64_fields
  have hN : float64 (3 / 5) = (5404319552844595 / 9007199254740992) :=
    float64_eq_of _ _ (-53) 5404319552844595 (by norm_num) (by norm_num) (by norm_num)
      (by rw [abs_lt]; constructor <;> norm_num) (by norm_num)
  have hs : stripWhitespaceCount "Hi".toList = 2 := by decide
  have hl : float64 (getDynamicCPSLimit defaultMerger64 "Hi".toList) = 45 := by
    rw [getDynamicCPSLimit64, hs]
    norm_num
  have hm0 : float64 ((0 : ℚ) + (7475975381435023 / 9007199254740992)) = (7475975381435023 / 9007199254740992) :=
    float64_eq_of _ _ (-53) 7475975381435023 (by norm_num) (by norm_num) (by norm_num)
      (by rw [abs_lt]; constructor <;> norm_num) (by norm_num)
  rw [hN]
  have hc : clampDuration defaultMerger64 ⟨"Hi".toList, 0, (1 / 2), [], false, 1, 2⟩ =
      (⟨"Hi".toList, 0, (7475975381435023 / 9007199254740992), [], false, 1, 2⟩,
        defaultMerger64.MinSubtitleDuration) :=
    clampDuration_eq_min _ _ (1 / 2) _
      (float64_eq_of _ _ (-53) 4503599627370496 (by norm_num) (by norm_num) (by norm_num)
        (by rw [abs_lt]; constructor <;> norm_num) (by norm_num))
      (by rw [hMax]; norm_num) (by rw [hMin]; norm_num)
      (by rw [hMin]; exact hm0)
  have ho : optimizeSingle defaultMerger64 ⟨"Hi".toList, 0, (1 / 2), [], false, 1, 2⟩ =
      ⟨"Hi".toList, 0, (7475975381435023 / 9007199254740992), [], false, 1, 2⟩ :=
    optimizeSingle_eq_keep _ _ _ _ 2 (5426023647434333 / 2251799813685248) 45 hc hs (by rw [hMin]; norm_num)
      (by
        rw [hMin]
        exact float64_eq_of _ _ (-51) 5426023647434333 (by norm_num) (by norm_num) (by norm_num)
            (by rw [abs_lt]; constructor <;> norm_num) (by norm_num))
      hl (by norm_num)
  rw [ho]
  exact ensureGap_eq_min _ _ _ (4656722014701093 / 9007199254740992) (7475975381435023 / 9007199254740992)
    (by
      have h0 : float64 ((5404319552844595 / 9007199254740992) - (7475975381435023 / 9007199254740992)) ≤ float64 0 := float64_mono (by norm_num)
      rw [float64_zero] at h0
      rw [hG]
      exact lt_of_le_of_lt h0 (by norm_num))
    (by
      rw [hG]
      exact float64_eq_of _ _ (-53) 4656722014701093 (by norm_num) (by norm_num) (by norm_num)
          (by rw [abs_lt]; constructor <;> norm_num) (by norm_num))
    (by rw [hMin]; exact hm0) (by norm_num)

theorem ensureGap_First_Second_example :
    ensureGap defaultMerger64
        (optimizeSingle defaultMerger64 ⟨"First".toList, 0, 1, [], false, 0, 0⟩)
        ⟨"Second".toList, float64 (101 / 100), 2, [], false, 0, 0⟩ =
      ⟨"First".toList, 0, (2087418427286225 / 2251799813685248), [], false, 0, 0⟩ := by
  obtain ⟨hMin, hMax, hG, hCPS⟩ := defaultMerger64_fields
  have hN : float64 (101 / 100) = (4548635623644201 / 4503599627370496) :=
    float64_eq_of _ _ (-52) 4548635623644201 (by norm_num) (by norm_num) (by norm_num)
      (by rw [abs_lt]; constructor <;> norm_num) (by norm_num)
  have hs : stripWhitespaceCount "First".toList = 5 := by decide
  have hl : float64 (getDynamicCPSLimit defaultMerger64 "First".toList) = 30 := by
    rw [getDynamicCPSLimit64, hs]
    norm_num
  have hm0 : float64 ((0 : ℚ) + (7475975381435023 / 9007199254740992)) = (7475975381435023 / 9007199254740992) :=
    float64_eq_of _ _ (-53) 7475975381435023 (by norm_num) (by norm_num) (by norm_num)
      (by rw [abs_lt]; constructor <;> norm_num) (by norm_num)
  rw [hN]
  have hc : clampDuration defaultMerger64 ⟨"First".toList, 0, 1, [], false, 0, 0⟩ =
      (⟨"First".toList, 0, 1, [], false, 0, 0⟩, 1) :=
    clampDuration_eq_keep _ _ 1
      (float64_eq_of _ _ (-52) 4503599627370496 (by norm_num) (by norm_num) (by norm_num)
        (by rw [abs_lt]; constructor <;> norm_num) (by norm_num))
      (by rw [hMax]; norm_num) (by rw [hMin]; norm_num)
  have ho : optimizeSingle defaultMerger64 ⟨"First".toList, 0, 1, [], false, 0, 0⟩ =
      ⟨"First".toList, 0, 1, [], false, 0, 0⟩ :=
    optimizeSingle_eq_keep _ _ _ _ 5 5 30 hc hs (by norm_num)
      (float64_eq_of _ _ (-50) 5629499534213120 (by norm_num) (by norm_num) (by norm_num)
        (by rw [abs_lt]; constructor <;> norm_num) (by norm_num))
      hl (by norm_num)
  rw [ho]
  exact ensureGap_eq_cut _ _ _ (2087418427286225 / 2251799813685248) (7475975381435023 / 9007199254740992)
    (by
      have h0 : float64 ((4548635623644201 / 4503599627370496) - 1) = (45035996273705 / 4503599627370496) :=
        float64_eq_of _ _ (-59) 5764607523034240 (by norm_num) (by norm_num) (by norm_num)
          (by rw [abs_lt]; constructor <;> norm_num) (by norm_num)
      rw [hG]
      show float64 ((4548635623644201 / 4503599627370496) - 1) < _
      rw [h0]
      norm_num)
    (by
      rw [hG]
      exact float64_eq_of _ _ (-53) 8349673709144900 (by norm_num) (by norm_num) (by norm_num)
          (by rw [abs_lt]; constructor <;> norm_num) (by norm_num))
    (by rw [hMin]; exact hm0) (by norm_num)

/-- C12, counterexample: with the default merger the entries "Hi" (0 to 0.5)
and "there" (0.6 to 2) come out as (0 to 0.83) and (0.6 to 2): the first is
held at the minimum duration and ends after the second starts.  And the
entries "First" (0 to 1) and "Second" (1.01 to 2) of
`TestOptimizeMergedEntries_EnforcesMinGap` come out with the first ending at
`float64 (1.01 - 0.083)`, which is 0.927: the gap, 1.01 - 0.927 on the
`float64` values, is below `MinSubtitleGap` (in `float64` it is
0.08299999999999996), though the first entry is not held at the minimum
duration. -/
theorem OptimizeMergedEntries_gap_below_minimum :
    ¬ List.Chain' (fun a b => b.Start - a.End ≥ defaultMerger64.MinSubtitleGap)
      (OptimizeMergedEntries defaultMerger64
        [⟨"Hi".toList, 0, (1 / 2), [], false, 1, 2⟩,
         ⟨"there".toList, float64 (3 / 5), 2, [], false, 1, 5⟩]) ∧
    ¬ List.Chain'
      (fun a b => b.Start - a.End ≥ defaultMerger64.MinSubtitleGap ∨
        a.End = float64 (a.Start + defaultMerger64.MinSubtitleDuration))
      (OptimizeMergedEntries defaultMerger64
        [⟨"First".toList, 0, 1, [], false, 0, 0⟩,
         ⟨"Second".toList, float64 (101 / 100), 2, [], false, 0, 0⟩]) := by
  obtain ⟨hMin, hMax, hG, hCPS⟩ := defaultMerger64_fields
  have hNB : float64 (3 / 5) = (5404319552844595 / 9007199254740992) :=
    float64_eq_of _ _ (-53) 5404319552844595 (by norm_num) (by norm_num) (by norm_num)
      (by rw [abs_lt]; constructor <;> norm_num) (by norm_num)
  have hNC : float64 (101 / 100) = (4548635623644201 / 4503599627370496) :=
    float64_eq_of _ _ (-52) 4548635623644201 (by norm_num) (by norm_num) (by norm_num)
      (by rw [abs_lt]; constructor <;> norm_num) (by norm_num)
  have hm0 : float64 ((0 : ℚ) + (7475975381435023 / 9007199254740992)) = (7475975381435023 / 9007199254740992) :=
    float64_eq_of _ _ (-53) 7475975381435023 (by norm_num) (by norm_num) (by norm_num)
      (by rw [abs_lt]; constructor <;> norm_num) (by norm_num)
  constructor
  · rw [OptimizeMergedEntries_pair, ensureGap_Hi_there_example]
    simp only [List.chain'_cons, List.chain'_singleton, and_true,
      (optimizeSingle_frame defaultMerger64 _).1, hG, hNB]
    norm_num
  · rw [OptimizeMergedEntries_pair, ensureGap_First_Second_example]
    simp only [List.chain'_cons, List.chain'_singleton, and_true,
      (optimizeSingle_frame defaultMerger64 _).1, hG, hNC, hMin, hm0]
    norm_num

theorem stripWhitespaceCount_fox :
    stripWhitespaceCount "The quick brown fox jumps over the lazy dog".toList = 35 := by
  decide

theorem getDynamicCPSLimit64_fox :
    float64 (getDynamicCPSLimit defaultMerger64
      "The quick brown fox jumps over the lazy dog".toList) = 15 := by
  rw [getDynamicCPSLimit64, stripWhitespaceCount_fox]
  norm_num

theorem float64_35_15 : float64 (((35 : ℕ) : ℚ) / 15) = (5254199565265579 / 2251799813685248) :=
  float64_eq_of _ _ (-51) 5254199565265579 (by norm_num) (by norm_num) (by norm_num)
  (by rw [abs_lt]; constructor <;> norm_num) (by norm_num)

theorem ensureGap_fox_example :
    ensureGap defaultMerger64
        (optimizeSingle defaultMerger64
          ⟨"The quick brown fox jumps over the lazy dog".toList, 0, float64 (12 / 5), [], false, 9, 35⟩)
        ⟨"Hi".toList, float64 (12 / 5), 4, [], false, 1, 2⟩ =
      ⟨"The quick brown fox jumps over the lazy dog".toList, 0, (5217420168308719 / 2251799813685248), [], false, 9, 35⟩ := by
  obtain ⟨hMin, hMax, hG, hCPS⟩ := defaultMerger64_fields
  have hN : float64 (12 / 5) = (5404319552844595 / 2251799813685248) :=
    float64_eq_of _ _ (-51) 5404319552844595 (by norm_num) (by norm_num) (by norm_num)
      (by rw [abs_lt]; constructor <;> norm_num) (by norm_num)
  have hm0 : float64 ((0 : ℚ) + (7475975381435023 / 9007199254740992)) = (7475975381435023 / 9007199254740992) :=
    float64_eq_of _ _ (-53) 7475975381435023 (by norm_num) (by norm_num) (by norm_num)
      (by rw [abs_lt]; constructor <;> norm_num) (by norm_num)
  rw [hN]
  have hc : clampDuration defaultMerger64
      ⟨"The quick brown fox jumps over the lazy dog".toList, 0, (5404319552844595 / 2251799813685248), [], false, 9, 35⟩ =
      (⟨"The quick brown fox jumps over the lazy dog".toList, 0, (5404319552844595 / 2251799813685248), [], false, 9, 35⟩,
        (5404319552844595 / 2251799813685248)) :=
    clampDuration_eq_keep _ _ _
      (float64_eq_of _ _ (-51) 5404319552844595 (by norm_num) (by norm_num) (by norm_num)
        (by rw [abs_lt]; constructor <;> norm_num) (by norm_num))
      (by rw [hMax]; norm_num) (by rw [hMin]; norm_num)
  have ho : optimizeSingle defaultMerger64
      ⟨"The quick brown fox jumps over the lazy dog".toList, 0, (5404319552844595 / 2251799813685248), [], false, 9, 35⟩ =
      ⟨"The quick brown fox jumps over the lazy dog".toList, 0, (5404319552844595 / 2251799813685248), [], false, 9, 35⟩ :=
    optimizeSingle_eq_keep _ _ _ _ 35 (8209686820727467 / 562949953421312) 15 hc stripWhitespaceCount_fox (by norm_num)
      (float64_eq_of _ _ (-49) 8209686820727467 (by norm_num) (by norm_num) (by norm_num)
        (by rw [abs_lt]; constructor <;> norm_num) (by norm_num))
      getDynamicCPSLimit64_fox (by norm_num)
  rw [ho]
  exact ensureGap_eq_cut _ _ _ (5217420168308719 / 2251799813685248) (7475975381435023 / 9007199254740992)
    (by
      show float64 ((5404319552844595 / 2251799813685248) - (5404319552844595 / 2251799813685248)) < _
      rw [sub_self, float64_zero, hG]
      norm_num)
    (by
      rw [hG]
      exact float64_eq_of _ _ (-51) 5217420168308719 (by norm_num) (by norm_num) (by norm_num)
          (by rw [abs_lt]; constructor <;> norm_num) (by norm_num))
    (by rw [hMin]; exact hm0) (by norm_num)

theorem optimizeSingle_fox_example :
    optimizeSingle defaultMerger64
        ⟨"The quick brown fox jumps over the lazy dog".toList, float64 (33 / 10), float64 (43 / 10), [], false, 9, 35⟩ =
      ⟨"The quick brown fox jumps over the lazy dog".toList, (3715469692580659 / 1125899906842624), (792821184401681 / 140737488355328), [], false, 9, 35⟩ := by
  obtain ⟨hMin, hMax, hG, hCPS⟩ := defaultMerger64_fields
  have hS : float64 (33 / 10) = (3715469692580659 / 1125899906842624) :=
    float64_eq_of _ _ (-51) 7430939385161318 (by norm_num) (by norm_num) (by norm_num)
      (by rw [abs_lt]; constructor <;> norm_num) (by norm_num)
  have hE : float64 (43 / 10) = (4841369599423283 / 1125899906842624) :=
    float64_eq_of _ _ (-50) 4841369599423283 (by norm_num) (by norm_num) (by norm_num)
      (by rw [abs_lt]; constructor <;> norm_num) (by norm_num)
  rw [hS, hE]
  have hc : clampDuration defaultMerger64
      ⟨"The quick brown fox jumps over the lazy dog".toList, (3715469692580659 / 1125899906842624), (4841369599423283 / 1125899906842624), [], false, 9, 35⟩ =
      (⟨"The quick brown fox jumps over the lazy dog".toList, (3715469692580659 / 1125899906842624), (4841369599423283 / 1125899906842624), [], false, 9, 35⟩,
        1) :=
    clampDuration_eq_keep _ _ _
      (float64_eq_of _ _ (-52) 4503599627370496 (by norm_num) (by norm_num) (by norm_num)
        (by rw [abs_lt]; constructor <;> norm_num) (by norm_num))
      (by rw [hMax]; norm_num) (by rw [hMin]; norm_num)
  exact optimizeSingle_eq_step _ _ _ _ 35 35 15 (5254199565265579 / 2251799813685248) _ hc
    stripWhitespaceCount_fox (by norm_num)
    (float64_eq_of _ _ (-47) 4925812092436480 (by norm_num) (by norm_num) (by norm_num)
      (by rw [abs_lt]; constructor <;> norm_num) (by norm_num))
    getDynamicCPSLimit64_fox (by norm_num) (by norm_num) float64_35_15
    (by
      rw [hMax, min_eq_left (show ((5254199565265579 / 2251799813685248) : ℚ) ≤ 12 by norm_num)]
      exact float64_eq_of_even _ _ (-50) 6342569475213448 (by norm_num) (by norm_num) (by norm_num)
          (by rw [abs_le]; constructor <;> norm_num) (by norm_num) (by norm_num))

/-- C13, counterexample: with the default merger the entry "The quick brown fox
jumps over the lazy dog" (0 to 2.4, 35 characters, 14.6 per second) followed
by an entry that starts at 2.4 is cut back to end at `float64 (2.4 - 0.083)`,
the minimum gap before its neighbour, and then runs at 15.1 characters per
second, above its limit of 15.  And the same text shown alone from 3.3 to 4.3,
whose limit asks for `float64 (35 / 15)` seconds, less than the 12 the merger
allows, gets the `End` `float64 (3.3 + float64 (35 / 15))`, which is
5.633333333333333, and runs at 35 / (End - Start) characters per second, above
15 (in `float64` the quotient is 15.000000000000002). -/
theorem OptimizeMergedEntries_reading_speed_exceeded :
    (¬ ∀ e ∈ OptimizeMergedEntries defaultMerger64
        [⟨"The quick brown fox jumps over the lazy dog".toList, 0, float64 (12 / 5), [], false, 9, 35⟩,
         ⟨"Hi".toList, float64 (12 / 5), 4, [], false, 1, 2⟩],
      (stripWhitespaceCount e.Text : ℚ) / (e.End - e.Start) ≤
        float64 (getDynamicCPSLimit defaultMerger64 e.Text)) ∧
    float64 ((stripWhitespaceCount "The quick brown fox jumps over the lazy dog".toList : ℚ) /
        float64 (getDynamicCPSLimit defaultMerger64
          "The quick brown fox jumps over the lazy dog".toList)) ≤
      defaultMerger64.MaxSubtitleDuration ∧
    (¬ ∀ e ∈ OptimizeMergedEntries defaultMerger64
        [⟨"The quick brown fox jumps over the lazy dog".toList, float64 (33 / 10), float64 (43 / 10), [], false, 9, 35⟩],
      (stripWhitespaceCount e.Text : ℚ) / (e.End - e.Start) ≤
        float64 (getDynamicCPSLimit defaultMerger64 e.Text)) := by
  obtain ⟨hMin, hMax, hG, hCPS⟩ := defaultMerger64_fields
  refine ⟨?_, ?_, ?_⟩
  · intro h
    have hx := h _ (by
      rw [OptimizeMergedEntries_pair]
      exact List.mem_cons_self _ _)
    rw [ensureGap_fox_example] at hx
    simp only [getDynamicCPSLimit64_fox, stripWhitespaceCount_fox] at hx
    norm_num at hx
  · rw [getDynamicCPSLimit64_fox, stripWhitespaceCount_fox, float64_35_15, hMax]
    norm_num
  · intro h
    have hx := h _ (by
      rw [OptimizeMergedEntries_eq]
      simp only [optimizeLoop]
      exact List.mem_cons_self _ _)
    rw [optimizeSingle_fox_example] at hx
    simp only [getDynamicCPSLimit64_fox, stripWhitespaceCount_fox] at hx
    norm_num at hx

theorem clampDuration_fox_one :
    clampDuration defaultMerger64
        ⟨"The quick brown fox jumps over the lazy dog".toList, 0, 1, [], false, 9, 35⟩ =
      (⟨"The quick brown fox jumps over the lazy dog".toList, 0, 1, [], false, 9, 35⟩, 1) := by
  obtain ⟨hMin, hMax, hG, hCPS⟩ := defaultMerger64_fields
  exact clampDuration_eq_keep _ _ 1
    (float64_eq_of _ _ (-52) 4503599627370496 (by norm_num) (by norm_num) (by norm_num)
      (by rw [abs_lt]; constructor <;> norm_num) (by norm_num))
    (by rw [hMax]; norm_num) (by rw [hMin]; norm_num)

theorem cpsStep_fires_fox_one :
    (calculateCPS defaultMerger64 "The quick brown fox jumps over the lazy dog".toList
        (clampDuration defaultMerger64
          ⟨"The quick brown fox jumps over the lazy dog".toList, 0, 1, [], false, 9, 35⟩).2).map
        float64 >
      ((float64 (getDynamicCPSLimit defaultMerger64
        "The quick brown fox jumps over the lazy dog".toList) : ℚ) : WithTop ℚ) :=
  cpsStep_fires _
    ⟨"The quick brown fox jumps over the lazy dog".toList, 0, 1, [], false, 9, 35⟩ _ _ 35 35 15
    clampDuration_fox_one stripWhitespaceCount_fox (by norm_num)
    (float64_eq_of _ _ (-47) 4925812092436480 (by norm_num) (by norm_num) (by norm_num)
      (by rw [abs_lt]; constructor <;> norm_num) (by norm_num))
    getDynamicCPSLimit64_fox (by norm_num)

theorem optimizeSingle_fox_one :
    optimizeSingle defaultMerger64
        ⟨"The quick brown fox jumps over the lazy dog".toList, 0, 1, [], false, 9, 35⟩ =
      ⟨"The quick brown fox jumps over the lazy dog".toList, 0, (5254199565265579 / 2251799813685248), [], false, 9, 35⟩ := by
  obtain ⟨hMin, hMax, hG, hCPS⟩ := defaultMerger64_fields
  exact optimizeSingle_eq_step _ _ _ _ 35 35 15 (5254199565265579 / 2251799813685248) _ clampDuration_fox_one
    stripWhitespaceCount_fox (by norm_num)
    (float64_eq_of _ _ (-47) 4925812092436480 (by norm_num) (by norm_num) (by norm_num)
      (by rw [abs_lt]; constructor <;> norm_num) (by norm_num))
    getDynamicCPSLimit64_fox (by norm_num) (by norm_num) float64_35_15
    (by
      rw [hMax, min_eq_left (show ((5254199565265579 / 2251799813685248) : ℚ) ≤ 12 by norm_num)]
      exact float64_eq_of _ _ (-51) 5254199565265579 (by norm_num) (by norm_num) (by norm_num)
          (by rw [abs_lt]; constructor <;> norm_num) (by norm_num))

theorem stripWhitespaceCount_jumps :
    stripWhitespaceCount "The quick brown fox jumps".toList = 21 := by
  decide

theorem getDynamicCPSLimit64_jumps :
    float64 (getDynamicCPSLimit defaultMerger64 "The quick brown fox jumps".toList) = 15 := by
  rw [getDynamicCPSLimit64, stripWhitespaceCount_jumps]
  norm_num

theorem clampDuration_jumps :
    clampDuration defaultMerger64
        ⟨"The quick brown fox jumps".toList, (1062849512059437 / 9007199254740992), (6836464234348413 / 4503599627370496), [], false, 5, 21⟩ =
      (⟨"The quick brown fox jumps".toList, (1062849512059437 / 9007199254740992), (6836464234348413 / 4503599627370496), [], false, 5, 21⟩,
        (3152519739159347 / 2251799813685248)) := by
  obtain ⟨hMin, hMax, hG, hCPS⟩ := defaultMerger64_fields
  exact clampDuration_eq_keep _ _ _
    (float64_eq_of_even _ _ (-52) 6305039478318694 (by norm_num) (by norm_num) (by norm_num)
      (by rw [abs_le]; constructor <;> norm_num) (by norm_num) (by norm_num))
    (by rw [hMax]; norm_num) (by rw [hMin]; norm_num)

theorem optimizeSingle_jumps :
    optimizeSingle defaultMerger64
        ⟨"The quick brown fox jumps".toList, (1062849512059437 / 9007199254740992), (6836464234348413 / 4503599627370496), [], false, 5, 21⟩ =
      ⟨"The quick brown fox jumps".toList, (1062849512059437 / 9007199254740992), (1709116058587103 / 1125899906842624), [], false, 5, 21⟩ := by
  obtain ⟨hMin, hMax, hG, hCPS⟩ := defaultMerger64_fields
  exact optimizeSingle_eq_step _ _ _ _ 21 (8444249301319681 / 562949953421312) 15 (3152519739159347 / 2251799813685248) _ clampDuration_jumps
    stripWhitespaceCount_jumps (by norm_num)
    (float64_eq_of _ _ (-49) 8444249301319681 (by norm_num) (by norm_num) (by norm_num)
      (by rw [abs_lt]; constructor <;> norm_num) (by norm_num))
    getDynamicCPSLimit64_jumps (by norm_num) (by norm_num)
    (float64_eq_of _ _ (-52) 6305039478318694 (by norm_num) (by norm_num) (by norm_num)
      (by rw [abs_lt]; constructor <;> norm_num) (by norm_num))
    (by
      rw [hMax, min_eq_left (show ((3152519739159347 / 2251799813685248) : ℚ) ≤ 12 by norm_num)]
      exact float64_eq_of_even _ _ (-52) 6836464234348412 (by norm_num) (by norm_num) (by norm_num)
          (by rw [abs_le]; constructor <;> norm_num) (by norm_num) (by norm_num))

/-- C14, counterexample: with the default merger the entry "The quick brown fox
jumps over the lazy dog" shown from 0 to 1 runs at 35 characters per second,
above its limit of 15, and `optimizeSingle` moves its `End` from 1 to
`float64 (35 / 15)`, later than the clamped `End`.  And the entry "The quick
brown fox jumps" (21 characters) shown from 0.118 to 1.518 has the `float64`
duration 1.4 and the `float64` reading speed 15.000000000000002, above its
limit of 15; the step returns the `End` `float64 (0.118 + 1.4)`, which is
1.5179999999999998, earlier than the clamped `End` 1.518 by one unit in the
last place. -/
theorem optimizeSingle_cps_step_lengthens :
    ¬ ((calculateCPS defaultMerger64 "The quick brown fox jumps over the lazy dog".toList
          (clampDuration defaultMerger64
            ⟨"The quick brown fox jumps over the lazy dog".toList, 0, 1, [], false, 9, 35⟩).2).map
          float64 >
        ((float64 (getDynamicCPSLimit defaultMerger64
          "The quick brown fox jumps over the lazy dog".toList) : ℚ) : WithTop ℚ) →
      (optimizeSingle defaultMerger64
          ⟨"The quick brown fox jumps over the lazy dog".toList, 0, 1, [], false, 9, 35⟩).End ≤
        (clampDuration defaultMerger64
          ⟨"The quick brown fox jumps over the lazy dog".toList, 0, 1, [], false, 9, 35⟩).1.End) ∧
    ((calculateCPS defaultMerger64 "The quick brown fox jumps".toList
          (clampDuration defaultMerger64
            ⟨"The quick brown fox jumps".toList, float64 (118 / 1000), float64 (1518 / 1000),
              [], false, 5, 21⟩).2).map
          float64 >
        ((float64 (getDynamicCPSLimit defaultMerger64
          "The quick brown fox jumps".toList) : ℚ) : WithTop ℚ) ∧
      (optimizeSingle defaultMerger64
          ⟨"The quick brown fox jumps".toList, float64 (118 / 1000), float64 (1518 / 1000),
            [], false, 5, 21⟩).End <
        (clampDuration defaultMerger64
          ⟨"The quick brown fox jumps".toList, float64 (118 / 1000), float64 (1518 / 1000),
            [], false, 5, 21⟩).1.End) := by
  have hS : float64 (118 / 1000) = (1062849512059437 / 9007199254740992) :=
    float64_eq_of _ _ (-56) 8502796096475496 (by norm_num) (by norm_num) (by norm_num)
      (by rw [abs_lt]; constructor <;> norm_num) (by norm_num)
  have hE : float64 (1518 / 1000) = (6836464234348413 / 4503599627370496) :=
    float64_eq_of _ _ (-52) 6836464234348413 (by norm_num) (by norm_num) (by norm_num)
      (by rw [abs_lt]; constructor <;> norm_num) (by norm_num)
  constructor
  · intro h
    have hle := h cpsStep_fires_fox_one
    rw [optimizeSingle_fox_one, clampDuration_fox_one] at hle
    norm_num at hle
  · rw [hS, hE]
    refine ⟨?_, ?_⟩
    · exact cpsStep_fires _ _ _ _ 21 (8444249301319681 / 562949953421312) 15 clampDuration_jumps
        stripWhitespaceCount_jumps (by norm_num)
        (float64_eq_of _ _ (-49) 8444249301319681 (by norm_num) (by norm_num) (by norm_num)
          (by rw [abs_lt]; constructor <;> norm_num) (by norm_num))
        getDynamicCPSLimit64_jumps (by norm_num)
    · rw [optimizeSingle_jumps, clampDuration_jumps]
      norm_num

/-- C11 at the default merger and the entry "Hi" shown from 0.3 to 0.4. -/
theorem optimize_duration_bounds_witness :
    defaultMerger64.MinSubtitleDuration -
        roundingError (|(optimizeSingle defaultMerger64
            ⟨"Hi".toList, float64 (3 / 10), float64 (2 / 5), [], false, 1, 2⟩).Start| +
          max |defaultMerger64.MinSubtitleDuration| |defaultMerger64.MaxSubtitleDuration|) ≤
      (optimizeSingle defaultMerger64
          ⟨"Hi".toList, float64 (3 / 10), float64 (2 / 5), [], false, 1, 2⟩).End -
        (optimizeSingle defaultMerger64
          ⟨"Hi".toList, float64 (3 / 10), float64 (2 / 5), [], false, 1, 2⟩).Start ∧
    (optimizeSingle defaultMerger64
          ⟨"Hi".toList, float64 (3 / 10), float64 (2 / 5), [], false, 1, 2⟩).End -
        (optimizeSingle defaultMerger64
          ⟨"Hi".toList, float64 (3 / 10), float64 (2 / 5), [], false, 1, 2⟩).Start ≤
      defaultMerger64.MaxSubtitleDuration +
        roundingError (|(optimizeSingle defaultMerger64
            ⟨"Hi".toList, float64 (3 / 10), float64 (2 / 5), [], false, 1, 2⟩).Start| +
          max |defaultMerger64.MinSubtitleDuration| |defaultMerger64.MaxSubtitleDuration|) :=
  (optimize_duration_bounds defaultMerger64 defaultMerger64_min_le_max defaultMerger64_cps_pos
    defaultMerger64_isFloat64).1
    ⟨"Hi".toList, float64 (3 / 10), float64 (2 / 5), [], false, 1, 2⟩

/-- C12 at the default merger and the entries of
`TestOptimizeMergedEntries_EnforcesMinGap`. -/
theorem OptimizeMergedEntries_gaps_witness :
    List.Chain'
      (fun a b =>
        defaultMerger64.MinSubtitleGap -
            roundingError (|b.Start| + |defaultMerger64.MinSubtitleGap|) ≤ b.Start - a.End ∨
        (a.End = float64 (a.Start + defaultMerger64.MinSubtitleDuration) ∧
          float64 (b.Start - defaultMerger64.MinSubtitleGap) <
            float64 (a.Start + defaultMerger64.MinSubtitleDuration)))
      (OptimizeMergedEntries defaultMerger64
        [⟨"First".toList, 0, 1, [], false, 0, 0⟩,
         ⟨"Second".toList, float64 (101 / 100), 2, [], false, 0, 0⟩]) :=
  OptimizeMergedEntries_gaps defaultMerger64 defaultMerger64_isFloat64.2.2.1
    [⟨"First".toList, 0, 1, [], false, 0, 0⟩,
     ⟨"Second".toList, float64 (101 / 100), 2, [], false, 0, 0⟩]

/-- C13 at the default merger and the entry "The quick brown fox jumps over the
lazy dog" shown from 3.3 to 4.3: it needs `float64 (35 / 15)` seconds, less
than the 12 the merger allows. -/
theorem optimize_reading_speed_witness :
    (stripWhitespaceCount (optimizeSingle defaultMerger64
        ⟨"The quick brown fox jumps over the lazy dog".toList, float64 (33 / 10), float64 (43 / 10), [], false, 9, 35⟩).Text : ℚ) ≤
      (float64 (getDynamicCPSLimit defaultMerger64 (optimizeSingle defaultMerger64
          ⟨"The quick brown fox jumps over the lazy dog".toList, float64 (33 / 10), float64 (43 / 10), [], false, 9, 35⟩).Text) +
        2 * roundingError (float64 (getDynamicCPSLimit defaultMerger64
          (optimizeSingle defaultMerger64
            ⟨"The quick brown fox jumps over the lazy dog".toList, float64 (33 / 10), float64 (43 / 10), [], false, 9, 35⟩).Text))) *
      ((optimizeSingle defaultMerger64
          ⟨"The quick brown fox jumps over the lazy dog".toList, float64 (33 / 10), float64 (43 / 10), [], false, 9, 35⟩).End -
        (optimizeSingle defaultMerger64
          ⟨"The quick brown fox jumps over the lazy dog".toList, float64 (33 / 10), float64 (43 / 10), [], false, 9, 35⟩).Start +
        2 * roundingError (|(optimizeSingle defaultMerger64
            ⟨"The quick brown fox jumps over the lazy dog".toList, float64 (33 / 10), float64 (43 / 10), [], false, 9, 35⟩).Start| +
          max |defaultMerger64.MinSubtitleDuration| |defaultMerger64.MaxSubtitleDuration|)) :=
  (optimize_reading_speed defaultMerger64 defaultMerger64_cps_pos defaultMerger64_isFloat64).1
    ⟨"The quick brown fox jumps over the lazy dog".toList, float64 (33 / 10), float64 (43 / 10), [], false, 9, 35⟩
    (by
      show float64 ((stripWhitespaceCount
          "The quick brown fox jumps over the lazy dog".toList : ℚ) /
        float64 (getDynamicCPSLimit defaultMerger64
          "The quick brown fox jumps over the lazy dog".toList)) ≤ _
      rw [getDynamicCPSLimit64_fox, stripWhitespaceCount_fox, float64_35_15,
        defaultMerger64_fields.2.1]
      norm_num)

/-- C14 at the default merger and the entry "The quick brown fox jumps over the
lazy dog" shown for one second. -/
theorem optimizeSingle_cps_step_witness :
    (optimizeSingle defaultMerger64
        ⟨"The quick brown fox jumps over the lazy dog".toList, 0, 1, [], false, 9, 35⟩).End =
      float64 ((0 : ℚ) +
        min (float64 ((stripWhitespaceCount
            "The quick brown fox jumps over the lazy dog".toList : ℚ) /
          float64 (getDynamicCPSLimit defaultMerger64
            "The quick brown fox jumps over the lazy dog".toList)))
          defaultMerger64.MaxSubtitleDuration) ∧
    (clampDuration defaultMerger64
        ⟨"The quick brown fox jumps over the lazy dog".toList, 0, 1, [], false, 9, 35⟩).1.End -
        3 * roundingError (|(0 : ℚ)| + |(1 : ℚ)|) ≤
      (optimizeSingle defaultMerger64
        ⟨"The quick brown fox jumps over the lazy dog".toList, 0, 1, [], false, 9, 35⟩).End :=
  optimizeSingle_cps_step defaultMerger64 defaultMerger64_min_le_max defaultMerger64_cps_pos
    defaultMerger64_isFloat64
    ⟨"The quick brown fox jumps over the lazy dog".toList, 0, 1, [], false, 9, 35⟩
    cpsStep_fires_fox_one

/-! ## findSplitPosition -/

theorem getD_RuneError_no_break (runes : List Char) (j : Nat)
    (h : ∀ d, runes[j]? = some d → d ≠ ' ' ∧ isPunctuation d = false) :
    runes.getD j RuneError ≠ ' ' ∧ isPunctuation (runes.getD j RuneError) = false := by
  rw [List.getD_eq_getElem?_getD]
  cases hj : runes[j]? with
  | none => exact ⟨by decide, by decide⟩
  | some d => exact h d hj

theorem findSplitScan_none (runes : List Char) (k : Nat)
    (hnone : ∀ (j : Nat) (d : Char), 1 ≤ j → j ≤ k → runes[j]? = some d →
      d ≠ ' ' ∧ isPunctuation d = false) :
    findSplitScan runes k = -1 := by
  induction k with
  | zero => rfl
  | succ k ih =>
    have hd := getD_RuneError_no_break runes (k + 1)
      (fun d hd => hnone (k + 1) d (by omega) (le_refl _) hd)
    unfold findSplitScan
    simp only [hd.1, hd.2, if_false, Bool.false_eq_true]
    exact ih (fun j d h1 h2 h3 => hnone j d h1 (by omega) h3)

theorem findSplitScan_found (runes : List Char) (k i : Nat) (c : Char) (h1 : 1 ≤ i)
    (hik : i ≤ k) (hc : runes[i]? = some c) (hb : c = ' ' ∨ isPunctuation c = true)
    (hnone : ∀ (j : Nat) (d : Char), i < j → j ≤ k → runes[j]? = some d →
      d ≠ ' ' ∧ isPunctuation d = false) :
    findSplitScan runes k = if c = ' ' then (i : Int) else (i : Int) + 1 := by
  induction k with
  | zero => omega
  | succ k ih =>
    unfold findSplitScan
    by_cases hi : i = k + 1
    · subst hi
      have hg : runes.getD (k + 1) RuneError = c := by
        rw [List.getD_eq_getElem?_getD, hc]; rfl
      simp only [hg]
      by_cases hs : c = ' '
      · simp [hs]
      · rcases hb with hb | hb
        · exact absurd hb hs
        · simp [hs, hb]
    · have hd := getD_RuneError_no_break runes (k + 1)
        (fun d hd => hnone (k + 1) d (by omega) (le_refl _) hd)
      simp only [hd.1, hd.2, if_false, Bool.false_eq_true]
      exact ih (by omega) (fun j d h2 h3 h4 => hnone j d h2 (by omega) h4)

theorem findSplitPosition_scan_eq (text : GoString) (maxLen : Int)
    (hlen : maxLen < (text.length : Int)) :
    findSplitPosition text maxLen =
      if findSplitScan text maxLen.toNat ≤ 0 then maxLen else findSplitScan text maxLen.toNat := by
  unfold findSplitPosition
  simp only
  rw [if_neg (by omega)]
  have hmin : min (maxLen + 1) (text.length : Int) = maxLen + 1 := min_eq_left (by omega)
  rw [hmin, add_sub_cancel_right]

/-- C18: for a text of more than `maxLen ≥ 1` code points, `findSplitPosition`
returns `i` when the last rune at an index in `1..maxLen` that is a space or a
punctuation rune is a space at index `i`, `i + 1` when it is a punctuation
rune at index `i`, and `maxLen` when there is no such rune. -/
theorem findSplitPosition_last_break (text : GoString) (maxLen : Int) (hmax : 1 ≤ maxLen)
    (hlen : maxLen < (text.length : Int)) :
    (∀ (i : Nat) (c : Char), 1 ≤ i → (i : Int) ≤ maxLen → text[i]? = some c →
      (c = ' ' ∨ isPunctuation c = true) →
      (∀ (j : Nat) (d : Char), i < j → (j : Int) ≤ maxLen → text[j]? = some d →
        d ≠ ' ' ∧ isPunctuation d = false) →
      findSplitPosition text maxLen = if c = ' ' then (i : Int) else (i : Int) + 1) ∧
    ((∀ (i : Nat) (c : Char), 1 ≤ i → (i : Int) ≤ maxLen → text[i]? = some c →
        c ≠ ' ' ∧ isPunctuation c = false) →
      findSplitPosition text maxLen = maxLen) := by
  rw [findSplitPosition_scan_eq text maxLen hlen]
  constructor
  · intro i c h1 h2 hc hb hnone
    have hs := findSplitScan_found text maxLen.toNat i c h1 (by omega) hc hb
      (fun j d hj1 hj2 hj3 => hnone j d hj1 (by omega) hj3)
    rw [hs]
    split_ifs <;> omega
  · intro hnone
    have hs := findSplitScan_none text maxLen.toNat
      (fun j d hj1 hj2 hj3 => hnone j d hj1 (by omega) hj3)
    rw [hs]
    simp

/-- C18 at the text "Hello, world" with `maxLen = 7` of `TestFindSplitPosition`:
the space at index 6 is the last break in `1..7`. -/
theorem findSplitPosition_last_break_witness :
    findSplitPosition "Hello, world".toList 7 = 6 := by
  have h := (findSplitPosition_last_break "Hello, world".toList 7 (by norm_num)
    (by decide)).1 6 ' ' (by norm_num) (by norm_num) (by decide) (Or.inl rfl) (by
      intro j d h1 h2 h3
      have hj : j = 7 := by omega
      subst hj
      have hd : d = 'w' := by
        have : "Hello, world".toList[7]? = some 'w' := by decide
        rw [this] at h3
        exact (Option.some.inj h3).symm
      subst hd
      decide)
  simpa using h

/-- C16: for a non-empty text and `maxLen ≥ 1`, `findSplitPosition` returns a
position `p` with `0 < p ≤ len(text)`, so that `text[:p]` and `text[p:]` are in
range, and returns the length when that is at most `maxLen`. -/
theorem findSplitPosition_in_range (text : GoString) (maxLen : Int) (hne : text ≠ [])
    (hmax : 1 ≤ maxLen) :
    0 < findSplitPosition text maxLen ∧ findSplitPosition text maxLen ≤ (text.length : Int) ∧
    (sliceTo text (findSplitPosition text maxLen)).isSome = true ∧
    (sliceFrom text (findSplitPosition text maxLen)).isSome = true ∧
    ((text.length : Int) ≤ maxLen → findSplitPosition text maxLen = (text.length : Int)) := by
  have hpos : 0 < text.length := List.length_pos.2 hne
  have hfit : (text.length : Int) ≤ maxLen → findSplitPosition text maxLen = (text.length : Int) := by
    intro h
    unfold findSplitPosition
    simp only
    rw [if_pos h]
  have hr : 0 < findSplitPosition text maxLen ∧ findSplitPosition text maxLen ≤ (text.length : Int) := by
    by_cases h : (text.length : Int) ≤ maxLen
    · rw [hfit h]
      omega
    · have := findSplitPosition_range text maxLen hmax (by omega)
      omega
  refine ⟨hr.1, hr.2, ?_, ?_, hfit⟩
  · simp [sliceTo, hr.2, le_of_lt hr.1]
  · simp [sliceFrom, hr.2, le_of_lt hr.1]

/-- C16 at the text "Hello, world" with `maxLen = 7`. -/
theorem findSplitPosition_in_range_witness :
    0 < findSplitPosition "Hello, world".toList 7 ∧
      findSplitPosition "Hello, world".toList 7 ≤ (("Hello, world".toList).length : Int) :=
  ⟨(findSplitPosition_in_range "Hello, world".toList 7 (by decide) (by norm_num)).1,
   (findSplitPosition_in_range "Hello, world".toList 7 (by decide) (by norm_num)).2.1⟩

/-- C17, the code at a failing input: a punctuation rune at index `maxLen`
makes `findSplitPosition` return `maxLen + 1`.  For "Hello, world" and
`maxLen = 5` it returns 6, and the first line that `splitTextIntoLines` cuts,
"Hello,", has 6 code points. -/
theorem findSplitPosition_past_maxLen :
    (∀ (text : GoString) (maxLen : Int) (c : Char), 1 ≤ maxLen →
      maxLen < (text.length : Int) → text[maxLen.toNat]? = some c → isPunctuation c = true →
      findSplitPosition text maxLen = maxLen + 1) ∧
    findSplitPosition "Hello, world".toList 5 = 6 ∧
    splitTextIntoLines "Hello, world".toList 5 =
      some ("Hello,".toList ++ [newline] ++ "world".toList) := by
  refine ⟨?_, by decide, by decide⟩
  intro text maxLen c hmax hlen hc hp
  have hns : c ≠ ' ' := by
    intro h
    rw [h] at hp
    exact absurd hp (by decide)
  rw [findSplitPosition_scan_eq text maxLen hlen,
    findSplitScan_found text maxLen.toNat maxLen.toNat c (by omega) (le_refl _) hc (Or.inr hp)
      (fun j d h1 h2 _ => absurd h1 (by omega)),
    if_neg hns]
  split_ifs <;> omega

/-! ## optimizeTextDisplay -/

theorem TrimSpace_sublist (s : GoString) : (TrimSpace s).Sublist s := by
  rw [TrimSpace_eq]
  exact (List.rdropWhile_prefix isSpace (s.dropWhile isSpace)).sublist.trans
    (List.dropWhile_suffix isSpace).sublist

theorem TrimSpace_getLast_not_space (s : GoString) (h : TrimSpace s ≠ []) :
    ¬ isSpace ((TrimSpace s).getLast h) = true :=
  List.rdropWhile_last_not isSpace (s.dropWhile isSpace) h

theorem TrimSpace_ne_nil_of_mem (s : GoString) (c : Char) (hc : c ∈ s) (hs : ¬ isSpace c = true) :
    TrimSpace s ≠ [] := by
  intro h
  rw [TrimSpace_eq, List.rdropWhile_eq_nil_iff] at h
  by_cases hd : s.dropWhile isSpace = []
  · rw [List.dropWhile_eq_nil_iff] at hd
    exact hs (hd c hc)
  · have h0 := List.dropWhile_get_zero_not isSpace s (List.length_pos.2 hd)
    exact h0 (h _ (List.get_mem _ _ _))

theorem splitTextIntoLines_of_trimmed (t : GoString) (maxCPL : Int) (hmax : 1 ≤ maxCPL)
    (ht : TrimSpace t = t) (hlen : maxCPL < (t.length : Int)) :
    splitTextIntoLines t maxCPL =
      if TrimSpace (t.drop (findSplitPosition t maxCPL).toNat) = [] then
        some (TrimSpace (t.take (findSplitPosition t maxCPL).toNat))
      else some (TrimSpace (t.take (findSplitPosition t maxCPL).toNat) ++ [newline] ++
        TrimSpace (t.drop (findSplitPosition t maxCPL).toNat)) := by
  have hr := findSplitPosition_range t maxCPL hmax hlen
  unfold splitTextIntoLines
  simp only [ht]
  rw [if_neg (by omega)]
  simp only [sliceTo, sliceFrom]
  rw [if_pos ⟨by omega, hr.2⟩, if_pos ⟨by omega, hr.2⟩]

/-- What `optimizeTextDisplay` returns for a text without a newline and
`maxCPL ≥ 1`: the trimmed text when it fits; two lines when it does not fit
and `findSplitPosition` cuts before its end; and the trimmed text, on one line
longer than `maxCPL`, when `findSplitPosition` returns its length. -/
theorem optimizeTextDisplay_lines (text : GoString) (maxCPL : Int) (hmax : 1 ≤ maxCPL)
    (hnl : newline ∉ text) :
    (((TrimSpace text).length : Int) ≤ maxCPL →
      optimizeTextDisplay text maxCPL = some (TrimSpace text)) ∧
    (maxCPL < ((TrimSpace text).length : Int) →
      findSplitPosition (TrimSpace text) maxCPL < ((TrimSpace text).length : Int) →
      ∃ out, optimizeTextDisplay text maxCPL = some out ∧ out.count newline = 1) ∧
    (maxCPL < ((TrimSpace text).length : Int) →
      findSplitPosition (TrimSpace text) maxCPL = ((TrimSpace text).length : Int) →
      optimizeTextDisplay text maxCPL = some (TrimSpace text)) := by
  refine ⟨?_, ?_, ?_⟩
  · intro h
    unfold optimizeTextDisplay
    simp only
    split_ifs <;> rfl
  · intro hlen hp
    have hne : TrimSpace text ≠ [] := by
      intro h
      rw [h] at hlen
      simp at hlen
      omega
    have hr := findSplitPosition_range (TrimSpace text) maxCPL hmax hlen
    have hnlt : newline ∉ TrimSpace text := fun h => hnl ((TrimSpace_sublist text).subset h)
    have hdrop : TrimSpace ((TrimSpace text).drop
        (findSplitPosition (TrimSpace text) maxCPL).toNat) ≠ [] := by
      have hdne : (TrimSpace text).drop (findSplitPosition (TrimSpace text) maxCPL).toNat ≠ [] := by
        intro h
        have := congrArg List.length h
        rw [List.length_drop] at this
        simp at this
        omega
      refine TrimSpace_ne_nil_of_mem _ (((TrimSpace text).drop _).getLast hdne)
        (List.getLast_mem hdne) ?_
      rw [List.getLast_drop hdne]
      exact TrimSpace_getLast_not_space text hne
    unfold optimizeTextDisplay
    simp only
    rw [if_neg hne, if_neg (by omega),
      splitTextIntoLines_of_trimmed _ maxCPL hmax (TrimSpace_idem text) hlen, if_neg hdrop]
    refine ⟨_, rfl, ?_⟩
    have h1 : newline ∉ TrimSpace ((TrimSpace text).take
        (findSplitPosition (TrimSpace text) maxCPL).toNat) :=
      fun h => hnlt ((List.take_sublist _ _).subset ((TrimSpace_sublist _).subset h))
    have h2 : newline ∉ TrimSpace ((TrimSpace text).drop
        (findSplitPosition (TrimSpace text) maxCPL).toNat) :=
      fun h => hnlt ((List.drop_sublist _ _).subset ((TrimSpace_sublist _).subset h))
    rw [List.count_append, List.count_append, List.count_eq_zero_of_not_mem h1,
      List.count_eq_zero_of_not_mem h2]
    simp
  · intro hlen hp
    have hne : TrimSpace text ≠ [] := by
      intro h
      rw [h] at hlen
      simp at hlen
      omega
    unfold optimizeTextDisplay
    simp only
    rw [if_neg hne, if_neg (by omega),
      splitTextIntoLines_of_trimmed _ maxCPL hmax (TrimSpace_idem text) hlen, hp]
    simp [TrimSpace_idem]
    rfl

/-- C19, the code at a failing input: the 43 code points of "We walked down
the river until it got dark." do not fit in 42, yet `optimizeTextDisplay`
returns them on one line, without a newline, because `findSplitPosition`
returns 43 for the full stop at index 42. -/
theorem optimizeTextDisplay_one_long_line :
    (("We walked down the river until it got dark.".toList).length : Int) = 43 ∧
    findSplitPosition "We walked down the river until it got dark.".toList 42 = 43 ∧
    optimizeTextDisplay "We walked down the river until it got dark.".toList 42 =
      some "We walked down the river until it got dark.".toList := by
  decide

/-! ## generateSRT -/

theorem optimizeTextDisplay_isSome (text : GoString) (maxCPL : Int) (hmax : 0 ≤ maxCPL) :
    ∃ t, optimizeTextDisplay text maxCPL = some t := by
  unfold optimizeTextDisplay
  simp only
  split_ifs with h1 h2
  · exact ⟨_, rfl⟩
  · exact ⟨_, rfl⟩
  · have hlen : maxCPL < ((TrimSpace text).length : Int) := not_le.1 h2
    have hp : 0 ≤ findSplitPosition (TrimSpace text) maxCPL ∧
        findSplitPosition (TrimSpace text) maxCPL ≤ ((TrimSpace text).length : Int) := by
      by_cases h0 : maxCPL = 0
      · rw [h0, findSplitPosition_of_nonpos _ 0 (le_refl _) h1]
        omega
      · have := findSplitPosition_range (TrimSpace text) maxCPL (by omega) hlen
        omega
    unfold splitTextIntoLines
    simp only [TrimSpace_idem]
    rw [if_neg h2]
    simp only [sliceTo, sliceFrom]
    rw [if_pos hp, if_pos hp]
    simp only
    split_ifs <;> exact ⟨_, rfl⟩

theorem generateLoop_eq (maxCPL : Int) (n : Nat) (rest : List SubtitleEntry) :
    ∀ (texts : List GoString) (i : Nat) (sb : GoString),
      List.Forall₂ (fun e t => optimizeTextDisplay e.Text maxCPL = some t) rest texts →
      i + rest.length = n →
      generateLoop maxCPL n i rest sb =
        some (sb ++ List.intercalate [newline]
          (((rest.zip texts).enumFrom i).map (fun p => srtBlock p.1 p.2.1 p.2.2))) := by
  induction rest with
  | nil =>
    intro texts i sb h _
    cases h
    simp [generateLoop, List.intercalate]
  | cons e rest ih =>
    intro texts i sb h hn
    cases h with
    | cons he hrest =>
      rename_i t texts
      unfold generateLoop
      rw [he]
      simp only
      rw [ih texts (i + 1) _ hrest (by simp at hn; omega)]
      cases hrest with
      | nil =>
        have hi : ¬ i < n - 1 := by simp at hn; omega
        simp [hi, List.intercalate]
      | cons he2 hrest2 =>
        have hi : i < n - 1 := by simp at hn; omega
        simp [hi, List.intercalate, List.enumFrom]

/-- C20: `generateSRT` returns the empty string for the empty list; for
entries whose texts `optimizeTextDisplay` renders, it returns the blocks of the
entries in order, the block at index `i` being the line `i + 1`, the line of
the two time codes joined by " --> ", and the rendered text followed by a
newline, with one newline between consecutive blocks and none after the last;
and `optimizeTextDisplay` renders every text when `maxCPL ≥ 0`. -/
theorem generateSRT_blocks (entries : List SubtitleEntry) (maxCPL : Int) :
    generateSRT [] maxCPL = some [] ∧
    (∀ texts : List GoString,
      List.Forall₂ (fun e t => optimizeTextDisplay e.Text maxCPL = some t) entries texts →
      generateSRT entries maxCPL =
        some (List.intercalate [newline]
          (((entries.zip texts).enum).map (fun p =>
            Nat.toDigits 10 (p.1 + 1) ++ [newline] ++ formatSRTTime p.2.1.Start ++
              " --> ".toList ++ formatSRTTime p.2.1.End ++ [newline] ++ p.2.2 ++ [newline])))) ∧
    (0 ≤ maxCPL → ∀ text : GoString, ∃ t, optimizeTextDisplay text maxCPL = some t) := by
  refine ⟨rfl, ?_, fun h text => optimizeTextDisplay_isSome text maxCPL h⟩
  intro texts h
  unfold generateSRT
  split_ifs with hlen
  · have he : entries = [] := List.eq_nil_of_length_eq_zero hlen
    subst he
    simp [List.intercalate, List.enum]
  · rw [generateLoop_eq maxCPL entries.length entries texts 0 [] h (by simp)]
    simp [List.enum, srtBlock, formatInt]

theorem intercalate_two_blocks (a b c d : GoString) :
    List.intercalate [newline]
      ["1".toList ++ [newline] ++ a ++ " --> ".toList ++ b ++ [newline] ++ "First.".toList ++
          [newline],
        "2".toList ++ [newline] ++ c ++ " --> ".toList ++ d ++ [newline] ++ "Second.".toList ++
          [newline]] =
      "1".toList ++ [newline] ++ a ++ " --> ".toList ++ b ++
        [newline] ++ "First.".toList ++ [newline] ++ [newline] ++
        "2".toList ++ [newline] ++ c ++ " --> ".toList ++ d ++
        [newline] ++ "Second.".toList ++ [newline] := by
  simp only [List.intercalate, List.intersperse, List.flatten, List.append_assoc, List.nil_append,
    List.append_nil, List.cons_append]

/-- C20 at the two entries "First." (0 to 1) and "Second." (3 to 4) of
`TestProcess_SRTFormat`, with 42 characters per line. -/
theorem generateSRT_blocks_witness :
    generateSRT [⟨"First.".toList, 0, 1, [], false, 1, 6⟩,
        ⟨"Second.".toList, 3, 4, [], false, 1, 7⟩] 42 =
      some ("1".toList ++ [newline] ++ formatSRTTime 0 ++ " --> ".toList ++ formatSRTTime 1 ++
        [newline] ++ "First.".toList ++ [newline] ++ [newline] ++
        "2".toList ++ [newline] ++ formatSRTTime 3 ++ " --> ".toList ++ formatSRTTime 4 ++
        [newline] ++ "Second.".toList ++ [newline]) := by
  have h := (generateSRT_blocks [⟨"First.".toList, 0, 1, [], false, 1, 6⟩,
    ⟨"Second.".toList, 3, 4, [], false, 1, 7⟩] 42).2.1 ["First.".toList, "Second.".toList]
    (List.Forall₂.cons (by decide) (List.Forall₂.cons (by decide) List.Forall₂.nil))
  rw [h]
  have d1 : Nat.toDigits 10 1 = "1".toList := by decide
  have d2 : Nat.toDigits 10 2 = "2".toList := by decide
  simp only [List.zip_cons_cons, List.zip_nil_right, List.enum, List.enumFrom_cons,
    List.enumFrom_nil, List.map_cons, List.map_nil, zero_add, Nat.reduceAdd, d1, d2]
  exact congrArg some (intercalate_two_blocks _ _ _ _)

/-! ## mergeTwoEntries and calculateMergeBenefit -/

/-- C24: the text of `mergeTwoEntries e1 e2` is the trimmed text of `e1`
directly followed by the trimmed text of `e2` when the merger is CJK or the
trimmed text of `e1` ends in a rune of `mergeJoinPunctuation`, and the two
trimmed texts with one space between them otherwise. -/
theorem mergeTwoEntries_text (m : IntelligentMerger) (e1 e2 : SubtitleEntry) :
    ((m.IsCJK = true ∨
        ∃ c, (TrimSpace e1.Text).getLast? = some c ∧ c.toNat ∈ mergeJoinPunctuation) →
      (mergeTwoEntries m e1 e2).Text = TrimSpace e1.Text ++ TrimSpace e2.Text) ∧
    (¬ (m.IsCJK = true ∨
        ∃ c, (TrimSpace e1.Text).getLast? = some c ∧ c.toNat ∈ mergeJoinPunctuation) →
      (mergeTwoEntries m e1 e2).Text = TrimSpace e1.Text ++ [' '] ++ TrimSpace e2.Text) := by
  have hj : (TrimSpace e1.Text ≠ [] ∧ endsWithJoinPunctuation (TrimSpace e1.Text) = true) ↔
      ∃ c, (TrimSpace e1.Text).getLast? = some c ∧ c.toNat ∈ mergeJoinPunctuation := by
    unfold endsWithJoinPunctuation DecodeLastRuneInString
    cases hl : (TrimSpace e1.Text).getLast? with
    | none =>
      have : TrimSpace e1.Text = [] := by simpa using hl
      simp [this]
    | some c =>
      have : TrimSpace e1.Text ≠ [] := by
        intro h; rw [h] at hl; simp at hl
      simp [this]
  unfold mergeTwoEntries
  simp only
  constructor
  · rintro (h | h)
    · split_ifs <;> rfl
    · rw [if_pos (hj.2 h)]
  · intro h
    rw [not_or] at h
    rw [if_neg (fun h1 => h.2 (hj.1 h1)), if_neg h.1]

/-- C24 at the default (English) merger: "Hello there" and "my friend" are
joined with a space, "Hello," and "world" without one. -/
theorem mergeTwoEntries_text_witness :
    (mergeTwoEntries defaultMerger ⟨"Hello there".toList, 0, 1, [], false, 2, 10⟩
        ⟨"my friend".toList, 11 / 10, 2, [], false, 2, 8⟩).Text =
      TrimSpace "Hello there".toList ++ [' '] ++ TrimSpace "my friend".toList ∧
    (mergeTwoEntries defaultMerger ⟨"Hello,".toList, 0, 1, [], false, 1, 6⟩
        ⟨"world".toList, 11 / 10, 2, [], false, 1, 5⟩).Text =
      TrimSpace "Hello,".toList ++ TrimSpace "world".toList := by
  have h1 : (TrimSpace "Hello there".toList).getLast? = some 'e' := by decide
  have h2 : (TrimSpace "Hello,".toList).getLast? = some ',' := by decide
  constructor
  · apply (mergeTwoEntries_text defaultMerger ⟨"Hello there".toList, 0, 1, [], false, 2, 10⟩
      ⟨"my friend".toList, 11 / 10, 2, [], false, 2, 8⟩).2
    rintro (h | ⟨c, hc, hm⟩)
    · exact absurd h (by decide)
    · rw [show (SubtitleEntry.mk "Hello there".toList 0 1 [] false 2 10).Text =
        "Hello there".toList from rfl, h1] at hc
      cases hc
      revert hm
      decide
  · apply (mergeTwoEntries_text defaultMerger ⟨"Hello,".toList, 0, 1, [], false, 1, 6⟩
      ⟨"world".toList, 11 / 10, 2, [], false, 1, 5⟩).1
    exact Or.inr ⟨',', h2, by decide⟩

theorem mergeFrom_words (m : IntelligentMerger) (rest : List SubtitleEntry) :
    ∀ current out, mergeFrom m current rest = some out →
      (out.map (fun e => e.Words)).flatten =
        current.Words ++ (rest.map (fun e => e.Words)).flatten ∧
      (out.map (fun e => e.WordCount)).sum =
        current.WordCount + (rest.map (fun e => e.WordCount)).sum := by
  induction rest with
  | nil =>
    intro current out h
    simp only [mergeFrom, Option.some.injEq] at h
    subst h
    simp
  | cons next rest ih =>
    intro current out h
    have keep : ∀ o, (mergeFrom m next rest).map (fun out => current :: out) = some o →
        (o.map (fun e => e.Words)).flatten =
          current.Words ++ ((next :: rest).map (fun e => e.Words)).flatten ∧
        (o.map (fun e => e.WordCount)).sum =
          current.WordCount + ((next :: rest).map (fun e => e.WordCount)).sum := by
      intro o ho
      cases hn : mergeFrom m next rest with
      | none => rw [hn] at ho; simp at ho
      | some o2 =>
        rw [hn] at ho
        simp only [Option.map_some', Option.some.injEq] at ho
        subst ho
        obtain ⟨h1, h2⟩ := ih next o2 hn
        simp [h1, h2]
    unfold mergeFrom at h
    cases hcm : canMerge m current next with
    | none => rw [hcm] at h; simp at h
    | some cr =>
      obtain ⟨c, r⟩ := cr
      rw [hcm] at h
      cases c
      · exact keep out h
      · simp only at h
        split_ifs at h
        · exact keep out h
        · obtain ⟨h1, h2⟩ := ih (mergeTwoEntries m current next) out h
          constructor
          · rw [h1]
            simp [mergeTwoEntries]
          · rw [h2]
            simp [mergeTwoEntries, add_assoc]

/-- C25: whenever `MergeBasicEntries` returns, the `Words` lists of its output
entries, concatenated in order, are the `Words` lists of the input entries
concatenated, and the `WordCount`s add up to the same sum; and it does return
when `MaxCharsPerLine` is at least 1. -/
theorem MergeBasicEntries_words (m : IntelligentMerger) (entries : List SubtitleEntry) :
    (∀ out, MergeBasicEntries m entries = some out →
      (out.map (fun e => e.Words)).flatten = (entries.map (fun e => e.Words)).flatten ∧
      (out.map (fun e => e.WordCount)).sum = (entries.map (fun e => e.WordCount)).sum) ∧
    (1 ≤ m.MaxCharsPerLine → ∃ out, MergeBasicEntries m entries = some out) := by
  cases entries with
  | nil =>
    refine ⟨?_, fun _ => ⟨[], rfl⟩⟩
    intro out h
    simp only [MergeBasicEntries, Option.some.injEq] at h
    subst h
    exact ⟨rfl, rfl⟩
  | cons first rest =>
    refine ⟨?_, fun hmax => mergeFrom_isSome m hmax rest first⟩
    intro out h
    obtain ⟨h1, h2⟩ := mergeFrom_words m rest first out h
    simp [h1, h2]

/-- C25 at the default merger and the entries "Hi" (0 to 0.3) and "there"
(0.4 to 0.7), which merge into one entry holding both tokens. -/
theorem MergeBasicEntries_words_witness :
    ∃ out, MergeBasicEntries defaultMerger
        [⟨"Hi".toList, 0, 3 / 10, [⟨"Hi".toList, 0, 3 / 10, "word"⟩], false, 1, 2⟩,
          ⟨"there".toList, 2 / 5, 7 / 10, [⟨"there".toList, 2 / 5, 7 / 10, "word"⟩], false, 1,
            5⟩] = some out ∧
      out.length = 1 ∧
      (out.map (fun e => e.Words)).flatten =
        ([SubtitleEntry.mk "Hi".toList 0 (3 / 10) [⟨"Hi".toList, 0, 3 / 10, "word"⟩] false 1 2,
          ⟨"there".toList, 2 / 5, 7 / 10, [⟨"there".toList, 2 / 5, 7 / 10, "word"⟩], false, 1,
            5⟩].map (fun e => e.Words)).flatten ∧
      (out.map (fun e => e.WordCount)).sum =
        ([SubtitleEntry.mk "Hi".toList 0 (3 / 10) [⟨"Hi".toList, 0, 3 / 10, "word"⟩] false 1 2,
          ⟨"there".toList, 2 / 5, 7 / 10, [⟨"there".toList, 2 / 5, 7 / 10, "word"⟩], false, 1,
            5⟩].map (fun e => e.WordCount)).sum := by
  have hc := canMerge_hi_there [⟨"Hi".toList, 0, 3 / 10, "word"⟩]
    [⟨"there".toList, 2 / 5, 7 / 10, "word"⟩] 1 1
  have hb := calculateMergeBenefit_hi_there [⟨"Hi".toList, 0, 3 / 10, "word"⟩]
    [⟨"there".toList, 2 / 5, 7 / 10, "word"⟩] 1 1
  have hm := MergeBasicEntries_two defaultMerger _ _ true "" hc
  rw [hb, if_pos ⟨rfl, by norm_num⟩] at hm
  exact ⟨_, hm, rfl, (MergeBasicEntries_words defaultMerger _).1 _ hm⟩

/-- C28: `getDynamicCPSLimit` is `3 * MaxCPS` for a text of at most 3
non-white-space code points, `2 * MaxCPS` for 4 or 5, `1.5 * MaxCPS` for 6 to
10, and `MaxCPS` for more than 10. -/
theorem getDynamicCPSLimit_cases (m : IntelligentMerger) (text : GoString) :
    (stripWhitespaceCount text ≤ 3 → getDynamicCPSLimit m text = 3 * m.MaxCPS) ∧
    (3 < stripWhitespaceCount text ∧ stripWhitespaceCount text ≤ 5 →
      getDynamicCPSLimit m text = 2 * m.MaxCPS) ∧
    (5 < stripWhitespaceCount text ∧ stripWhitespaceCount text ≤ 10 →
      getDynamicCPSLimit m text = 3 / 2 * m.MaxCPS) ∧
    (10 < stripWhitespaceCount text → getDynamicCPSLimit m text = m.MaxCPS) := by
  unfold getDynamicCPSLimit
  simp only
  refine ⟨?_, ?_, ?_, ?_⟩
  · intro h
    rw [if_pos h]; ring
  · intro h
    rw [if_neg (by omega), if_pos h.2]; ring
  · intro h
    rw [if_neg (by omega), if_neg (by omega), if_pos h.2]; ring
  · intro h
    rw [if_neg (by omega), if_neg (by omega), if_neg (by omega)]

/-- C28 at the default merger and the texts "abc", "abcd", "abcdefghij" and
"abcdefghijk" of `TestGetDynamicCPSLimit`: 45, 30, 22.5 and 15. -/
theorem getDynamicCPSLimit_cases_witness :
    getDynamicCPSLimit defaultMerger "abc".toList = 3 * 15 ∧
    getDynamicCPSLimit defaultMerger "abcd".toList = 2 * 15 ∧
    getDynamicCPSLimit defaultMerger "abcdefghij".toList = 3 / 2 * 15 ∧
    getDynamicCPSLimit defaultMerger "abcdefghijk".toList = 15 :=
  ⟨(getDynamicCPSLimit_cases defaultMerger "abc".toList).1 (by decide),
   (getDynamicCPSLimit_cases defaultMerger "abcd".toList).2.1 (by decide),
   (getDynamicCPSLimit_cases defaultMerger "abcdefghij".toList).2.2.1 (by decide),
   (getDynamicCPSLimit_cases defaultMerger "abcdefghijk".toList).2.2.2 (by decide)⟩

/-! ## preprocessWords and spacing tokens -/

theorem preprocessStep_blank_spacing (p s : Word) (ev : List Word) (hp : p.Type_ = "word")
    (hs : s.Type_ = "spacing") (hb : TrimSpace s.Text = []) :
    preprocessStep ⟨[p], ev⟩ s =
      ⟨[if p.Text.getLast? = some ' ' then p else { p with Text := p.Text ++ [' '] }], ev⟩ := by
  have hna : s.Type_ ≠ "audio_event" := by rw [hs]; decide
  unfold preprocessStep
  rw [if_neg hna, if_pos hs]
  simp only [List.getLast?_singleton, spaceGoesTo, HasSuffixSpace, hb, hp, List.dropLast_single,
    List.nil_append]
  by_cases h : p.Text.getLast? = some ' '
  · simp [h]
  · simp [h]

theorem foldl_blank_spacing (spaces : List Word) :
    ∀ (p : Word) (ev : List Word), p.Type_ = "word" → p.Text.getLast? = some ' ' →
      (∀ s ∈ spaces, s.Type_ = "spacing" ∧ TrimSpace s.Text = []) →
      spaces.foldl preprocessStep ⟨[p], ev⟩ = ⟨[p], ev⟩ := by
  induction spaces with
  | nil => intro p ev _ _ _; rfl
  | cons s rest ih =>
    intro p ev hp hl hs
    have h1 := hs s (by simp)
    rw [List.foldl_cons, preprocessStep_blank_spacing p s ev hp h1.1 h1.2, if_pos hl]
    exact ih p ev hp hl (fun x hx => hs x (List.mem_cons_of_mem _ hx))

theorem preprocessStep_spacing_no_word (st : preprocessResult) (s : Word)
    (hs : s.Type_ = "spacing")
    (hprev : ∀ prev, st.Words.getLast? = some prev → prev.Type_ ≠ "word") :
    preprocessStep st s = st := by
  have hna : s.Type_ ≠ "audio_event" := by rw [hs]; decide
  unfold preprocessStep
  rw [if_neg hna, if_pos hs]
  cases hl : st.Words.getLast? with
  | none => rfl
  | some prev =>
    have hp := hprev prev hl
    simp [spaceGoesTo, hp]

/-- C29: a word-type token followed by one or more spacing tokens of
white-space-only text gives the single word, with one space appended when its
text does not already end in a space; and a spacing token that no word
precedes, because no token has been kept before it (it comes first, or after
audio events only) or because the last token kept before it is not of type
word, is dropped without effect, wherever it stands in the stream. -/
theorem preprocessWords_spacing_run (w : Word) (spaces : List Word) (hw : w.Type_ = "word")
    (hne : spaces ≠ []) (hs : ∀ s ∈ spaces, s.Type_ = "spacing" ∧ TrimSpace s.Text = []) :
    preprocessWords (w :: spaces) =
      ⟨[if w.Text.getLast? = some ' ' then w else { w with Text := w.Text ++ [' '] }], []⟩ ∧
    (∀ (xs ys : List Word) (s : Word), s.Type_ = "spacing" →
      (∀ prev, (preprocessWords xs).Words.getLast? = some prev → prev.Type_ ≠ "word") →
      preprocessWords (xs ++ s :: ys) = preprocessWords (xs ++ ys)) := by
  constructor
  · have hwa : w.Type_ ≠ "audio_event" := by rw [hw]; decide
    have hws : w.Type_ ≠ "spacing" := by rw [hw]; decide
    have s1 : preprocessStep ⟨[], []⟩ w = ⟨[w], []⟩ := by
      simp [preprocessStep, hwa, hws]
    cases spaces with
    | nil => exact absurd rfl hne
    | cons s rest =>
      have h1 := hs s (by simp)
      unfold preprocessWords
      rw [List.foldl_cons, s1, List.foldl_cons, preprocessStep_blank_spacing w s [] hw h1.1 h1.2]
      apply foldl_blank_spacing rest _ []
      · split_ifs <;> exact hw
      · split_ifs with h
        · exact h
        · simp
      · exact fun x hx => hs x (List.mem_cons_of_mem _ hx)
  · intro xs ys s hsp hprev
    unfold preprocessWords at hprev ⊢
    rw [List.foldl_append, List.foldl_append, List.foldl_cons,
      preprocessStep_spacing_no_word _ s hsp hprev]

/-- C29 at the tokens "Hello" and " " of
`TestPreprocessWords_SpacingAppendsToPrevious`; at a spacing token that comes
first (`TestPreprocessWords_SpacingWithoutPrevWord`), after an audio event
only, and after a kept token of another type. -/
theorem preprocessWords_spacing_run_witness :
    preprocessWords [⟨"Hello".toList, 0, 1, "word"⟩, ⟨" ".toList, 1, 1, "spacing"⟩] =
      ⟨[⟨"Hello ".toList, 0, 1, "word"⟩], []⟩ ∧
    preprocessWords ([] ++ ⟨" ".toList, 0, 0, "spacing"⟩ :: [⟨"Hello".toList, 0, 1, "word"⟩]) =
      preprocessWords ([] ++ [⟨"Hello".toList, 0, 1, "word"⟩]) ∧
    preprocessWords ([⟨"(music)".toList, 0, 1, "audio_event"⟩] ++
        ⟨" ".toList, 1, 1, "spacing"⟩ :: [⟨"Hello".toList, 1, 2, "word"⟩]) =
      preprocessWords ([⟨"(music)".toList, 0, 1, "audio_event"⟩] ++
        [⟨"Hello".toList, 1, 2, "word"⟩]) ∧
    preprocessWords ([⟨"Hello".toList, 0, 1, "speaker"⟩] ++
        ⟨" ".toList, 1, 1, "spacing"⟩ :: [⟨"world".toList, 1, 2, "word"⟩]) =
      preprocessWords ([⟨"Hello".toList, 0, 1, "speaker"⟩] ++
        [⟨"world".toList, 1, 2, "word"⟩]) := by
  have h := preprocessWords_spacing_run ⟨"Hello".toList, 0, 1, "word"⟩
    [⟨" ".toList, 1, 1, "spacing"⟩] rfl (by simp) (by
      intro s hs
      simp only [List.mem_singleton] at hs
      subst hs
      exact ⟨rfl, by decide⟩)
  refine ⟨?_, ?_, ?_, ?_⟩
  · rw [h.1]
    simp
  · exact h.2 [] _ _ rfl (fun prev hp => by simp [preprocessWords] at hp)
  · exact h.2 [⟨"(music)".toList, 0, 1, "audio_event"⟩] _ _ rfl
      (fun prev hp => by simp [preprocessWords, preprocessStep] at hp)
  · exact h.2 [⟨"Hello".toList, 0, 1, "speaker"⟩] _ _ rfl (fun prev hp => by
      simp [preprocessWords, preprocessStep] at hp
      subst hp
      decide)

/-- C30: a spacing token whose trimmed text is not empty changes nothing:
with or without it the stream is preprocessed to the same `Words` and
`AudioEvents`. -/
theorem preprocessWords_drops_nonblank_spacing (xs ys : List Word) (s : Word)
    (hs : s.Type_ = "spacing") (ht : TrimSpace s.Text ≠ []) :
    preprocessWords (xs ++ [s] ++ ys) = preprocessWords (xs ++ ys) := by
  have hna : s.Type_ ≠ "audio_event" := by rw [hs]; decide
  have step : ∀ st : preprocessResult, preprocessStep st s = st := by
    intro st
    unfold preprocessStep
    rw [if_neg hna, if_pos hs]
    cases st.Words.getLast? with
    | none => rfl
    | some prev => simp [spaceGoesTo, ht]
  unfold preprocessWords
  rw [List.foldl_append, List.foldl_append, List.foldl_append, List.foldl_cons, List.foldl_nil,
    step]

/-- C30 at the tokens "Hello", "-" (spacing) and "world" of
`TestPreprocessWords_NonSpacingTokenPassedThrough`. -/
theorem preprocessWords_drops_nonblank_spacing_witness :
    preprocessWords ([⟨"Hello".toList, 0, 1, "word"⟩] ++ [⟨"-".toList, 1, 1, "spacing"⟩] ++
        [⟨"world".toList, 1, 2, "word"⟩]) =
      preprocessWords ([⟨"Hello".toList, 0, 1, "word"⟩] ++ [⟨"world".toList, 1, 2, "word"⟩]) :=
  preprocessWords_drops_nonblank_spacing _ _ ⟨"-".toList, 1, 1, "spacing"⟩ rfl (by decide)

/-! ## CharCount -/

theorem basicEntryOf_CharCount (group : List Word) (e : SubtitleEntry)
    (h : basicEntryOf group = some e) :
    e.CharCount = ((e.Text.filter (fun c => c ≠ ' ')).length : Int) := by
  unfold basicEntryOf at h
  split_ifs at h with h1
  simp only at h
  split at h
  · exact absurd h (by simp)
  · split_ifs at h with h2
    simp only [Option.some.injEq] at h
    subst h
    rfl

theorem CreateBasicEntries_CharCount (s : SentenceSplitter) (groups : List (List Word)) :
    ∀ e ∈ CreateBasicEntries s groups,
      e.CharCount = ((e.Text.filter (fun c => c ≠ ' ')).length : Int) := by
  intro e he
  unfold CreateBasicEntries at he
  rw [List.mem_filterMap] at he
  obtain ⟨g, _, hg⟩ := he
  exact basicEntryOf_CharCount g e hg

theorem createAudioEventEntries_CharCount (events : List Word) :
    ∀ e ∈ createAudioEventEntries events,
      e.CharCount = ((e.Text.filter (fun c => c ≠ ' ')).length : Int) := by
  intro e he
  unfold createAudioEventEntries at he
  rw [List.mem_map] at he
  obtain ⟨ev, _, hev⟩ := he
  subst hev
  rfl

/-- C27, the code at a failing input: `mergeTwoEntries` sets `CharCount` to
the number of code points of the text that are not white space, but
`CreateBasicEntries` and `createAudioEventEntries` count every code point other
than U+0020.  For the word "東京　大阪" and for the audio event "(波　音)",
both written with the ideographic space U+3000, they give `CharCount` 5 where
`stripWhitespaceCount` of the text is 4. -/
theorem CharCount_counts_other_white_space :
    (∀ (m : IntelligentMerger) (e1 e2 : SubtitleEntry),
      (mergeTwoEntries m e1 e2).CharCount =
        (stripWhitespaceCount (mergeTwoEntries m e1 e2).Text : Int)) ∧
    (CreateBasicEntries ⟨"ja".toList, true⟩
        [[⟨"東京".toList ++ [Char.ofNat 0x3000] ++ "大阪".toList, 0, 1, "word"⟩]]).map
        (fun e => (e.CharCount, (stripWhitespaceCount e.Text : Int))) = [(5, 4)] ∧
    (createAudioEventEntries
        [⟨"(波".toList ++ [Char.ofNat 0x3000] ++ "音)".toList, 0, 1, "audio_event"⟩]).map
        (fun e => (e.CharCount, (stripWhitespaceCount e.Text : Int))) = [(5, 4)] :=
  ⟨fun _ _ _ => rfl, by decide, by decide⟩

/-! ## Process -/

theorem processMerger_MaxCharsPerLine (transcript : TranscriptResponse)
    (settings : SubtitleSettings) :
    (processMerger transcript settings).MaxCharsPerLine = processMaxCPL transcript settings := by
  have key : ∀ lang : GoString, lang.length ≤ 3 →
      IsCJK (if lang.length > 3 then lang.take 3 else lang) = IsCJK lang := by
    intro lang h
    rw [if_neg (by omega)]
  have hlen : (if transcript.LanguageCode.length > 3 then transcript.LanguageCode.take 3
      else transcript.LanguageCode).length ≤ 3 := by
    split_ifs with h
    · rw [List.length_take]; omega
    · omega
  unfold processMerger processMaxCPL NewIntelligentMerger
  simp only [key _ hlen]
  split_ifs <;> rfl

theorem MergeBasicEntries_isSome (m : IntelligentMerger) (hmax : 1 ≤ m.MaxCharsPerLine)
    (entries : List SubtitleEntry) : ∃ out, MergeBasicEntries m entries = some out := by
  cases entries with
  | nil => exact ⟨[], rfl⟩
  | cons first rest => exact mergeFrom_isSome m hmax rest first

theorem generateLoop_isSome (maxCPL : Int) (hmax : 0 ≤ maxCPL) (n : Nat)
    (rest : List SubtitleEntry) :
    ∀ (i : Nat) (sb : GoString), ∃ out, generateLoop maxCPL n i rest sb = some out := by
  induction rest with
  | nil => intro i sb; exact ⟨sb, rfl⟩
  | cons e rest ih =>
    intro i sb
    obtain ⟨t, ht⟩ := optimizeTextDisplay_isSome e.Text maxCPL hmax
    unfold generateLoop
    rw [ht]
    exact ih _ _

theorem generateSRT_isSome (entries : List SubtitleEntry) (maxCPL : Int) (hmax : 0 ≤ maxCPL) :
    ∃ out, generateSRT entries maxCPL = some out := by
  unfold generateSRT
  split_ifs
  · exact ⟨[], rfl⟩
  · exact generateLoop_isSome maxCPL hmax _ _ _ _

/-- C21: whenever `Process` returns, its output is `generateSRT` of a list of
entries in which no entry starts before an earlier one, the list being a
permutation of the merger's entries followed by the audio-event entries; and
`Process` returns when the characters-per-line setting in force is at least 1. -/
theorem Process_sorted (sortSlice : List SubtitleEntry → List SubtitleEntry)
    (hsort : IsSliceSort sortSlice) (transcript : TranscriptResponse)
    (settings : SubtitleSettings) :
    (∀ out, Process sortSlice transcript settings = some out →
      ∃ merged all, processMergedEntries transcript settings = some merged ∧
        all.Perm (merged ++
          createAudioEventEntries (preprocessWords transcript.Words).AudioEvents) ∧
        all.Pairwise (fun a b => a.Start ≤ b.Start) ∧
        generateSRT all (processMaxCPL transcript settings) = some out) ∧
    (1 ≤ processMaxCPL transcript settings →
      ∃ out, Process sortSlice transcript settings = some out) := by
  constructor
  · intro out h
    unfold Process at h
    simp only at h
    split_ifs at h with h0
    · have hw : (preprocessWords transcript.Words).Words.length = 0 := h0.1
      have ha : (preprocessWords transcript.Words).AudioEvents = [] :=
        List.eq_nil_of_length_eq_zero h0.2
      simp only [Option.some.injEq] at h
      subst h
      refine ⟨[], [], ?_, ?_, List.Pairwise.nil, rfl⟩
      · simp [processMergedEntries, processBasicEntries, hw]
      · simp [ha, createAudioEventEntries]
    · cases hm : processMergedEntries transcript settings with
      | none => rw [hm] at h; simp at h
      | some merged =>
        rw [hm] at h
        simp only at h
        exact ⟨merged, _, rfl, (hsort _).1, (hsort _).2, h⟩
  · intro hmax
    have hm : ∃ merged, processMergedEntries transcript settings = some merged := by
      unfold processMergedEntries
      simp only
      split_ifs
      · obtain ⟨o, ho⟩ := MergeBasicEntries_isSome (processMerger transcript settings)
          (by rw [processMerger_MaxCharsPerLine]; exact hmax) (processBasicEntries transcript)
        exact ⟨_, by rw [ho]; rfl⟩
      · exact ⟨[], rfl⟩
    obtain ⟨merged, hm⟩ := hm
    unfold Process
    simp only [hm]
    split_ifs
    · exact ⟨[], rfl⟩
    · exact generateSRT_isSome _ _ (by omega)

theorem sortByStart_isSliceSort : IsSliceSort sortByStart := by
  intro l
  haveI : IsTotal SubtitleEntry (fun a b => a.Start ≤ b.Start) := ⟨fun a b => le_total _ _⟩
  haveI : IsTrans SubtitleEntry (fun a b => a.Start ≤ b.Start) :=
    ⟨fun a b c h1 h2 => le_trans h1 h2⟩
  exact ⟨List.perm_insertionSort _ l, List.sorted_insertionSort _ l⟩

/-- C21 at a transcript of one word and one audio event under the default
settings, with insertion sort on the start times for `sort.Slice`. -/
theorem Process_sorted_witness :
    IsSliceSort sortByStart ∧
    ((∀ out, Process sortByStart
        ⟨"eng".toList, [], [⟨"Hi.".toList, 1, 2, "word"⟩,
          ⟨"(music)".toList, 0, 1, "audio_event"⟩]⟩ DefaultSubtitleSettings = some out →
      ∃ merged all, processMergedEntries
          ⟨"eng".toList, [], [⟨"Hi.".toList, 1, 2, "word"⟩,
            ⟨"(music)".toList, 0, 1, "audio_event"⟩]⟩ DefaultSubtitleSettings = some merged ∧
        all.Perm (merged ++ createAudioEventEntries (preprocessWords
          (TranscriptResponse.mk "eng".toList [] [⟨"Hi.".toList, 1, 2, "word"⟩,
            ⟨"(music)".toList, 0, 1, "audio_event"⟩]).Words).AudioEvents) ∧
        all.Pairwise (fun a b => a.Start ≤ b.Start) ∧
        generateSRT all (processMaxCPL
          ⟨"eng".toList, [], [⟨"Hi.".toList, 1, 2, "word"⟩,
            ⟨"(music)".toList, 0, 1, "audio_event"⟩]⟩ DefaultSubtitleSettings) = some out) ∧
    (1 ≤ processMaxCPL ⟨"eng".toList, [], [⟨"Hi.".toList, 1, 2, "word"⟩,
        ⟨"(music)".toList, 0, 1, "audio_event"⟩]⟩ DefaultSubtitleSettings →
      ∃ out, Process sortByStart ⟨"eng".toList, [], [⟨"Hi.".toList, 1, 2, "word"⟩,
        ⟨"(music)".toList, 0, 1, "audio_event"⟩]⟩ DefaultSubtitleSettings = some out)) :=
  ⟨sortByStart_isSliceSort, Process_sorted sortByStart sortByStart_isSliceSort _ _⟩

theorem foldl_preprocessStep_all_audio (raw : List Word)
    (hall : ∀ w ∈ raw, w.Type_ = "audio_event") :
    ∀ st : preprocessResult, raw.foldl preprocessStep st = ⟨st.Words, st.AudioEvents ++ raw⟩ := by
  induction raw with
  | nil => intro st; simp
  | cons w rest ih =>
    intro st
    rw [List.foldl_cons, ih (fun x hx => hall x (List.mem_cons_of_mem _ hx))]
    have hw := hall w (List.mem_cons_self _ _)
    simp [preprocessStep, hw]

theorem perm_map_audioEventEntry (l : List SubtitleEntry) (ws : List Word)
    (h : l.Perm (ws.map audioEventEntry)) :
    ∃ toks : List Word, toks.Perm ws ∧ toks.map audioEventEntry = l := by
  refine ⟨l.filterMap (fun e => e.Words.head?), ?_, ?_⟩
  · have h1 := h.filterMap (fun e => e.Words.head?)
    have h2 : (ws.map audioEventEntry).filterMap (fun e => e.Words.head?) = ws := by
      rw [List.filterMap_map]
      have : ((fun (e : SubtitleEntry) => e.Words.head?) ∘ audioEventEntry) = some := by
        funext w; rfl
      rw [this, List.filterMap_some]
    rw [h2] at h1
    exact h1
  · have hmem : ∀ e ∈ l, ∃ w, e = audioEventEntry w := by
      intro e he
      have := h.subset he
      rw [List.mem_map] at this
      obtain ⟨w, _, hw⟩ := this
      exact ⟨w, hw.symm⟩
    clear h
    induction l with
    | nil => rfl
    | cons e rest ih =>
      obtain ⟨w, hw⟩ := hmem e (List.mem_cons_self _ _)
      subst hw
      have := ih (fun x hx => hmem x (List.mem_cons_of_mem _ hx))
      simp only [List.filterMap_cons, audioEventEntry, List.head?_cons, List.map_cons] at this ⊢
      rw [this]

theorem generateSRT_eq_blocks (entries : List SubtitleEntry) (maxCPL : Int)
    (texts : List GoString)
    (h : List.Forall₂ (fun e t => optimizeTextDisplay e.Text maxCPL = some t) entries texts) :
    generateSRT entries maxCPL =
      some (List.intercalate [newline]
        (((entries.zip texts).enum).map (fun p =>
          Nat.toDigits 10 (p.1 + 1) ++ [newline] ++ formatSRTTime p.2.1.Start ++
            " --> ".toList ++ formatSRTTime p.2.1.End ++ [newline] ++ p.2.2 ++ [newline]))) := by
  unfold generateSRT
  split_ifs with hlen
  · have he : entries = [] := List.eq_nil_of_length_eq_zero hlen
    subst he
    simp [List.intercalate, List.enum]
  · rw [generateLoop_eq maxCPL entries.length entries texts 0 [] h (by simp)]
    simp [List.enum, srtBlock, formatInt]

/-- C22: for a transcript whose tokens are all of type audio_event, the output
of `Process` is `generateSRT` of the audio-event entries of the tokens
themselves, taken in an order of non-decreasing Start; when their texts are
rendered it consists of one block per token, block `i` made of the line
`i + 1`, the line of `formatSRTTime` of the token's own Start and End joined by
" --> ", and the rendered text; and the texts are rendered when the
characters-per-line setting in force is not negative. -/
theorem Process_audio_events_only (sortSlice : List SubtitleEntry → List SubtitleEntry)
    (hsort : IsSliceSort sortSlice) (transcript : TranscriptResponse)
    (settings : SubtitleSettings)
    (hall : ∀ w ∈ transcript.Words, w.Type_ = "audio_event") :
    ∃ toks : List Word, toks.Perm transcript.Words ∧
      toks.Pairwise (fun a b => a.Start ≤ b.Start) ∧
      Process sortSlice transcript settings =
        generateSRT (createAudioEventEntries toks) (processMaxCPL transcript settings) ∧
      (∀ texts : List GoString,
        List.Forall₂ (fun (w : Word) t =>
          optimizeTextDisplay w.Text (processMaxCPL transcript settings) = some t) toks texts →
        Process sortSlice transcript settings =
          some (List.intercalate [newline]
            (((toks.zip texts).enum).map (fun p =>
              Nat.toDigits 10 (p.1 + 1) ++ [newline] ++ formatSRTTime p.2.1.Start ++
                " --> ".toList ++ formatSRTTime p.2.1.End ++ [newline] ++ p.2.2 ++
                [newline])))) ∧
      (0 ≤ processMaxCPL transcript settings →
        ∃ texts : List GoString, List.Forall₂ (fun (w : Word) t =>
          optimizeTextDisplay w.Text (processMaxCPL transcript settings) = some t)
          toks texts) := by
  have hpre : preprocessWords transcript.Words = ⟨[], transcript.Words⟩ := by
    unfold preprocessWords
    rw [foldl_preprocessStep_all_audio _ hall]
    simp
  have hmerged : processMergedEntries transcript settings = some [] := by
    simp [processMergedEntries, processBasicEntries, hpre]
  obtain ⟨toks, hperm, hmap⟩ := perm_map_audioEventEntry
    (sortSlice (createAudioEventEntries transcript.Words)) transcript.Words (hsort _).1
  have hsorted : toks.Pairwise (fun a b => a.Start ≤ b.Start) := by
    have h2 := (hsort (createAudioEventEntries transcript.Words)).2
    rw [← hmap, List.pairwise_map] at h2
    exact h2
  have hproc : Process sortSlice transcript settings =
      generateSRT (createAudioEventEntries toks) (processMaxCPL transcript settings) := by
    unfold Process
    simp only [hpre, hmerged, List.nil_append, List.length_nil, true_and]
    split_ifs with h0
    · have hw : transcript.Words = [] := List.eq_nil_of_length_eq_zero h0
      have ht : toks = [] := by rw [hw] at hperm; exact hperm.eq_nil
      rw [ht]
      rfl
    · show generateSRT (sortSlice (createAudioEventEntries transcript.Words)) _ = _
      rw [← hmap]
      rfl
  refine ⟨toks, hperm, hsorted, hproc, ?_, ?_⟩
  · intro texts h
    rw [hproc, generateSRT_eq_blocks (createAudioEventEntries toks) _ texts
      (by
        unfold createAudioEventEntries
        rw [List.forall₂_map_left_iff]
        exact h)]
    unfold createAudioEventEntries
    rw [List.zip_map_left, List.enum_map, List.map_map]
    rfl
  · intro hmax
    clear hproc hsorted hmap hperm
    induction toks with
    | nil => exact ⟨[], List.Forall₂.nil⟩
    | cons w rest ih =>
      obtain ⟨ts, hts⟩ := ih
      obtain ⟨t, ht⟩ := optimizeTextDisplay_isSome w.Text _ hmax
      exact ⟨t :: ts, List.Forall₂.cons ht hts⟩

/-- C22 at the two audio events "(music)" (5 to 6) and "(applause)" (0 to 1)
under the default settings, with insertion sort on the start times for
`sort.Slice`. -/
theorem Process_audio_events_only_witness :
    IsSliceSort sortByStart ∧
    (∀ w ∈ [Word.mk "(music)".toList 5 6 "audio_event",
      Word.mk "(applause)".toList 0 1 "audio_event"], w.Type_ = "audio_event") ∧
    ∃ toks : List Word,
      toks.Perm (TranscriptResponse.mk "eng".toList []
        [⟨"(music)".toList, 5, 6, "audio_event"⟩,
          ⟨"(applause)".toList, 0, 1, "audio_event"⟩]).Words ∧
      toks.Pairwise (fun a b => a.Start ≤ b.Start) ∧
      Process sortByStart ⟨"eng".toList, [], [⟨"(music)".toList, 5, 6, "audio_event"⟩,
          ⟨"(applause)".toList, 0, 1, "audio_event"⟩]⟩ DefaultSubtitleSettings =
        generateSRT (createAudioEventEntries toks)
          (processMaxCPL ⟨"eng".toList, [], [⟨"(music)".toList, 5, 6, "audio_event"⟩,
            ⟨"(applause)".toList, 0, 1, "audio_event"⟩]⟩ DefaultSubtitleSettings) ∧
      (∀ texts : List GoString,
        List.Forall₂ (fun (w : Word) t =>
          optimizeTextDisplay w.Text
            (processMaxCPL ⟨"eng".toList, [], [⟨"(music)".toList, 5, 6, "audio_event"⟩,
              ⟨"(applause)".toList, 0, 1, "audio_event"⟩]⟩ DefaultSubtitleSettings) = some t)
          toks texts →
        Process sortByStart ⟨"eng".toList, [], [⟨"(music)".toList, 5, 6, "audio_event"⟩,
            ⟨"(applause)".toList, 0, 1, "audio_event"⟩]⟩ DefaultSubtitleSettings =
          some (List.intercalate [newline]
            (((toks.zip texts).enum).map (fun p =>
              Nat.toDigits 10 (p.1 + 1) ++ [newline] ++ formatSRTTime p.2.1.Start ++
                " --> ".toList ++ formatSRTTime p.2.1.End ++ [newline] ++ p.2.2 ++
                [newline])))) ∧
      (0 ≤ processMaxCPL ⟨"eng".toList, [], [⟨"(music)".toList, 5, 6, "audio_event"⟩,
          ⟨"(applause)".toList, 0, 1, "audio_event"⟩]⟩ DefaultSubtitleSettings →
        ∃ texts : List GoString, List.Forall₂ (fun (w : Word) t =>
          optimizeTextDisplay w.Text
            (processMaxCPL ⟨"eng".toList, [], [⟨"(music)".toList, 5, 6, "audio_event"⟩,
              ⟨"(applause)".toList, 0, 1, "audio_event"⟩]⟩ DefaultSubtitleSettings) = some t)
          toks texts) :=
  ⟨sortByStart_isSliceSort, by decide,
    Process_audio_events_only sortByStart sortByStart_isSliceSort
      ⟨"eng".toList, [], [⟨"(music)".toList, 5, 6, "audio_event"⟩,
        ⟨"(applause)".toList, 0, 1, "audio_event"⟩]⟩ DefaultSubtitleSettings (by decide)⟩

/-! ## formatSRTTime -/

theorem fmod_eq (x y r : ℚ) (k : ℤ) (hy : 0 < y) (hk : x = y * k + r) (h0 : 0 ≤ r)
    (hr : r < y) : fmod x y = r := by
  have hf : ⌊x / y⌋ = k := by
    rw [Int.floor_eq_iff, le_div_iff₀ hy, div_lt_iff₀ hy]
    constructor <;> nlinarith
  have e : (x / y).floor = ⌊x / y⌋ := rfl
  unfold fmod
  rw [e, hf, hk]
  ring

theorem formatSRTTime_trace (x q1 R q2 S Fr M : ℚ) (h m s ms : ℕ) (hx : 0 ≤ x)
    (h1 : float64 (x / 3600) = q1) (hh : ⌊q1⌋ = (h : ℤ))
    (hR : fmod x 3600 = R)
    (h2 : float64 (R / 60) = q2) (hm : ⌊q2⌋ = (m : ℤ))
    (hS : fmod R 60 = S) (hs : ⌊S⌋ = (s : ℤ))
    (hF : fmod S 1 = Fr)
    (h3 : float64 (Fr * 1000) = M) (hms : ⌊M⌋ = (ms : ℤ)) :
    formatSRTTime x = formatInt 2 h ++ [':'] ++ formatInt 2 m ++ [':'] ++ formatInt 2 s ++
      [','] ++ formatInt 3 ms := by
  have e : ∀ q : ℚ, q.floor = ⌊q⌋ := fun _ => rfl
  unfold formatSRTTime
  simp only [abs_of_nonneg hx, h1, hR, h2, hS, hF, h3, e, hh, hm, hs, hms, Int.toNat_ofNat]

theorem formatSRTTime_zero :
    formatSRTTime (float64 0) = "00:00:00,000".toList := by
  have hX : float64 0 =
      0 :=
    by norm_num [float64]
  have h1 : float64 ((0 : ℚ) / 3600) =
      0 :=
    by norm_num [float64]
  have hh : ⌊(0 : ℚ)⌋ = ((0 : ℕ) : ℤ) :=
    by rw [Int.floor_eq_iff]; constructor <;> norm_num
  have hR : fmod (0 : ℚ) 3600 =
      0 :=
    fmod_eq _ _ _ (0) (by norm_num) (by norm_num) (by norm_num) (by norm_num)
  have h2 : float64 ((0 : ℚ) / 60) =
      0 :=
    by norm_num [float64]
  have hm : ⌊(0 : ℚ)⌋ = ((0 : ℕ) : ℤ) :=
    by rw [Int.floor_eq_iff]; constructor <;> norm_num
  have hS : fmod (0 : ℚ) 60 =
      0 :=
    fmod_eq _ _ _ (0) (by norm_num) (by norm_num) (by norm_num) (by norm_num)
  have hs : ⌊(0 : ℚ)⌋ = ((0 : ℕ) : ℤ) :=
    by rw [Int.floor_eq_iff]; constructor <;> norm_num
  have hF : fmod (0 : ℚ) 1 =
      0 :=
    fmod_eq _ _ _ (0) (by norm_num) (by norm_num) (by norm_num) (by norm_num)
  have h3 : float64 ((0 : ℚ) * 1000) =
      0 :=
    by norm_num [float64]
  have hms : ⌊(0 : ℚ)⌋ = ((0 : ℕ) : ℤ) :=
    by rw [Int.floor_eq_iff]; constructor <;> norm_num
  rw [hX, formatSRTTime_trace _ _ _ _ _ _ _ 0 0 0 0 (by norm_num) h1 hh hR h2 hm hS hs hF
    h3 hms]
  decide

theorem formatSRTTime_3661_999 :
    formatSRTTime (float64 (3661999 / 1000)) = "01:01:01,998".toList := by
  have hX : float64 (3661999 / 1000) =
      (1006602620351021 / 274877906944) :=
    float64_eq_of _ _ (-41) 8052820962808168 (by norm_num) (by norm_num) (by norm_num)
      (by rw [abs_lt]; constructor <;> norm_num) (by norm_num)
  have h1 : float64 (((1006602620351021 / 274877906944) : ℚ) / 3600) =
      (4581160369953091 / 4503599627370496) :=
    float64_eq_of _ _ (-52) 4581160369953091 (by norm_num) (by norm_num) (by norm_num)
      (by rw [abs_lt]; constructor <;> norm_num) (by norm_num)
  have hh : ⌊((4581160369953091 / 4503599627370496) : ℚ)⌋ = ((1 : ℕ) : ℤ) :=
    by rw [Int.floor_eq_iff]; constructor <;> norm_num
  have hR : fmod ((1006602620351021 / 274877906944) : ℚ) 3600 =
      (17042155352621 / 274877906944) :=
    fmod_eq _ _ _ (1) (by norm_num) (by norm_num) (by norm_num) (by norm_num)
  have h2 : float64 (((17042155352621 / 274877906944) : ℚ) / 60) =
      (1163411138738927 / 1125899906842624) :=
    float64_eq_of _ _ (-52) 4653644554955708 (by norm_num) (by norm_num) (by norm_num)
      (by rw [abs_lt]; constructor <;> norm_num) (by norm_num)
  have hm : ⌊((1163411138738927 / 1125899906842624) : ℚ)⌋ = ((1 : ℕ) : ℤ) :=
    by rw [Int.floor_eq_iff]; constructor <;> norm_num
  have hS : fmod ((17042155352621 / 274877906944) : ℚ) 60 =
      (549480935981 / 274877906944) :=
    fmod_eq _ _ _ (1) (by norm_num) (by norm_num) (by norm_num) (by norm_num)
  have hs : ⌊((549480935981 / 274877906944) : ℚ)⌋ = ((1 : ℕ) : ℤ) :=
    by rw [Int.floor_eq_iff]; constructor <;> norm_num
  have hF : fmod ((549480935981 / 274877906944) : ℚ) 1 =
      (274603029037 / 274877906944) :=
    fmod_eq _ _ _ (1) (by norm_num) (by norm_num) (by norm_num) (by norm_num)
  have h3 : float64 (((274603029037 / 274877906944) : ℚ) * 1000) =
      (34325378629625 / 34359738368) :=
    float64_eq_of _ _ (-43) 8787296929184000 (by norm_num) (by norm_num) (by norm_num)
      (by rw [abs_lt]; constructor <;> norm_num) (by norm_num)
  have hms : ⌊((34325378629625 / 34359738368) : ℚ)⌋ = ((998 : ℕ) : ℤ) :=
    by rw [Int.floor_eq_iff]; constructor <;> norm_num
  rw [hX, formatSRTTime_trace _ _ _ _ _ _ _ 1 1 1 998 (by norm_num) h1 hh hR h2 hm hS hs hF
    h3 hms]
  decide

theorem formatSRTTime_7200_5 :
    formatSRTTime (float64 (14401 / 2)) = "02:00:00,500".toList := by
  have hX : float64 (14401 / 2) =
      (14401 / 2) :=
    float64_eq_of _ _ (-40) 7917033475801088 (by norm_num) (by norm_num) (by norm_num)
      (by rw [abs_lt]; constructor <;> norm_num) (by norm_num)
  have h1 : float64 (((14401 / 2) : ℚ) / 3600) =
      (4503912377344619 / 2251799813685248) :=
    float64_eq_of _ _ (-51) 4503912377344619 (by norm_num) (by norm_num) (by norm_num)
      (by rw [abs_lt]; constructor <;> norm_num) (by norm_num)
  have hh : ⌊((4503912377344619 / 2251799813685248) : ℚ)⌋ = ((2 : ℕ) : ℤ) :=
    by rw [Int.floor_eq_iff]; constructor <;> norm_num
  have hR : fmod ((14401 / 2) : ℚ) 3600 =
      (1 / 2) :=
    fmod_eq _ _ _ (2) (by norm_num) (by norm_num) (by norm_num) (by norm_num)
  have h2 : float64 (((1 / 2) : ℚ) / 60) =
      (4803839602528529 / 576460752303423488) :=
    float64_eq_of _ _ (-59) 4803839602528529 (by norm_num) (by norm_num) (by norm_num)
      (by rw [abs_lt]; constructor <;> norm_num) (by norm_num)
  have hm : ⌊((4803839602528529 / 576460752303423488) : ℚ)⌋ = ((0 : ℕ) : ℤ) :=
    by rw [Int.floor_eq_iff]; constructor <;> norm_num
  have hS : fmod ((1 / 2) : ℚ) 60 =
      (1 / 2) :=
    fmod_eq _ _ _ (0) (by norm_num) (by norm_num) (by norm_num) (by norm_num)
  have hs : ⌊((1 / 2) : ℚ)⌋ = ((0 : ℕ) : ℤ) :=
    by rw [Int.floor_eq_iff]; constructor <;> norm_num
  have hF : fmod ((1 / 2) : ℚ) 1 =
      (1 / 2) :=
    fmod_eq _ _ _ (0) (by norm_num) (by norm_num) (by norm_num) (by norm_num)
  have h3 : float64 (((1 / 2) : ℚ) * 1000) =
      500 :=
    float64_eq_of _ _ (-44) 8796093022208000 (by norm_num) (by norm_num) (by norm_num)
      (by rw [abs_lt]; constructor <;> norm_num) (by norm_num)
  have hms : ⌊(500 : ℚ)⌋ = ((500 : ℕ) : ℤ) :=
    by rw [Int.floor_eq_iff]; constructor <;> norm_num
  rw [hX, formatSRTTime_trace _ _ _ _ _ _ _ 2 0 0 500 (by norm_num) h1 hh hR h2 hm hS hs hF
    h3 hms]
  decide

theorem formatSRTTime_1_5 :
    formatSRTTime (float64 (3 / 2)) = "00:00:01,500".toList := by
  have hX : float64 (3 / 2) =
      (3 / 2) :=
    float64_eq_of _ _ (-52) 6755399441055744 (by norm_num) (by norm_num) (by norm_num)
      (by rw [abs_lt]; constructor <;> norm_num) (by norm_num)
  have h1 : float64 (((3 / 2) : ℚ) / 3600) =
      (7686143364045647 / 18446744073709551616) :=
    float64_eq_of _ _ (-64) 7686143364045647 (by norm_num) (by norm_num) (by norm_num)
      (by rw [abs_lt]; constructor <;> norm_num) (by norm_num)
  have hh : ⌊((7686143364045647 / 18446744073709551616) : ℚ)⌋ = ((0 : ℕ) : ℤ) :=
    by rw [Int.floor_eq_iff]; constructor <;> norm_num
  have hR : fmod ((3 / 2) : ℚ) 3600 =
      (3 / 2) :=
    fmod_eq _ _ _ (0) (by norm_num) (by norm_num) (by norm_num) (by norm_num)
  have h2 : float64 (((3 / 2) : ℚ) / 60) =
      (3602879701896397 / 144115188075855872) :=
    float64_eq_of _ _ (-58) 7205759403792794 (by norm_num) (by norm_num) (by norm_num)
      (by rw [abs_lt]; constructor <;> norm_num) (by norm_num)
  have hm : ⌊((3602879701896397 / 144115188075855872) : ℚ)⌋ = ((0 : ℕ) : ℤ) :=
    by rw [Int.floor_eq_iff]; constructor <;> norm_num
  have hS : fmod ((3 / 2) : ℚ) 60 =
      (3 / 2) :=
    fmod_eq _ _ _ (0) (by norm_num) (by norm_num) (by norm_num) (by norm_num)
  have hs : ⌊((3 / 2) : ℚ)⌋ = ((1 : ℕ) : ℤ) :=
    by rw [Int.floor_eq_iff]; constructor <;> norm_num
  have hF : fmod ((3 / 2) : ℚ) 1 =
      (1 / 2) :=
    fmod_eq _ _ _ (1) (by norm_num) (by norm_num) (by norm_num) (by norm_num)
  have h3 : float64 (((1 / 2) : ℚ) * 1000) =
      500 :=
    float64_eq_of _ _ (-44) 8796093022208000 (by norm_num) (by norm_num) (by norm_num)
      (by rw [abs_lt]; constructor <;> norm_num) (by norm_num)
  have hms : ⌊(500 : ℚ)⌋ = ((500 : ℕ) : ℤ) :=
    by rw [Int.floor_eq_iff]; constructor <;> norm_num
  rw [hX, formatSRTTime_trace _ _ _ _ _ _ _ 0 0 1 500 (by norm_num) h1 hh hR h2 hm hS hs hF
    h3 hms]
  decide

theorem formatSRTTime_61_123 :
    formatSRTTime (float64 (61123 / 1000)) = "00:01:01,122".toList := by
  have hX : float64 (61123 / 1000) =
      (8602297500742713 / 140737488355328) :=
    float64_eq_of _ _ (-47) 8602297500742713 (by norm_num) (by norm_num) (by norm_num)
      (by rw [abs_lt]; constructor <;> norm_num) (by norm_num)
  have h1 : float64 (((8602297500742713 / 140737488355328) : ℚ) / 3600) =
      (1223437866772297 / 72057594037927936) :=
    float64_eq_of _ _ (-58) 4893751467089188 (by norm_num) (by norm_num) (by norm_num)
      (by rw [abs_lt]; constructor <;> norm_num) (by norm_num)
  have hh : ⌊((1223437866772297 / 72057594037927936) : ℚ)⌋ = ((0 : ℕ) : ℤ) :=
    by rw [Int.floor_eq_iff]; constructor <;> norm_num
  have hR : fmod ((8602297500742713 / 140737488355328) : ℚ) 3600 =
      (8602297500742713 / 140737488355328) :=
    fmod_eq _ _ _ (0) (by norm_num) (by norm_num) (by norm_num) (by norm_num)
  have h2 : float64 (((8602297500742713 / 140737488355328) : ℚ) / 60) =
      (2293946000198057 / 2251799813685248) :=
    float64_eq_of _ _ (-52) 4587892000396114 (by norm_num) (by norm_num) (by norm_num)
      (by rw [abs_lt]; constructor <;> norm_num) (by norm_num)
  have hm : ⌊((2293946000198057 / 2251799813685248) : ℚ)⌋ = ((1 : ℕ) : ℤ) :=
    by rw [Int.floor_eq_iff]; constructor <;> norm_num
  have hS : fmod ((8602297500742713 / 140737488355328) : ℚ) 60 =
      (158048199423033 / 140737488355328) :=
    fmod_eq _ _ _ (1) (by norm_num) (by norm_num) (by norm_num) (by norm_num)
  have hs : ⌊((158048199423033 / 140737488355328) : ℚ)⌋ = ((1 : ℕ) : ℤ) :=
    by rw [Int.floor_eq_iff]; constructor <;> norm_num
  have hF : fmod ((158048199423033 / 140737488355328) : ℚ) 1 =
      (17310711067705 / 140737488355328) :=
    fmod_eq _ _ _ (1) (by norm_num) (by norm_num) (by norm_num) (by norm_num)
  have h3 : float64 (((17310711067705 / 140737488355328) : ℚ) * 1000) =
      (2163838883463125 / 17592186044416) :=
    float64_eq_of _ _ (-46) 8655355533852500 (by norm_num) (by norm_num) (by norm_num)
      (by rw [abs_lt]; constructor <;> norm_num) (by norm_num)
  have hms : ⌊((2163838883463125 / 17592186044416) : ℚ)⌋ = ((122 : ℕ) : ℤ) :=
    by rw [Int.floor_eq_iff]; constructor <;> norm_num
  rw [hX, formatSRTTime_trace _ _ _ _ _ _ _ 0 1 1 122 (by norm_num) h1 hh hR h2 hm hS hs hF
    h3 hms]
  decide

theorem formatSRTTime_3600 :
    formatSRTTime (float64 3600) = "01:00:00,000".toList := by
  have hX : float64 3600 =
      3600 :=
    float64_eq_of _ _ (-41) 7916483719987200 (by norm_num) (by norm_num) (by norm_num)
      (by rw [abs_lt]; constructor <;> norm_num) (by norm_num)
  have h1 : float64 ((3600 : ℚ) / 3600) =
      1 :=
    float64_eq_of _ _ (-52) 4503599627370496 (by norm_num) (by norm_num) (by norm_num)
      (by rw [abs_lt]; constructor <;> norm_num) (by norm_num)
  have hh : ⌊(1 : ℚ)⌋ = ((1 : ℕ) : ℤ) :=
    by rw [Int.floor_eq_iff]; constructor <;> norm_num
  have hR : fmod (3600 : ℚ) 3600 =
      0 :=
    fmod_eq _ _ _ (1) (by norm_num) (by norm_num) (by norm_num) (by norm_num)
  have h2 : float64 ((0 : ℚ) / 60) =
      0 :=
    by norm_num [float64]
  have hm : ⌊(0 : ℚ)⌋ = ((0 : ℕ) : ℤ) :=
    by rw [Int.floor_eq_iff]; constructor <;> norm_num
  have hS : fmod (0 : ℚ) 60 =
      0 :=
    fmod_eq _ _ _ (0) (by norm_num) (by norm_num) (by norm_num) (by norm_num)
  have hs : ⌊(0 : ℚ)⌋ = ((0 : ℕ) : ℤ) :=
    by rw [Int.floor_eq_iff]; constructor <;> norm_num
  have hF : fmod (0 : ℚ) 1 =
      0 :=
    fmod_eq _ _ _ (0) (by norm_num) (by norm_num) (by norm_num) (by norm_num)
  have h3 : float64 ((0 : ℚ) * 1000) =
      0 :=
    by norm_num [float64]
  have hms : ⌊(0 : ℚ)⌋ = ((0 : ℕ) : ℤ) :=
    by rw [Int.floor_eq_iff]; constructor <;> norm_num
  rw [hX, formatSRTTime_trace _ _ _ _ _ _ _ 1 0 0 0 (by norm_num) h1 hh hR h2 hm hS hs hF
    h3 hms]
  decide

/-- C23: on the `float64` values of the constants, `formatSRTTime` gives
"00:00:00,000" for 0, "01:01:01,998" for 3661.999, "02:00:00,500" for 7200.5,
"00:00:01,500" for 1.5, "00:01:01,122" for 61.123 and "01:00:00,000" for
3600. -/
theorem formatSRTTime_values :
    formatSRTTime (float64 0) = "00:00:00,000".toList ∧
    formatSRTTime (float64 (3661999 / 1000)) = "01:01:01,998".toList ∧
    formatSRTTime (float64 (14401 / 2)) = "02:00:00,500".toList ∧
    formatSRTTime (float64 (3 / 2)) = "00:00:01,500".toList ∧
    formatSRTTime (float64 (61123 / 1000)) = "00:01:01,122".toList ∧
    formatSRTTime (float64 3600) = "01:00:00,000".toList :=
  ⟨formatSRTTime_zero, formatSRTTime_3661_999, formatSRTTime_7200_5, formatSRTTime_1_5,
    formatSRTTime_61_123, formatSRTTime_3600⟩

/-! ## The token count of preprocessWords -/

theorem preprocessStep_count (st : preprocessResult) (w : Word) :
    (preprocessStep st w).Words.length + (preprocessStep st w).AudioEvents.length ≤
      st.Words.length + st.AudioEvents.length + 1 := by
  have hlast : ∀ (prev x : Word), st.Words.getLast? = some prev →
      (st.Words.dropLast ++ [x]).length = st.Words.length := by
    intro prev x h
    have hne : st.Words ≠ [] := by
      intro h0; rw [h0] at h; simp at h
    have := List.length_pos.2 hne
    simp only [List.length_append, List.length_dropLast, List.length_singleton]
    omega
  unfold preprocessStep
  split_ifs with h1 h2
  · simp only [List.length_append, List.length_singleton]; omega
  · cases hl : st.Words.getLast? with
    | none => simp only; omega
    | some prev =>
      simp only
      split_ifs
      · simp only [hlast prev _ hl]; omega
      · omega
  · cases hl : st.Words.getLast? with
    | none => simp only [List.length_append, List.length_singleton]; omega
    | some prev =>
      simp only
      split_ifs
      · simp only [hlast prev _ hl]; omega
      · simp only [List.length_append, List.length_singleton]; omega

theorem foldl_preprocessStep_count (raw : List Word) :
    ∀ st : preprocessResult,
      (raw.foldl preprocessStep st).Words.length +
          (raw.foldl preprocessStep st).AudioEvents.length ≤
        st.Words.length + st.AudioEvents.length + raw.length := by
  induction raw with
  | nil => intro st; simp
  | cons w rest ih =>
    intro st
    rw [List.foldl_cons, List.length_cons]
    have h1 := ih (preprocessStep st w)
    have h2 := preprocessStep_count st w
    omega

/-- C31: the tokens that `preprocessWords` returns, words and audio events
together, are at most as many as the tokens it is given. -/
theorem preprocessWords_count_le (raw : List Word) :
    (preprocessWords raw).Words.length + (preprocessWords raw).AudioEvents.length ≤
      raw.length := by
  have h := foldl_preprocessStep_count raw ⟨[], []⟩
  simpa [preprocessWords] using h

/-! ## calculateMergeBenefit and the thresholds of its terms -/

theorem sliceFrom_findSplitPosition (maxCPL : Int) (hmax : 1 ≤ maxCPL) (remaining : GoString)
    (hlen : maxCPL < (remaining.length : Int)) :
    ∃ rest, sliceFrom remaining (findSplitPosition remaining maxCPL) = some rest ∧
      (TrimSpace rest).length < remaining.length := by
  have hr := findSplitPosition_range remaining maxCPL hmax hlen
  refine ⟨remaining.drop (findSplitPosition remaining maxCPL).toNat, ?_, ?_⟩
  · unfold sliceFrom
    rw [if_pos ⟨by omega, hr.2⟩]
  · have h1 := TrimSpace_length_le (remaining.drop (findSplitPosition remaining maxCPL).toNat)
    rw [List.length_drop] at h1
    have h2 : 1 ≤ (findSplitPosition remaining maxCPL).toNat := by omega
    have h3 : 0 < remaining.length := by omega
    omega

theorem displayLinesLoop_range (maxCPL : Int) (hmax : 1 ≤ maxCPL) (fuel : Nat) :
    ∀ (remaining : GoString) (lines n : Nat),
      displayLinesLoop maxCPL fuel remaining lines = some n →
      (remaining = [] → n = lines) ∧
      (remaining ≠ [] → lines + 1 ≤ n ∧ n ≤ lines + remaining.length) := by
  induction fuel with
  | zero => intro remaining lines n h; simp [displayLinesLoop] at h
  | succ fuel ih =>
    intro remaining lines n h
    unfold displayLinesLoop at h
    split_ifs at h with h1 h2
    · simp only [Option.some.injEq] at h
      exact ⟨fun _ => h.symm, fun hne => absurd h1 hne⟩
    · simp only [Option.some.injEq] at h
      have := List.length_pos.2 h1
      exact ⟨fun h0 => absurd h0 h1, fun _ => by omega⟩
    · obtain ⟨rest, hs, hlt⟩ := sliceFrom_findSplitPosition maxCPL hmax remaining (by omega)
      rw [hs] at h
      simp only at h
      have hi := ih (TrimSpace rest) (lines + 1) n h
      refine ⟨fun h0 => absurd h0 h1, fun _ => ?_⟩
      by_cases ht : TrimSpace rest = []
      · have := hi.1 ht
        have := List.length_pos.2 h1
        omega
      · have := hi.2 ht
        omega

/-- C40: with `MaxCharsPerLine` at least 1, every round of the loop of
`calculateDisplayLines` that does not end it leaves a strictly shorter
`remaining`, and `calculateDisplayLines` returns: 0 for an empty or blank
text, and otherwise a count between 1 and the number of code points of the
trimmed text. -/
theorem calculateDisplayLines_terminates (m : IntelligentMerger)
    (hmax : 1 ≤ m.MaxCharsPerLine) (text : GoString) :
    (∀ remaining : GoString, m.MaxCharsPerLine < (remaining.length : Int) →
      ∃ rest, sliceFrom remaining (findSplitPosition remaining m.MaxCharsPerLine) = some rest ∧
        (TrimSpace rest).length < remaining.length) ∧
    ∃ n, calculateDisplayLines m text = some n ∧
      (TrimSpace text = [] → n = 0) ∧
      (TrimSpace text ≠ [] → 1 ≤ n ∧ n ≤ (TrimSpace text).length) := by
  refine ⟨fun remaining h => sliceFrom_findSplitPosition _ hmax remaining h, ?_⟩
  obtain ⟨n, hn⟩ := calculateDisplayLines_isSome m hmax text
  refine ⟨n, hn, ?_, ?_⟩
  · intro ht
    unfold calculateDisplayLines at hn
    split_ifs at hn with h0
    · simp only [Option.some.injEq] at hn
      exact hn.symm
    · exact (displayLinesLoop_range _ hmax _ _ _ _ hn).1 ht
  · intro ht
    unfold calculateDisplayLines at hn
    split_ifs at hn with h0
    · rw [h0] at ht
      exact absurd rfl ht
    · have := (displayLinesLoop_range _ hmax _ _ _ _ hn).2 ht
      omega

/-- C40 at the default merger (42 characters per line) and the text
"Hello world". -/
theorem calculateDisplayLines_terminates_witness :
    1 ≤ defaultMerger.MaxCharsPerLine ∧
    ∃ n, calculateDisplayLines defaultMerger "Hello world".toList = some n ∧
      (TrimSpace "Hello world".toList = [] → n = 0) ∧
      (TrimSpace "Hello world".toList ≠ [] →
        1 ≤ n ∧ n ≤ (TrimSpace "Hello world".toList).length) :=
  ⟨by decide, (calculateDisplayLines_terminates defaultMerger (by decide)
    "Hello world".toList).2⟩

/-! ## The display lines of a merged entry -/

/-- C38, counterexample: with the default settings and language "ko" (25
characters per line, texts joined without a space), the entries "가 나…나"
(25 code points, 0 to 0.1, no punctuation at the end) and "다…다" (25 code
points, 0.2 to 5) are merged, because the text that `canMerge` measures, the
two texts with a space between them, takes 2 display lines; the text that
`mergeTwoEntries` builds has no such space and takes 3. -/
theorem MergeBasicEntries_three_display_lines :
    calculateDisplayLines (NewIntelligentMerger "ko".toList DefaultSubtitleSettings)
      (("가 ".toList ++ List.replicate 23 '나') ++ [' '] ++ List.replicate 25 '다') = some 2 ∧
    ∃ e, MergeBasicEntries (NewIntelligentMerger "ko".toList DefaultSubtitleSettings)
        [⟨"가 ".toList ++ List.replicate 23 '나', 0, 1 / 10, [], false, 2, 24⟩,
          ⟨List.replicate 25 '다', 1 / 5, 5, [], false, 1, 25⟩] = some [e] ∧
      e.Text = "가 ".toList ++ List.replicate 23 '나' ++ List.replicate 25 '다' ∧
      calculateDisplayLines (NewIntelligentMerger "ko".toList DefaultSubtitleSettings) e.Text =
        some 3 := by
  have hd : calculateDisplayLines (NewIntelligentMerger "ko".toList DefaultSubtitleSettings)
      (("가 ".toList ++ List.replicate 23 '나') ++ [' '] ++ List.replicate 25 '다') = some 2 := by
    decide
  have hs : stripWhitespaceCount
      (("가 ".toList ++ List.replicate 23 '나') ++ [' '] ++ List.replicate 25 '다') = 49 := by
    decide
  have hl : ((("가 ".toList ++ List.replicate 23 '나') ++ [' '] ++
      List.replicate 25 '다').length : Int) = 51 := by decide
  have hm : (NewIntelligentMerger "ko".toList DefaultSubtitleSettings).MaxCharsPerLine = 25 := rfl
  have h1 : (NewIntelligentMerger "ko".toList DefaultSubtitleSettings).MinSubtitleGap =
      83 / 1000 := rfl
  have h2 : (NewIntelligentMerger "ko".toList DefaultSubtitleSettings).MaxSubtitleDuration =
      12 := rfl
  have h3 : (NewIntelligentMerger "ko".toList DefaultSubtitleSettings).MaxCPS = 11 := rfl
  have h4 : (NewIntelligentMerger "ko".toList DefaultSubtitleSettings).MinSubtitleDuration =
      83 / 100 := rfl
  have h5 : (NewIntelligentMerger "ko".toList DefaultSubtitleSettings).IsCJK = true := rfl
  have hc : ¬ (calculateCPS (NewIntelligentMerger "ko".toList DefaultSubtitleSettings)
      (("가 ".toList ++ List.replicate 23 '나') ++ [' '] ++ List.replicate 25 '다')
      ((5 : ℚ) - 0) >
      ((getDynamicCPSLimit (NewIntelligentMerger "ko".toList DefaultSubtitleSettings)
        (("가 ".toList ++ List.replicate 23 '나') ++ [' '] ++ List.replicate 25 '다') : ℚ) :
        WithTop ℚ)) := by
    simp only [calculateCPS, getDynamicCPSLimit, hs, h3]
    rw [if_neg (by norm_num)]
    simp only [gt_iff_lt, WithTop.coe_lt_coe]
    norm_num
  have hcan : canMerge (NewIntelligentMerger "ko".toList DefaultSubtitleSettings)
      ⟨"가 ".toList ++ List.replicate 23 '나', 0, 1 / 10, [], false, 2, 24⟩
      ⟨List.replicate 25 '다', 1 / 5, 5, [], false, 1, 25⟩ = some (true, "") := by
    unfold canMerge
    simp only [hd, hl, hm, h1, h2, if_neg hc]
    norm_num
  have hben : calculateMergeBenefit (NewIntelligentMerger "ko".toList DefaultSubtitleSettings)
      ⟨"가 ".toList ++ List.replicate 23 '나', 0, 1 / 10, [], false, 2, 24⟩
      ⟨List.replicate 25 '다', 1 / 5, 5, [], false, 1, 25⟩ = 83 / 5 := by
    simp only [calculateMergeBenefit, benefitCharCount, h4]
    norm_num
  have hmerge := MergeBasicEntries_two _ _ _ true "" hcan
  rw [hben, if_pos ⟨rfl, by norm_num⟩] at hmerge
  refine ⟨hd, _, hmerge, ?_, ?_⟩
  · decide
  · decide

/-! ### Entries that end in punctuation -/

theorem isPunctuation_not_space (p : Char) (h : isPunctuation p = true) :
    isSpace p = false ∧ p ≠ ' ' := by
  unfold isPunctuation allPunctuation highPriority mediumPriority lowPriority at h
  simp only [List.cons_append, List.nil_append, List.mem_cons, List.mem_singleton,
    List.not_mem_nil, or_false, decide_eq_true_eq] at h
  constructor
  · unfold isSpace
    rcases h with h | h | h | h | h | h | h | h | h | h | h | h | h | h | h | h | h | h | h | h |
      h | h | h | h | h | h | h | h | h <;> simp [h]
  · rintro rfl
    revert h
    decide

theorem findSplitScan_congr (a b : List Char) (k : Nat)
    (h : ∀ i, 1 ≤ i → i ≤ k → a.getD i RuneError = b.getD i RuneError) :
    findSplitScan a k = findSplitScan b k := by
  induction k with
  | zero => rfl
  | succ i ih =>
    unfold findSplitScan
    simp only
    rw [h (i + 1) (by omega) (le_refl _), ih (fun x h1 h2 => h x h1 (by omega))]

/-- The backward scans of a text with and without the space that joins its two
halves, the scan of the first starting at or after the space: either the first
finds its break after the space and the second finds the same break one index
lower, or the first stops at the space and the second goes on below it. -/
theorem findSplitScan_shift (pre suf : List Char) (hpre : 1 ≤ pre.length) (d : Nat) :
    ((pre.length : Int) < findSplitScan (pre ++ ' ' :: suf) (pre.length + d) ∧
      findSplitScan (pre ++ suf) (pre.length + d - 1) =
        findSplitScan (pre ++ ' ' :: suf) (pre.length + d) - 1) ∨
    (findSplitScan (pre ++ ' ' :: suf) (pre.length + d) = (pre.length : Int) ∧
      findSplitScan (pre ++ suf) (pre.length + d - 1) =
        findSplitScan (pre ++ suf) (pre.length - 1)) := by
  induction d with
  | zero =>
    right
    refine ⟨?_, rfl⟩
    obtain ⟨j, hj⟩ : ∃ j, pre.length = j + 1 := ⟨pre.length - 1, by omega⟩
    rw [Nat.add_zero, hj]
    unfold findSplitScan
    simp only
    have hg : (pre ++ ' ' :: suf).getD (j + 1) RuneError = ' ' := by
      rw [List.getD_append_right _ _ _ _ (by omega), hj, Nat.sub_self]
      rfl
    rw [hg, if_pos rfl]
  | succ d ih =>
    have e1 : pre.length + (d + 1) = (pre.length + d) + 1 := by omega
    have e2 : pre.length + d + 1 - 1 = (pre.length + d - 1) + 1 := by omega
    have g1 : (pre ++ ' ' :: suf).getD (pre.length + d + 1) RuneError = suf.getD d RuneError := by
      rw [List.getD_append_right _ _ _ _ (by omega)]
      have : pre.length + d + 1 - pre.length = d + 1 := by omega
      rw [this]
      rfl
    have g2 : (pre ++ suf).getD (pre.length + d - 1 + 1) RuneError = suf.getD d RuneError := by
      rw [List.getD_append_right _ _ _ _ (by omega)]
      have : pre.length + d - 1 + 1 - pre.length = d := by omega
      rw [this]
    rw [e1, e2]
    have hT' : findSplitScan (pre ++ suf) (pre.length + d - 1 + 1) =
        if suf.getD d RuneError = ' ' then ((pre.length + d - 1 + 1 : Nat) : Int)
        else if isPunctuation (suf.getD d RuneError) then ((pre.length + d - 1 + 1 : Nat) : Int) + 1
        else findSplitScan (pre ++ suf) (pre.length + d - 1) := by
      conv_lhs => unfold findSplitScan
      simp only [g2]
    have hT : findSplitScan (pre ++ ' ' :: suf) (pre.length + d + 1) =
        if suf.getD d RuneError = ' ' then ((pre.length + d + 1 : Nat) : Int)
        else if isPunctuation (suf.getD d RuneError) then ((pre.length + d + 1 : Nat) : Int) + 1
        else findSplitScan (pre ++ ' ' :: suf) (pre.length + d) := by
      conv_lhs => unfold findSplitScan
      simp only [g1]
    rw [hT, hT']
    split_ifs with h1 h2
    · left
      push_cast
      constructor <;> omega
    · left
      push_cast
      constructor <;> omega
    · exact ih

theorem findSplitPosition_natCast (text : GoString) (M : Nat) (hlen : M < text.length) :
    findSplitPosition text (M : Int) =
      if findSplitScan text M ≤ 0 then (M : Int) else findSplitScan text M := by
  have h := findSplitPosition_scan_eq text (M : Int) (by exact_mod_cast hlen)
  rwa [Int.toNat_ofNat] at h

/-- Where a text whose first half ends in a punctuation rune is split, with
and without the space that joins the two halves: at the same place, within the
first half, or at places at or after the end of the first half of which the
one without the space is at most one rune earlier. -/
theorem findSplitPosition_join (pre suf : List Char) (p : Char) (M : Nat) (hM : 1 ≤ M)
    (hp : pre.getLast? = some p) (hpp : isPunctuation p = true)
    (hlen : M < (pre ++ suf).length) :
    ∃ s s' : Nat, findSplitPosition (pre ++ ' ' :: suf) (M : Int) = (s : Int) ∧
      findSplitPosition (pre ++ suf) (M : Int) = (s' : Int) ∧ 1 ≤ s ∧ s ≤ M + 1 ∧ 1 ≤ s' ∧
      ((s' = s ∧ s ≤ pre.length) ∨ (pre.length ≤ s' ∧ s ≤ s' + 1)) := by
  have hne : pre ≠ [] := by
    intro h
    rw [h] at hp
    simp at hp
  have hj : 1 ≤ pre.length := List.length_pos.2 hne
  have hlenT : M < (pre ++ ' ' :: suf).length := by
    simp only [List.length_append, List.length_cons] at hlen ⊢
    omega
  have hT := findSplitPosition_natCast (pre ++ ' ' :: suf) M hlenT
  have hT' := findSplitPosition_natCast (pre ++ suf) M hlen
  have rT := findSplitScan_range (pre ++ ' ' :: suf) M
  have rT' := findSplitScan_range (pre ++ suf) M
  have hsp := isPunctuation_not_space p hpp
  by_cases hjM : M < pre.length
  · -- the junction lies after the scanned runes
    have hc : findSplitScan (pre ++ ' ' :: suf) M = findSplitScan (pre ++ suf) M := by
      apply findSplitScan_congr
      intro i _ h2
      rw [List.getD_append _ _ _ _ (by omega), List.getD_append _ _ _ _ (by omega)]
    rw [← hc] at hT' rT'
    by_cases h0 : findSplitScan (pre ++ ' ' :: suf) M ≤ 0
    · rw [if_pos h0] at hT hT'
      exact ⟨M, M, hT, hT', hM, by omega, hM, Or.inl ⟨rfl, by omega⟩⟩
    · rw [if_neg h0] at hT hT'
      have hpos : 1 ≤ findSplitScan (pre ++ ' ' :: suf) M := by omega
      have hle : findSplitScan (pre ++ ' ' :: suf) M ≤ (M : Int) + 1 := by
        rcases rT with h | h
        · omega
        · exact h.2
      refine ⟨(findSplitScan (pre ++ ' ' :: suf) M).toNat,
        (findSplitScan (pre ++ ' ' :: suf) M).toNat, ?_, ?_, ?_, ?_, ?_, ?_⟩
      · rw [hT, Int.toNat_of_nonneg (by omega)]
      · rw [hT', Int.toNat_of_nonneg (by omega)]
      · omega
      · omega
      · omega
      · left
        exact ⟨rfl, by omega⟩
  · -- the junction is among the scanned runes
    have hjM2 : pre.length ≤ M := not_lt.1 hjM
    obtain ⟨d, hd⟩ : ∃ d, M = pre.length + d := ⟨M - pre.length, by omega⟩
    have hsh := findSplitScan_shift pre suf hj d
    rw [← hd] at hsh
    obtain ⟨M1, hM1⟩ : ∃ M1, M = M1 + 1 := ⟨M - 1, by omega⟩
    have hsub : M - 1 = M1 := by omega
    rw [hsub] at hsh
    -- the scan of the text without the space
    have hu : findSplitScan (pre ++ suf) M =
        if (pre ++ suf).getD M RuneError = ' ' then (M : Int)
        else if isPunctuation ((pre ++ suf).getD M RuneError) then (M : Int) + 1
        else findSplitScan (pre ++ suf) M1 := by
      rw [hM1]
      conv_lhs => unfold findSplitScan
    have hTpos : 1 ≤ findSplitScan (pre ++ ' ' :: suf) M ∧
        findSplitScan (pre ++ ' ' :: suf) M ≤ (M : Int) + 1 := by
      rcases hsh with h | h
      · rcases rT with h2 | h2
        · omega
        · exact h2
      · rcases rT with h2 | h2
        · omega
        · exact h2
    rw [if_neg (by omega)] at hT
    have hs : findSplitPosition (pre ++ ' ' :: suf) (M : Int) =
        (((findSplitScan (pre ++ ' ' :: suf) M).toNat : Nat) : Int) := by
      rw [hT, Int.toNat_of_nonneg (by omega)]
    by_cases hb1 : (pre ++ suf).getD M RuneError = ' '
    · rw [if_pos hb1] at hu
      rw [hu, if_neg (by omega)] at hT'
      exact ⟨_, M, hs, hT', by omega, by omega, hM, Or.inr ⟨hjM2, by omega⟩⟩
    · rw [if_neg hb1] at hu
      by_cases hb2 : isPunctuation ((pre ++ suf).getD M RuneError) = true
      · rw [if_pos hb2] at hu
        rw [hu, if_neg (by omega)] at hT'
        exact ⟨_, M + 1, hs, by rw [hT']; push_cast; rfl, by omega, by omega, by omega,
          Or.inr ⟨by omega, by omega⟩⟩
      · rw [if_neg hb2] at hu
        rcases hsh with ⟨h1, h2⟩ | ⟨h1, h2⟩
        · rw [h2] at hu
          rw [hu, if_neg (by omega)] at hT'
          refine ⟨_, (findSplitScan (pre ++ ' ' :: suf) M - 1).toNat, hs, ?_, by omega, by omega,
            by omega, Or.inr ⟨by omega, by omega⟩⟩
          rw [hT', Int.toNat_of_nonneg (by omega)]
        · rw [h2] at hu
          by_cases hj1 : pre.length = 1
          · have hz : findSplitScan (pre ++ suf) (pre.length - 1) = -1 := by
              rw [hj1]
              rfl
            rw [hz] at hu
            rw [hu, if_pos (by omega)] at hT'
            exact ⟨_, M, hs, hT', by omega, by omega, hM, Or.inr ⟨hjM2, by omega⟩⟩
          · obtain ⟨j2, hj2⟩ : ∃ j2, pre.length = j2 + 2 := ⟨pre.length - 2, by omega⟩
            have hg : (pre ++ suf).getD (j2 + 1) RuneError = p := by
              rw [List.getD_append _ _ _ _ (by omega), List.getD_eq_getElem?_getD]
              rw [List.getLast?_eq_getElem?, hj2] at hp
              have : j2 + 2 - 1 = j2 + 1 := by omega
              rw [this] at hp
              rw [hp]
              rfl
            have hz : findSplitScan (pre ++ suf) (pre.length - 1) = ((j2 + 1 : Nat) : Int) + 1 := by
              have : pre.length - 1 = j2 + 1 := by omega
              rw [this]
              conv_lhs => unfold findSplitScan
              simp only [hg]
              rw [if_neg hsp.2, if_pos hpp]
            rw [hz] at hu
            rw [hu, if_neg (by omega)] at hT'
            refine ⟨_, j2 + 2, hs, ?_, by omega, by omega, by omega, Or.inr ⟨by omega, by omega⟩⟩
            rw [hT']
            push_cast
            ring

theorem dropWhile_isSpace_suffix (V Y : List Char) (h : V <:+ Y) :
    V.dropWhile isSpace <:+ Y.dropWhile isSpace := by
  induction Y with
  | nil =>
    rw [List.suffix_nil] at h
    rw [h]
  | cons y Y ih =>
    rcases List.suffix_cons_iff.1 h with h1 | h1
    · rw [h1]
    · rw [List.dropWhile_cons]
      split_ifs
      · exact ih h1
      · exact ((List.dropWhile_suffix isSpace).trans h1).trans (List.suffix_cons y Y)

theorem dropWhile_isSpace_join (X suf : List Char) :
    (X ++ suf).dropWhile isSpace = (X ++ ' ' :: suf).dropWhile isSpace ∨
    ((X ++ suf).dropWhile isSpace).length < ((X ++ ' ' :: suf).dropWhile isSpace).length := by
  induction X with
  | nil =>
    left
    simp only [List.nil_append, List.dropWhile_cons]
    rw [if_pos (by decide)]
  | cons x X ih =>
    simp only [List.cons_append, List.dropWhile_cons]
    split_ifs
    · exact ih
    · right
      simp

theorem TrimSpace_of_getLast (Y : List Char)
    (h : ∀ c, Y.getLast? = some c → isSpace c = false) :
    TrimSpace Y = Y.dropWhile isSpace := by
  rw [TrimSpace_eq, List.rdropWhile_eq_self_iff]
  intro hl
  have hs : Y.dropWhile isSpace <:+ Y := List.dropWhile_suffix isSpace
  have hy : Y ≠ [] := by
    intro h0
    rw [h0] at hl
    exact hl rfl
  rw [hs.getLast hl]
  have := h (Y.getLast hy) (List.getLast?_eq_getLast Y hy)
  rw [this]
  simp

theorem TrimSpace_drop_of_getLast (text : List Char) (c : Char) (n : Nat)
    (h : text.getLast? = some c) (hc : isSpace c = false) :
    TrimSpace (text.drop n) = (text.drop n).dropWhile isSpace := by
  apply TrimSpace_of_getLast
  intro x hx
  rw [List.getLast?_drop] at hx
  split_ifs at hx
  rw [h] at hx
  simp only [Option.some.injEq] at hx
  rw [← hx]
  exact hc

/-- The second display line of a text whose first half ends in a punctuation
rune, with and without the space that joins the two halves: the one without
the space is the same line or a shorter one. -/
theorem secondLine_join (pre suf : List Char) (p c : Char) (M : Nat) (hM : 1 ≤ M)
    (hp : pre.getLast? = some p) (hpp : isPunctuation p = true)
    (hc : suf.getLast? = some c) (hcs : isSpace c = false)
    (hlen : M < (pre ++ suf).length) :
    TrimSpace ((pre ++ suf).drop (findSplitPosition (pre ++ suf) (M : Int)).toNat) =
      TrimSpace ((pre ++ ' ' :: suf).drop
        (findSplitPosition (pre ++ ' ' :: suf) (M : Int)).toNat) ∨
    (TrimSpace ((pre ++ suf).drop (findSplitPosition (pre ++ suf) (M : Int)).toNat)).length <
      (TrimSpace ((pre ++ ' ' :: suf).drop
        (findSplitPosition (pre ++ ' ' :: suf) (M : Int)).toNat)).length := by
  obtain ⟨s, s', hs, hs', h1, h2, h3, hcase⟩ := findSplitPosition_join pre suf p M hM hp hpp hlen
  rw [hs, hs', Int.toNat_ofNat, Int.toNat_ofNat]
  have hsne : suf ≠ [] := by
    intro h
    rw [h] at hc
    simp at hc
  have hlT : (pre ++ ' ' :: suf).getLast? = some c := by
    rw [List.getLast?_append_of_ne_nil _ (by simp)]
    cases suf with
    | nil => exact absurd rfl hsne
    | cons a l =>
      rw [List.getLast?_cons_cons]
      exact hc
  have hlT' : (pre ++ suf).getLast? = some c := by
    rw [List.getLast?_append_of_ne_nil _ hsne, hc]
  rw [TrimSpace_drop_of_getLast _ c _ hlT hcs, TrimSpace_drop_of_getLast _ c _ hlT' hcs]
  rcases hcase with ⟨ha, hb⟩ | ⟨ha, hb⟩
  · rw [ha, List.drop_append_of_le_length hb, List.drop_append_of_le_length hb]
    exact dropWhile_isSpace_join _ _
  · have e1 : (pre ++ suf).drop s' = (pre ++ ' ' :: suf).drop (s' + 1) := by
      obtain ⟨d, hd⟩ : ∃ d, s' = pre.length + d := ⟨s' - pre.length, by omega⟩
      rw [hd, List.drop_append, Nat.add_assoc, List.drop_append]
      rfl
    have e2 : (pre ++ ' ' :: suf).drop (s' + 1) <:+ (pre ++ ' ' :: suf).drop s := by
      obtain ⟨d, hd⟩ : ∃ d, s' + 1 = s + d := ⟨s' + 1 - s, by omega⟩
      rw [hd, ← List.drop_drop]
      exact List.drop_suffix _ _
    rw [e1]
    have h4 := dropWhile_isSpace_suffix _ _ e2
    rcases Nat.lt_or_ge (List.dropWhile isSpace ((pre ++ ' ' :: suf).drop (s' + 1))).length
      (List.dropWhile isSpace ((pre ++ ' ' :: suf).drop s)).length with h5 | h5
    · right
      exact h5
    · left
      exact h4.eq_of_length (le_antisymm h4.length_le h5)

theorem displayLinesLoop_long (maxCPL : Int) (hmax : 1 ≤ maxCPL) (fuel : Nat)
    (remaining : GoString) (lines : Nat) (hlong : maxCPL < (remaining.length : Int)) :
    displayLinesLoop maxCPL (fuel + 1) remaining lines =
      displayLinesLoop maxCPL fuel
        (TrimSpace (remaining.drop (findSplitPosition remaining maxCPL).toNat)) (lines + 1) := by
  have hr := findSplitPosition_range remaining maxCPL hmax hlong
  have hne : remaining ≠ [] := by
    intro h
    rw [h] at hlong
    simp only [List.length_nil, Nat.cast_zero] at hlong
    omega
  conv_lhs => unfold displayLinesLoop
  rw [if_neg hne, if_neg (by omega)]
  simp only [sliceFrom]
  rw [if_pos ⟨by omega, hr.2⟩]

theorem displayLinesLoop_short (maxCPL : Int) (fuel : Nat) (remaining : GoString) (lines : Nat)
    (hne : remaining ≠ []) (h : (remaining.length : Int) ≤ maxCPL) :
    displayLinesLoop maxCPL (fuel + 1) remaining lines = some (lines + 1) := by
  unfold displayLinesLoop
  rw [if_neg hne, if_pos h]

theorem findSplitPosition_le (text : GoString) (maxLen : Int) (hmax : 1 ≤ maxLen)
    (hlen : maxLen < (text.length : Int)) : findSplitPosition text maxLen ≤ maxLen + 1 := by
  rw [findSplitPosition_scan_eq text maxLen hlen]
  have hr := findSplitScan_range text maxLen.toNat
  have hc : ((maxLen.toNat : Nat) : Int) = maxLen := Int.toNat_of_nonneg (by omega)
  rw [hc] at hr
  split_ifs
  · omega
  · rcases hr with h | h
    · omega
    · exact h.2

/-- A second display line that ends in a rune other than white space and
brings the count to at most 2 has at most `maxCPL + 1` runes. -/
theorem displayLinesLoop_second_line (maxCPL : Int) (hmax : 1 ≤ maxCPL) (fuel : Nat)
    (R : GoString) (n : Nat) (hR : ∀ c, R.getLast? = some c → isSpace c = false)
    (h : displayLinesLoop maxCPL fuel R 1 = some n) (hn : n ≤ 2) :
    (R.length : Int) ≤ maxCPL + 1 := by
  by_contra hlen
  have hlong : maxCPL < (R.length : Int) := by omega
  cases fuel with
  | zero => simp [displayLinesLoop] at h
  | succ fuel =>
    rw [displayLinesLoop_long maxCPL hmax fuel R 1 hlong] at h
    have hr := findSplitPosition_range R maxCPL hmax hlong
    have hle := findSplitPosition_le R maxCPL hmax hlong
    have hRne : R ≠ [] := by
      intro h0
      rw [h0] at hlong
      simp only [List.length_nil, Nat.cast_zero] at hlong
      omega
    have hlast := List.getLast?_eq_getLast R hRne
    have hcs := hR _ hlast
    have hd : (R.drop (findSplitPosition R maxCPL).toNat).getLast? = some (R.getLast hRne) := by
      rw [List.getLast?_drop, if_neg (by omega), hlast]
    have hmem : R.getLast hRne ∈ R.drop (findSplitPosition R maxCPL).toNat :=
      List.mem_of_getLast?_eq_some hd
    have hne := TrimSpace_ne_nil_of_mem _ _ hmem (by rw [hcs]; simp)
    have := (displayLinesLoop_range maxCPL hmax fuel _ _ n h).2 hne
    omega

theorem TrimSpace_head_not_space (x : Char) (xs : List Char)
    (h : TrimSpace (x :: xs) = x :: xs) : isSpace x = false := by
  have h1 := dropWhile_TrimSpace (x :: xs)
  rw [h, List.dropWhile_cons] at h1
  by_contra hx
  rw [if_pos (by simpa using hx)] at h1
  have := (List.dropWhile_suffix (l := xs) isSpace).length_le
  rw [h1] at this
  simp at this

theorem TrimSpace_append_self (pre Z : List Char) (c : Char) (hpt : TrimSpace pre = pre)
    (hpne : pre ≠ []) (hZ : Z.getLast? = some c) (hcs : isSpace c = false) :
    TrimSpace (pre ++ Z) = pre ++ Z := by
  have hZne : Z ≠ [] := by
    intro h
    rw [h] at hZ
    simp at hZ
  rw [TrimSpace_of_getLast]
  · cases pre with
    | nil => exact absurd rfl hpne
    | cons x xs =>
      have hx := TrimSpace_head_not_space x xs hpt
      rw [List.cons_append, List.dropWhile_cons, if_neg (by rw [hx]; simp)]
  · intro d hd
    rw [List.getLast?_append_of_ne_nil _ hZne, hZ] at hd
    simp only [Option.some.injEq] at hd
    rw [← hd]
    exact hcs

theorem TrimSpace_self_getLast (s : GoString) (hs : TrimSpace s = s) (hne : s ≠ []) :
    ∃ c, s.getLast? = some c ∧ isSpace c = false := by
  have h1 : TrimSpace s ≠ [] := by rw [hs]; exact hne
  have h2 := TrimSpace_getLast_not_space s h1
  refine ⟨s.getLast hne, List.getLast?_eq_getLast s hne, ?_⟩
  have e : (TrimSpace s).getLast h1 = s.getLast hne := by
    congr 1
  rw [e] at h2
  simpa using h2

/-- Two trimmed texts of which the first ends in a punctuation rune: when the
two joined by a space take at most two display lines, so do the two joined
without the space. -/
theorem calculateDisplayLines_join (m : IntelligentMerger) (hmax : 1 ≤ m.MaxCharsPerLine)
    (pre suf : List Char) (p : Char) (hp : pre.getLast? = some p)
    (hpp : isPunctuation p = true) (hpt : TrimSpace pre = pre)
    (hst : TrimSpace suf = suf) (hsne : suf ≠ []) (k : Nat)
    (h : calculateDisplayLines m (pre ++ ' ' :: suf) = some k) (hk : k ≤ 2) :
    ∃ k2, calculateDisplayLines m (pre ++ suf) = some k2 ∧ k2 ≤ 2 := by
  obtain ⟨c, hc, hcs⟩ := TrimSpace_self_getLast suf hst hsne
  have hpne : pre ≠ [] := by
    intro h0
    rw [h0] at hp
    simp at hp
  have hc2 : (' ' :: suf).getLast? = some c := by
    cases suf with
    | nil => exact absurd rfl hsne
    | cons a l =>
      rw [List.getLast?_cons_cons]
      exact hc
  have hT := TrimSpace_append_self pre (' ' :: suf) c hpt hpne hc2 hcs
  have hT2 := TrimSpace_append_self pre suf c hpt hpne hc hcs
  have hTne : pre ++ ' ' :: suf ≠ [] := by simp
  have hT2ne : pre ++ suf ≠ [] := by simp [hpne]
  have hlenT : (pre ++ ' ' :: suf).length = (pre ++ suf).length + 1 := by
    simp only [List.length_append, List.length_cons]
    omega
  unfold calculateDisplayLines at h ⊢
  rw [if_neg hTne, hT] at h
  rw [if_neg hT2ne, hT2]
  by_cases hl : ((pre ++ suf).length : Int) ≤ m.MaxCharsPerLine
  · exact ⟨1, displayLinesLoop_short _ _ _ _ hT2ne hl, by omega⟩
  · have hlong2 : m.MaxCharsPerLine < ((pre ++ suf).length : Int) := by omega
    have hlong : m.MaxCharsPerLine < ((pre ++ ' ' :: suf).length : Int) := by
      rw [hlenT]
      push_cast
      omega
    obtain ⟨M, hM⟩ : ∃ M : Nat, m.MaxCharsPerLine = (M : Int) :=
      ⟨m.MaxCharsPerLine.toNat, (Int.toNat_of_nonneg (by omega)).symm⟩
    have hM1 : 1 ≤ M := by omega
    have hMlen : M < (pre ++ suf).length := by omega
    rw [displayLinesLoop_long _ hmax _ _ _ hlong] at h
    have hpos : 0 < (pre ++ suf).length := List.length_pos.2 hT2ne
    obtain ⟨f, hf⟩ : ∃ f, (pre ++ suf).length = f + 1 := ⟨(pre ++ suf).length - 1, by omega⟩
    rw [displayLinesLoop_long _ hmax _ _ _ hlong2]
    have hsl := secondLine_join pre suf p c M hM1 hp hpp hc hcs hMlen
    rw [← hM] at hsl
    have hr2 := findSplitPosition_range (pre ++ suf) m.MaxCharsPerLine hmax hlong2
    have hR2len : (TrimSpace ((pre ++ suf).drop
        (findSplitPosition (pre ++ suf) m.MaxCharsPerLine).toNat)).length <
        (pre ++ suf).length := by
      have h1 := TrimSpace_length_le ((pre ++ suf).drop
        (findSplitPosition (pre ++ suf) m.MaxCharsPerLine).toNat)
      rw [List.length_drop] at h1
      omega
    rcases hsl with heq | hlt
    · rw [heq] at hR2len ⊢
      obtain ⟨n, hn⟩ := displayLinesLoop_isSome m.MaxCharsPerLine hmax (pre ++ suf).length _ 1
        hR2len
      have hmono := displayLinesLoop_mono _ _ _ _ _ 1 hn
      rw [← hlenT, h] at hmono
      simp only [Option.some.injEq] at hmono
      exact ⟨n, hn, by omega⟩
    · have hRlast : ∀ d, (TrimSpace ((pre ++ ' ' :: suf).drop
          (findSplitPosition (pre ++ ' ' :: suf) m.MaxCharsPerLine).toNat)).getLast? = some d →
          isSpace d = false := by
        intro d hd
        have hne : TrimSpace ((pre ++ ' ' :: suf).drop
            (findSplitPosition (pre ++ ' ' :: suf) m.MaxCharsPerLine).toNat) ≠ [] := by
          intro h0
          rw [h0] at hd
          simp at hd
        have := TrimSpace_getLast_not_space _ hne
        rw [List.getLast?_eq_getLast _ hne] at hd
        simp only [Option.some.injEq] at hd
        rw [hd] at this
        simpa using this
      have hX := displayLinesLoop_second_line _ hmax _ _ k hRlast h hk
      have hshort : ((TrimSpace ((pre ++ suf).drop
          (findSplitPosition (pre ++ suf) m.MaxCharsPerLine).toNat)).length : Int) ≤
          m.MaxCharsPerLine := by omega
      rw [hf]
      by_cases hnil : TrimSpace ((pre ++ suf).drop
          (findSplitPosition (pre ++ suf) m.MaxCharsPerLine).toNat) = []
      · rw [hnil]
        exact ⟨1, by simp [displayLinesLoop], by omega⟩
      · exact ⟨2, displayLinesLoop_short _ _ _ _ hnil hshort, le_refl _⟩

theorem canMerge_lines (m : IntelligentMerger) (e1 e2 : SubtitleEntry) (r : String)
    (h : canMerge m e1 e2 = some (true, r)) :
    ∃ k, calculateDisplayLines m (e1.Text ++ ' ' :: e2.Text) = some k ∧ k ≤ 2 := by
  have e : e1.Text ++ [' '] ++ e2.Text = e1.Text ++ ' ' :: e2.Text := by simp
  unfold canMerge at h
  simp only [e] at h
  split_ifs at h with h1 h2 h3 h4 h5
  · simp at h
  · simp at h
  · simp at h
  · simp at h
  · simp at h
  · cases hd : calculateDisplayLines m (e1.Text ++ ' ' :: e2.Text) with
    | none =>
      rw [hd] at h
      simp at h
    | some k =>
      rw [hd] at h
      simp only at h
      split_ifs at h with h6 h7
      · simp at h
      · simp at h
      · exact ⟨k, rfl, by omega⟩

theorem mergeTwoEntries_lines (m : IntelligentMerger) (hmax : 1 ≤ m.MaxCharsPerLine)
    (e1 e2 : SubtitleEntry) (r : String) (h : canMerge m e1 e2 = some (true, r))
    (h1 : TrimSpace e1.Text = e1.Text)
    (hp : ∃ p, e1.Text.getLast? = some p ∧ isPunctuation p = true)
    (h2 : TrimSpace e2.Text = e2.Text) (h2ne : e2.Text ≠ []) :
    ∃ k, calculateDisplayLines m (mergeTwoEntries m e1 e2).Text = some k ∧ k ≤ 2 := by
  obtain ⟨k, hk, hk2⟩ := canMerge_lines m e1 e2 r h
  obtain ⟨p, hp1, hp2⟩ := hp
  have hj := calculateDisplayLines_join m hmax e1.Text e2.Text p hp1 hp2 h1 h2 h2ne k hk hk2
  unfold mergeTwoEntries
  simp only [h1, h2]
  split_ifs
  · exact hj
  · exact hj
  · rw [show e1.Text ++ [' '] ++ e2.Text = e1.Text ++ ' ' :: e2.Text by simp]
    exact ⟨k, hk, hk2⟩

theorem mergeTwoEntries_punctuated (m : IntelligentMerger) (e1 e2 : SubtitleEntry)
    (rest : List SubtitleEntry) (h : PunctuatedEntries (e1 :: e2 :: rest)) :
    PunctuatedEntries (mergeTwoEntries m e1 e2 :: rest) := by
  obtain ⟨⟨h1, h1ne⟩, -, ⟨h2, h2ne⟩, hp2, hrest⟩ := h
  obtain ⟨c, hc, hcs⟩ := TrimSpace_self_getLast e2.Text h2 h2ne
  have hc2 : (' ' :: e2.Text).getLast? = some c := by
    cases ht : e2.Text with
    | nil => exact absurd ht h2ne
    | cons a l =>
      rw [ht] at hc
      rw [List.getLast?_cons_cons]
      exact hc
  have hText : (mergeTwoEntries m e1 e2).Text = e1.Text ++ e2.Text ∨
      (mergeTwoEntries m e1 e2).Text = e1.Text ++ ' ' :: e2.Text := by
    unfold mergeTwoEntries
    simp only [h1, h2]
    split_ifs
    · left; rfl
    · left; rfl
    · right; simp
  refine ⟨⟨?_, ?_⟩, ?_, hrest⟩
  · rcases hText with ht | ht
    · rw [ht]
      exact TrimSpace_append_self _ _ c h1 h1ne hc hcs
    · rw [ht]
      exact TrimSpace_append_self _ _ c h1 h1ne hc2 hcs
  · rcases hText with ht | ht <;> rw [ht] <;> simp [h1ne]
  · intro hr
    obtain ⟨p, hp, hpp⟩ := hp2 hr
    refine ⟨p, ?_, hpp⟩
    rcases hText with ht | ht
    · rw [ht, List.getLast?_append_of_ne_nil _ h2ne]
      exact hp
    · rw [ht, List.getLast?_append_of_ne_nil _ (by simp)]
      cases ht2 : e2.Text with
      | nil => exact absurd ht2 h2ne
      | cons a l =>
        rw [ht2] at hp
        rw [List.getLast?_cons_cons]
        exact hp

theorem mergeFrom_two_lines (m : IntelligentMerger) (hmax : 1 ≤ m.MaxCharsPerLine)
    (rest : List SubtitleEntry) :
    ∀ (current : SubtitleEntry) (out : List SubtitleEntry),
      PunctuatedEntries (current :: rest) → mergeFrom m current rest = some out →
      ∀ e ∈ out, e = current ∨ e ∈ rest ∨
        ∃ k, calculateDisplayLines m e.Text = some k ∧ k ≤ 2 := by
  induction rest with
  | nil =>
    intro current out _ h e he
    simp only [mergeFrom, Option.some.injEq] at h
    rw [← h] at he
    left
    simpa using he
  | cons next rest ih =>
    intro current out hP h e he
    have hPnext : PunctuatedEntries (next :: rest) := hP.2.2
    have keep : ∀ out2, mergeFrom m next rest = some out2 → e ∈ current :: out2 →
        e = current ∨ e ∈ next :: rest ∨
          ∃ k, calculateDisplayLines m e.Text = some k ∧ k ≤ 2 := by
      intro out2 h2 he2
      rcases List.mem_cons.1 he2 with h3 | h3
      · left; exact h3
      · rcases ih next out2 hPnext h2 e h3 with h4 | h4 | h4
        · right; left; rw [h4]; exact List.mem_cons_self _ _
        · right; left; exact List.mem_cons_of_mem _ h4
        · right; right; exact h4
    unfold mergeFrom at h
    cases hc : canMerge m current next with
    | none =>
      rw [hc] at h
      simp at h
    | some cr =>
      obtain ⟨c, r⟩ := cr
      rw [hc] at h
      cases c with
      | false =>
        simp only at h
        cases h2 : mergeFrom m next rest with
        | none =>
          rw [h2] at h
          simp at h
        | some out2 =>
          rw [h2] at h
          simp only [Option.map_some', Option.some.injEq] at h
          rw [← h] at he
          exact keep out2 h2 he
      | true =>
        simp only at h
        split_ifs at h with hb
        · cases h2 : mergeFrom m next rest with
          | none =>
            rw [h2] at h
            simp at h
          | some out2 =>
            rw [h2] at h
            simp only [Option.map_some', Option.some.injEq] at h
            rw [← h] at he
            exact keep out2 h2 he
        · have hPm := mergeTwoEntries_punctuated m current next rest hP
          rcases ih (mergeTwoEntries m current next) out hPm h e he with h4 | h4 | h4
          · right; right
            rw [h4]
            exact mergeTwoEntries_lines m hmax current next r hc hP.1.1
              (hP.2.1 (by simp)) hPnext.1.1 hPnext.1.2
          · right; left; exact List.mem_cons_of_mem _ h4
          · right; right; exact h4

theorem head?_dropWhile_isSpace (l : List Char) :
    (l.dropWhile isSpace).head? = l.find? (fun c => !isSpace c) := by
  induction l with
  | nil => rfl
  | cons x xs ih =>
    rw [List.dropWhile_cons, List.find?_cons]
    cases hx : isSpace x
    · simp
    · simpa using ih

/-- The last rune of a trimmed text: the last rune of the text that is not
white space. -/
theorem TrimSpace_getLast?_eq_find (Y : List Char) :
    (TrimSpace Y).getLast? = Y.reverse.find? (fun c => !isSpace c) := by
  rw [TrimSpace_eq]
  unfold List.rdropWhile
  rw [List.getLast?_reverse, head?_dropWhile_isSpace]
  conv_rhs => rw [← List.takeWhile_append_dropWhile isSpace Y]
  rw [List.reverse_append, List.find?_append]
  have hnone : (List.takeWhile isSpace Y).reverse.find? (fun c => !isSpace c) = none := by
    rw [List.find?_eq_none]
    intro x hx
    rw [List.mem_reverse] at hx
    have := List.mem_takeWhile_imp hx
    simp [this]
  rw [hnone]
  cases (List.dropWhile isSpace Y).reverse.find? (fun c => !isSpace c) <;> rfl

theorem TrimSpace_append_getLast? (A B : List Char) (c : Char)
    (h : (TrimSpace B).getLast? = some c) : (TrimSpace (A ++ B)).getLast? = some c := by
  rw [TrimSpace_getLast?_eq_find] at h ⊢
  rw [List.reverse_append, List.find?_append, h]
  rfl

theorem shouldSplitAtWord_punctuation (s : SentenceSplitter) (word : Word)
    (accumulated : List Word) (h : shouldSplitAtWord s word accumulated = true) :
    ∃ c, (TrimSpace word.Text).getLast? = some c ∧ isPunctuation c = true := by
  unfold shouldSplitAtWord wordEndsWithPunctuation at h
  simp only [TrimSpace_idem] at h
  cases hl : (TrimSpace word.Text).getLast? with
  | none =>
    have hnil : TrimSpace word.Text = [] := by simpa using hl
    simp [hnil] at h
  | some c =>
    refine ⟨c, rfl, ?_⟩
    have hne : TrimSpace word.Text ≠ [] := by
      intro h0
      rw [h0] at hl
      simp at hl
    have hd : DecodeLastRuneInString (TrimSpace word.Text) = c := by
      simp [DecodeLastRuneInString, hl]
    simp only [if_neg hne, hd] at h
    by_contra hp
    have hp2 : isPunctuation c = false := by simpa using hp
    have hn := (getPriority_none_iff c).2 hp2
    by_cases hre : c = RuneError
    · simp [hre] at h
    · simp [hre, hn, priorityNone, priorityHigh, priorityMedium, priorityLow] at h

theorem SplitIntoSentenceGroups_closed (s : SentenceSplitter) (words : List Word) :
    (∀ g ∈ SplitIntoSentenceGroups s words, g ≠ []) ∧
    (∀ g ∈ (SplitIntoSentenceGroups s words).dropLast, ClosedGroup s g) := by
  by_cases hne : words = []
  · subst hne
    simp [SplitIntoSentenceGroups]
  · have hinit : SplitInv s words 0 words [] [] :=
      ⟨by simp, by simp, by simp, by intro pre w post h; simp at h, by simp, by simp,
        fun h => absurd h hne⟩
    obtain ⟨_, _, h3, _, h5, _, h7⟩ := splitLoop_inv s words words 0 [] [] hinit
    have hcur := h7 rfl
    have hlen : ¬ words.length = 0 := fun h => hne (List.eq_nil_of_length_eq_zero h)
    have hres : SplitIntoSentenceGroups s words = (splitLoop s words.length 0 words [] []).1 := by
      simp [SplitIntoSentenceGroups, hlen, hcur]
    rw [hres]
    exact ⟨fun g hg => (h3 g hg).1, h5⟩

theorem basicEntryOf_text (g : List Word) (e : SubtitleEntry) (h : basicEntryOf g = some e) :
    e.Text = TrimSpace (g.map (fun w => w.Text)).flatten ∧ e.Text ≠ [] := by
  rcases basicEntryOf_spec g with ⟨_, h2⟩ | ⟨h1, e2, h2, h3⟩
  · rw [h2] at h
    simp at h
  · rw [h2] at h
    simp only [Option.some.injEq] at h
    subst h
    refine ⟨h3.1, ?_⟩
    rw [h3.1]
    unfold makesEntry at h1
    simp only [Bool.and_eq_true, decide_eq_true_eq] at h1
    exact h1.2

theorem CreateBasicEntries_punctuated (s s2 : SentenceSplitter) (groups : List (List Word))
    (hne : ∀ g ∈ groups, g ≠ []) (hcl : ∀ g ∈ groups.dropLast, ClosedGroup s g) :
    PunctuatedEntries (CreateBasicEntries s2 groups) := by
  unfold CreateBasicEntries
  induction groups with
  | nil => trivial
  | cons g rest ih =>
    have hrest : PunctuatedEntries (rest.filterMap basicEntryOf) := by
      apply ih (fun x hx => hne x (List.mem_cons_of_mem _ hx))
      intro x hx
      apply hcl
      cases rest with
      | nil => simp at hx
      | cons r rs =>
        rw [List.dropLast_cons₂]
        exact List.mem_cons_of_mem _ hx
    rw [List.filterMap_cons]
    cases hb : basicEntryOf g with
    | none => exact hrest
    | some e =>
      simp only
      obtain ⟨ht, hte⟩ := basicEntryOf_text g e hb
      refine ⟨⟨?_, hte⟩, ?_, hrest⟩
      · rw [ht, TrimSpace_idem]
      · intro hr
        have hrne : rest ≠ [] := by
          intro h0
          rw [h0] at hr
          exact hr rfl
        have hg : g ∈ (g :: rest).dropLast := by
          cases rest with
          | nil => exact absurd rfl hrne
          | cons r rs =>
            rw [List.dropLast_cons₂]
            exact List.mem_cons_self _ _
        have hclosed := hcl g hg
        rcases List.eq_nil_or_concat g with h0 | ⟨pre, w, hpw⟩
        · exact absurd h0 (hne g (List.mem_cons_self _ _))
        · rw [List.concat_eq_append] at hpw
          obtain ⟨c, hc, hcp⟩ := shouldSplitAtWord_punctuation s w pre (hclosed pre w hpw)
          refine ⟨c, ?_, hcp⟩
          rw [ht, hpw]
          simp only [List.map_append, List.map_cons, List.map_nil, List.flatten_append,
            List.flatten_cons, List.flatten_nil, List.append_nil]
          exact TrimSpace_append_getLast? _ _ c hc

/-- The entries that `Process` passes to `MergeBasicEntries` have trimmed,
non-empty texts, and each of them that has a successor ends in a punctuation
rune. -/
theorem processBasicEntries_punctuated (transcript : TranscriptResponse) :
    PunctuatedEntries (processBasicEntries transcript) := by
  unfold processBasicEntries
  simp only
  by_cases hw : (preprocessWords transcript.Words).Words.length > 0
  · rw [if_pos hw]
    exact CreateBasicEntries_punctuated _ _ _ (SplitIntoSentenceGroups_closed _ _).1
      (SplitIntoSentenceGroups_closed _ _).2
  · rw [if_neg hw]
    trivial

/-- C38, amended: the entries that `Process` passes to `MergeBasicEntries`,
those that `CreateBasicEntries` builds from the groups of
`SplitIntoSentenceGroups`, have trimmed, non-empty texts, and each of them
that has a successor ends in a punctuation rune; and with `MaxCharsPerLine` at
least 1, on every entry list of that kind `MergeBasicEntries` returns, and
every entry of its output that is not an entry of the input, so results from
at least one merge, fits in two display lines: `calculateDisplayLines` of its
`Text` returns at most 2. -/
theorem MergeBasicEntries_two_display_lines (m : IntelligentMerger)
    (hmax : 1 ≤ m.MaxCharsPerLine) :
    (∀ transcript : TranscriptResponse, PunctuatedEntries (processBasicEntries transcript)) ∧
    (∀ entries : List SubtitleEntry, PunctuatedEntries entries →
      ∃ out, MergeBasicEntries m entries = some out ∧
        ∀ e ∈ out, e ∈ entries ∨ ∃ k, calculateDisplayLines m e.Text = some k ∧ k ≤ 2) := by
  refine ⟨processBasicEntries_punctuated, ?_⟩
  intro entries hP
  cases entries with
  | nil => exact ⟨[], rfl, by simp⟩
  | cons first rest =>
    obtain ⟨out, hout⟩ := mergeFrom_isSome m hmax rest first
    refine ⟨out, hout, ?_⟩
    intro e he
    rcases mergeFrom_two_lines m hmax rest first out hP hout e he with h | h | h
    · left; rw [h]; exact List.mem_cons_self _ _
    · left; exact List.mem_cons_of_mem _ h
    · right; exact h

/-- C38 at the merger for "ko" and the entries of the counterexample with a
full stop at the end of the first: "가 나…나." (25 code points, 0 to 0.1) and
"다…다" (25 code points, 0.2 to 5). -/
theorem MergeBasicEntries_two_display_lines_witness :
    ∃ out, MergeBasicEntries (NewIntelligentMerger "ko".toList DefaultSubtitleSettings)
        [⟨"가 ".toList ++ List.replicate 22 '나' ++ ".".toList, 0, 1 / 10, [], false, 2, 24⟩,
          ⟨List.replicate 25 '다', 1 / 5, 5, [], false, 1, 25⟩] = some out ∧
      ∀ e ∈ out,
        e ∈ [(⟨"가 ".toList ++ List.replicate 22 '나' ++ ".".toList, 0, 1 / 10, [], false, 2, 24⟩ :
              SubtitleEntry),
            ⟨List.replicate 25 '다', 1 / 5, 5, [], false, 1, 25⟩] ∨
        ∃ k, calculateDisplayLines (NewIntelligentMerger "ko".toList DefaultSubtitleSettings)
          e.Text = some k ∧ k ≤ 2 :=
  (MergeBasicEntries_two_display_lines (NewIntelligentMerger "ko".toList DefaultSubtitleSettings)
    (by decide)).2
    [⟨"가 ".toList ++ List.replicate 22 '나' ++ ".".toList, 0, 1 / 10, [], false, 2, 24⟩,
      ⟨List.replicate 25 '다', 1 / 5, 5, [], false, 1, 25⟩]
    ⟨⟨by decide, by decide⟩, fun _ => ⟨'.', by decide, by decide⟩,
      ⟨by decide, by decide⟩, fun h => absurd rfl h, trivial⟩

/-! ## mergeResults -/

theorem sortByIndex_isIndexSort : IsIndexSort sortByIndex := by
  intro l
  haveI : IsTotal chunkResult (fun a b => a.Index ≤ b.Index) := ⟨fun a b => le_total _ _⟩
  haveI : IsTrans chunkResult (fun a b => a.Index ≤ b.Index) :=
    ⟨fun a b c h1 h2 => le_trans h1 h2⟩
  exact ⟨List.perm_insertionSort _ l, List.sorted_insertionSort _ l⟩

theorem foldl_mergeStep_Words (l : List chunkResult) :
    ∀ c : TranscriptResponse, (l.foldl mergeStep c).Words =
      c.Words ++ (l.map (fun r => r.Transcript.Words)).flatten := by
  induction l with
  | nil => intro c; simp
  | cons r rest ih =>
    intro c
    rw [List.foldl_cons, ih]
    simp [mergeStep]

theorem foldl_mergeStep_LanguageCode (l : List chunkResult) :
    ∀ c : TranscriptResponse, (l.foldl mergeStep c).LanguageCode = c.LanguageCode := by
  induction l with
  | nil => intro c; rfl
  | cons r rest ih =>
    intro c
    rw [List.foldl_cons, ih]
    rfl

theorem foldl_mergeStep_Text_of_ne (l : List chunkResult) :
    ∀ c : TranscriptResponse, c.Text ≠ [] → (l.foldl mergeStep c).Text =
      c.Text ++ (l.map (fun r => ' ' :: r.Transcript.Text)).flatten := by
  induction l with
  | nil => intro c _; simp
  | cons r rest ih =>
    intro c hc
    have h1 : (mergeStep c r).Text = c.Text ++ [' '] ++ r.Transcript.Text := by
      simp [mergeStep, hc]
    rw [List.foldl_cons, ih _ (by rw [h1]; simp), h1]
    simp

theorem intercalate_space_cons (t : GoString) (rest : List GoString) :
    List.intercalate [' '] (t :: rest) = t ++ (rest.map (fun s => ' ' :: s)).flatten := by
  induction rest generalizing t with
  | nil => simp [List.intercalate]
  | cons s rest ih =>
    have h := ih s
    simp only [List.intercalate, List.intersperse, List.flatten_cons, List.map_cons] at h ⊢
    rw [h]
    simp

theorem foldl_mergeStep_Text (l : List chunkResult) :
    ∀ c : TranscriptResponse, c.Text = [] → (l.foldl mergeStep c).Text =
      List.intercalate [' ']
        ((l.map (fun r => r.Transcript.Text)).dropWhile (fun t => decide (t = []))) := by
  induction l with
  | nil => intro c hc; simp [hc, List.intercalate]
  | cons r rest ih =>
    intro c hc
    have h1 : (mergeStep c r).Text = r.Transcript.Text := by
      simp [mergeStep, hc]
    rw [List.foldl_cons]
    by_cases hr : r.Transcript.Text = []
    · rw [ih _ (by rw [h1]; exact hr)]
      simp [List.dropWhile, hr]
    · rw [foldl_mergeStep_Text_of_ne _ _ (by rw [h1]; exact hr), h1]
      simp only [List.map_cons, List.dropWhile, hr, decide_False]
      rw [intercalate_space_cons, List.map_map]
      rfl

/-- The value of `mergeResults` from the sorted slice. -/
theorem mergeResults_eq (sortSlice : List chunkResult → List chunkResult)
    (results : List chunkResult) (first : chunkResult) (rest : List chunkResult)
    (h : sortSlice results = first :: rest) :
    mergeResults sortSlice results = some
      { LanguageCode := first.Transcript.LanguageCode
        Text := List.intercalate [' ']
          (((first :: rest).map (fun r => r.Transcript.Text)).dropWhile
            (fun t => decide (t = [])))
        Words := ((first :: rest).map (fun r => r.Transcript.Words)).flatten } := by
  unfold mergeResults
  rw [h]
  simp only [Option.some.injEq]
  have hw := foldl_mergeStep_Words (first :: rest) ⟨first.Transcript.LanguageCode, [], []⟩
  have hl := foldl_mergeStep_LanguageCode (first :: rest) ⟨first.Transcript.LanguageCode, [], []⟩
  have ht := foldl_mergeStep_Text (first :: rest) ⟨first.Transcript.LanguageCode, [], []⟩ rfl
  generalize (first :: rest).foldl mergeStep ⟨first.Transcript.LanguageCode, [], []⟩ = c at *
  cases c
  simp only at hw hl ht
  rw [hw, hl, ht]
  simp

theorem index_sorted_strict (l : List chunkResult)
    (hs : l.Pairwise (fun a b => a.Index ≤ b.Index))
    (hd : (l.map (fun r => r.Index)).Nodup) :
    l.Pairwise (fun a b => a.Index < b.Index) := by
  have h2 : l.Pairwise (fun a b => a.Index ≠ b.Index) := by
    rw [List.Nodup, List.pairwise_map] at hd
    exact hd
  exact (hs.and h2).imp (fun h => lt_of_le_of_ne h.1 h.2)

theorem index_sorted_unique (l1 l2 : List chunkResult) (hp : l1.Perm l2)
    (h1 : l1.Pairwise (fun a b => a.Index < b.Index))
    (h2 : l2.Pairwise (fun a b => a.Index < b.Index)) : l1 = l2 := by
  haveI : IsAntisymm chunkResult (fun a b => a.Index < b.Index) :=
    ⟨fun a b h1 h2 => absurd h1 (not_lt.2 (le_of_lt h2))⟩
  exact List.eq_of_perm_of_sorted hp h1 h2

theorem sortSlice_perm_eq (sortSlice : List chunkResult → List chunkResult)
    (hsort : IsIndexSort sortSlice) (results results2 : List chunkResult)
    (hd : (results.map (fun r => r.Index)).Nodup) (hp : results2.Perm results) :
    sortSlice results2 = sortSlice results := by
  have p1 := (hsort results).1
  have p2 := (hsort results2).1
  have d1 : ((sortSlice results).map (fun r => r.Index)).Nodup :=
    (List.Perm.nodup_iff (p1.map _)).2 hd
  have d2 : ((sortSlice results2).map (fun r => r.Index)).Nodup :=
    (List.Perm.nodup_iff ((p2.trans hp).map _)).2 hd
  exact index_sorted_unique _ _ (p2.trans (hp.trans p1.symm))
    (index_sorted_strict _ (hsort results2).2 d2) (index_sorted_strict _ (hsort results).2 d1)

/-- C32: for a non-empty list of chunk results with pairwise distinct indices,
`mergeResults` returns the same transcript for every permutation of the list:
with the results taken in ascending order of their indices, its `Words` are
their `Words` concatenated, its `Text` is their texts with one space between
them (empty texts at the head left out), and its `LanguageCode` is that of the
result with the lowest index. -/
theorem mergeResults_perm (sortSlice : List chunkResult → List chunkResult)
    (hsort : IsIndexSort sortSlice) (results results2 : List chunkResult)
    (hne : results ≠ []) (hd : (results.map (fun r => r.Index)).Nodup)
    (hp : results2.Perm results) :
    mergeResults sortSlice results2 = mergeResults sortSlice results ∧
    ∃ first rest, (first :: rest).Perm results ∧
      (first :: rest).Pairwise (fun a b => a.Index < b.Index) ∧
      mergeResults sortSlice results = some
        { LanguageCode := first.Transcript.LanguageCode
          Text := List.intercalate [' ']
            (((first :: rest).map (fun r => r.Transcript.Text)).dropWhile
              (fun t => decide (t = [])))
          Words := ((first :: rest).map (fun r => r.Transcript.Words)).flatten } := by
  constructor
  · unfold mergeResults
    rw [sortSlice_perm_eq sortSlice hsort results results2 hd hp]
  · have p1 := (hsort results).1
    have d1 : ((sortSlice results).map (fun r => r.Index)).Nodup :=
      (List.Perm.nodup_iff (p1.map _)).2 hd
    have hs := index_sorted_strict _ (hsort results).2 d1
    cases hsr : sortSlice results with
    | nil =>
      rw [hsr] at p1
      exact absurd p1.symm.eq_nil hne
    | cons first rest =>
      rw [hsr] at p1 hs
      exact ⟨first, rest, p1, hs, mergeResults_eq sortSlice results first rest hsr⟩

/-- C32 at the results of the chunks 1 and 0, given in this order and in the
other, with insertion sort on the indices for `sort.Slice`. -/
theorem mergeResults_perm_witness :
    mergeResults sortByIndex
        [⟨0, ⟨"eng".toList, "Hello".toList, [⟨"Hello".toList, 0, 1, "word"⟩]⟩⟩,
          ⟨1, ⟨"eng".toList, "world".toList, [⟨"world".toList, 60, 61, "word"⟩]⟩⟩] =
      mergeResults sortByIndex
        [⟨1, ⟨"eng".toList, "world".toList, [⟨"world".toList, 60, 61, "word"⟩]⟩⟩,
          ⟨0, ⟨"eng".toList, "Hello".toList, [⟨"Hello".toList, 0, 1, "word"⟩]⟩⟩] :=
  (mergeResults_perm sortByIndex sortByIndex_isIndexSort
    [⟨1, ⟨"eng".toList, "world".toList, [⟨"world".toList, 60, 61, "word"⟩]⟩⟩,
      ⟨0, ⟨"eng".toList, "Hello".toList, [⟨"Hello".toList, 0, 1, "word"⟩]⟩⟩]
    [⟨0, ⟨"eng".toList, "Hello".toList, [⟨"Hello".toList, 0, 1, "word"⟩]⟩⟩,
      ⟨1, ⟨"eng".toList, "world".toList, [⟨"world".toList, 60, 61, "word"⟩]⟩⟩]
    (by simp) (by decide) (List.Perm.swap _ _ _)).1

/-! ## applyTimeOffset and the order of the merged tokens -/

theorem mathRound_mono (x y : ℚ) (h : x ≤ y) : mathRound x ≤ mathRound y := by
  unfold mathRound
  split_ifs with hx hy hy
  · exact Int.floor_le_floor (by linarith)
  · linarith
  · have h1 : 0 ≤ ⌊-x + 1 / 2⌋ := Int.floor_nonneg.2 (by linarith)
    have h2 : 0 ≤ ⌊y + 1 / 2⌋ := Int.floor_nonneg.2 (by linarith)
    omega
  · have : ⌊-y + 1 / 2⌋ ≤ ⌊-x + 1 / 2⌋ := Int.floor_le_floor (by linarith)
    omega

theorem mathRound_intCast (n : ℤ) : mathRound (n : ℚ) = n := by
  unfold mathRound
  split_ifs with h
  · rw [Int.floor_eq_iff]
    constructor <;> linarith
  · have h1 : ⌊-(n : ℚ) + 1 / 2⌋ = -n := by
      rw [Int.floor_eq_iff]
      push_cast
      constructor <;> linarith
    rw [h1]
    ring

/-- The new time of a token that `applyTimeOffset` moves by the whole number
`k` of seconds stays between the bounds it had, moved by `k`. -/
theorem offset_time_bounds (s : ℚ) (k lo hi : ℤ) (h1 : (lo : ℚ) ≤ s) (h2 : s ≤ (hi : ℚ)) :
    ((lo + k : ℤ) : ℚ) ≤ (mathRound ((s + (k : ℚ)) * 1000) : ℚ) / 1000 ∧
    (mathRound ((s + (k : ℚ)) * 1000) : ℚ) / 1000 ≤ ((hi + k : ℤ) : ℚ) := by
  have a := mathRound_mono (((lo + k) * 1000 : ℤ) : ℚ) ((s + (k : ℚ)) * 1000)
    (by push_cast; linarith)
  have b := mathRound_mono ((s + (k : ℚ)) * 1000) (((hi + k) * 1000 : ℤ) : ℚ)
    (by push_cast; linarith)
  rw [mathRound_intCast] at a b
  have a2 : (((lo + k) * 1000 : ℤ) : ℚ) ≤ (mathRound ((s + (k : ℚ)) * 1000) : ℚ) := by
    exact_mod_cast a
  have b2 : (mathRound ((s + (k : ℚ)) * 1000) : ℚ) ≤ (((hi + k) * 1000 : ℤ) : ℚ) := by
    exact_mod_cast b
  push_cast at a2 b2 ⊢
  constructor
  · rw [le_div_iff₀ (by norm_num)]; linarith
  · rw [div_le_iff₀ (by norm_num)]; linarith

theorem applyTimeOffset_sorted (words : List Word) (offsetSec : ℚ)
    (h : words.Pairwise (fun a b => a.Start ≤ b.Start)) :
    (applyTimeOffset words offsetSec).Pairwise (fun a b => a.Start ≤ b.Start) := by
  unfold applyTimeOffset
  rw [List.pairwise_map]
  refine h.imp ?_
  intro a b hab
  have := mathRound_mono ((a.Start + offsetSec) * 1000) ((b.Start + offsetSec) * 1000)
    (by linarith)
  have h2 : (mathRound ((a.Start + offsetSec) * 1000) : ℚ) ≤
      (mathRound ((b.Start + offsetSec) * 1000) : ℚ) := by exact_mod_cast this
  show (mathRound ((a.Start + offsetSec) * 1000) : ℚ) / 1000 ≤
    (mathRound ((b.Start + offsetSec) * 1000) : ℚ) / 1000
  exact div_le_div_of_nonneg_right h2 (by norm_num)

theorem offsetChunk_sorted (i d : Int) (t : TranscriptResponse)
    (h : t.Words.Pairwise (fun a b => a.Start ≤ b.Start)) :
    (offsetChunk i d t).Words.Pairwise (fun a b => a.Start ≤ b.Start) := by
  unfold offsetChunk
  split_ifs
  · exact applyTimeOffset_sorted _ _ h
  · exact h

theorem offsetChunk_bounds (i d : Int) (hi : 0 ≤ i) (t : TranscriptResponse)
    (h : ∀ w ∈ t.Words, 0 ≤ w.Start ∧ w.Start ≤ (d : ℚ)) :
    ∀ w ∈ (offsetChunk i d t).Words,
      ((i * d : ℤ) : ℚ) ≤ w.Start ∧ w.Start ≤ (((i + 1) * d : ℤ) : ℚ) := by
  intro w hw
  unfold offsetChunk at hw
  split_ifs at hw with h0
  · simp only [applyTimeOffset, List.mem_map] at hw
    obtain ⟨v, hv, rfl⟩ := hw
    have hb := offset_time_bounds v.Start (i * d) 0 d (by exact_mod_cast (h v hv).1)
      (h v hv).2
    simp only
    constructor
    · have := hb.1
      rw [zero_add] at this
      exact this
    · have := hb.2
      have e : d + i * d = (i + 1) * d := by ring
      rw [e] at this
      exact this
  · have h1 : i = 0 := by omega
    subst h1
    have := h w hw
    push_cast
    constructor <;> linarith [this.1, this.2]

/-- C33: when the tokens of every chunk are ordered by `Start` and start
between 0 and `splitDurationSec`, and the chunks have distinct indices, none
negative, then after the time offset of each chunk and `mergeResults` the
`Words` of the combined transcript are ordered by non-decreasing `Start`; and
`mergeResults` returns when there is at least one chunk. -/
theorem merged_words_sorted (sortSlice : List chunkResult → List chunkResult)
    (hsort : IsIndexSort sortSlice) (splitDurationSec : Int) (raw : List chunkResult)
    (hd : (raw.map (fun r => r.Index)).Nodup) (hidx : ∀ r ∈ raw, 0 ≤ r.Index)
    (hord : ∀ r ∈ raw, r.Transcript.Words.Pairwise (fun a b => a.Start ≤ b.Start))
    (hrange : ∀ r ∈ raw, ∀ w ∈ r.Transcript.Words,
      0 ≤ w.Start ∧ w.Start ≤ (splitDurationSec : ℚ)) :
    (∀ out, mergeResults sortSlice (raw.map (fun r =>
        { Index := r.Index, Transcript := offsetChunk r.Index splitDurationSec r.Transcript })) =
        some out →
      out.Words.Pairwise (fun a b => a.Start ≤ b.Start)) ∧
    (raw ≠ [] → ∃ out, mergeResults sortSlice (raw.map (fun r =>
        { Index := r.Index, Transcript := offsetChunk r.Index splitDurationSec r.Transcript })) =
        some out) := by
  set shifted := raw.map (fun r =>
    ({ Index := r.Index, Transcript := offsetChunk r.Index splitDurationSec r.Transcript } :
      chunkResult)) with hshifted
  have hmem : ∀ c ∈ sortSlice shifted, ∃ r ∈ raw, c =
      { Index := r.Index, Transcript := offsetChunk r.Index splitDurationSec r.Transcript } := by
    intro c hc
    have := (hsort shifted).1.subset hc
    rw [hshifted, List.mem_map] at this
    obtain ⟨r, hr, rfl⟩ := this
    exact ⟨r, hr, rfl⟩
  have hdi : (shifted.map (fun r => r.Index)).Nodup := by
    rw [hshifted, List.map_map]
    exact hd
  have hstrict := index_sorted_strict _ (hsort shifted).2
    ((List.Perm.nodup_iff ((hsort shifted).1.map _)).2 hdi)
  constructor
  · intro out hout
    cases hsr : sortSlice shifted with
    | nil =>
      unfold mergeResults at hout
      rw [hsr] at hout
      simp at hout
    | cons first rest =>
      rw [mergeResults_eq sortSlice shifted first rest hsr] at hout
      simp only [Option.some.injEq] at hout
      subst hout
      rw [hsr] at hmem hstrict
      show (((first :: rest).map (fun r => r.Transcript.Words)).flatten).Pairwise _
      rw [List.pairwise_flatten]
      constructor
      · intro l hl
        rw [List.mem_map] at hl
        obtain ⟨c, hc, rfl⟩ := hl
        obtain ⟨r, hr, rfl⟩ := hmem c hc
        exact offsetChunk_sorted _ _ _ (hord r hr)
      · rw [List.pairwise_map]
        refine List.Pairwise.imp_of_mem ?_ hstrict
        intro a b ha hb hab x hx y hy
        obtain ⟨r, hr, rfl⟩ := hmem a ha
        obtain ⟨q, hq, rfl⟩ := hmem b hb
        have bx := (offsetChunk_bounds r.Index splitDurationSec (hidx r hr) r.Transcript
          (hrange r hr) x hx).2
        have by1 := (offsetChunk_bounds q.Index splitDurationSec (hidx q hq) q.Transcript
          (hrange q hq) y hy).1
        have hD : 0 ≤ splitDurationSec := by
          unfold offsetChunk at hx
          have : ∃ v, v ∈ r.Transcript.Words := by
            split_ifs at hx
            · simp only [applyTimeOffset, List.mem_map] at hx
              obtain ⟨v, hv, _⟩ := hx
              exact ⟨v, hv⟩
            · exact ⟨x, hx⟩
          obtain ⟨v, hv⟩ := this
          have := hrange r hr v hv
          have : (0 : ℚ) ≤ (splitDurationSec : ℚ) := le_trans this.1 this.2
          exact_mod_cast this
        have hlt : r.Index + 1 ≤ q.Index := hab
        have hmul : (r.Index + 1) * splitDurationSec ≤ q.Index * splitDurationSec :=
          Int.mul_le_mul_of_nonneg_right hlt hD
        have hmulq : (((r.Index + 1) * splitDurationSec : ℤ) : ℚ) ≤
            ((q.Index * splitDurationSec : ℤ) : ℚ) := by exact_mod_cast hmul
        linarith
  · intro hne
    cases hsr : sortSlice shifted with
    | nil =>
      have p := (hsort shifted).1
      rw [hsr] at p
      have : shifted = [] := p.symm.eq_nil
      rw [hshifted, List.map_eq_nil_iff] at this
      exact absurd this hne
    | cons first rest =>
      exact ⟨_, mergeResults_eq sortSlice shifted first rest hsr⟩

/-- C33 at two chunks of 60 seconds, chunk 1 ("world", 0.5 to 1) given before
chunk 0 ("Hello", 0 to 1, and "there", 59 to 60), with insertion sort on the
indices for `sort.Slice`. -/
theorem merged_words_sorted_witness :
    (∀ out, mergeResults sortByIndex
        (([⟨1, ⟨"eng".toList, "world".toList, [⟨"world".toList, 1 / 2, 1, "word"⟩]⟩⟩,
          ⟨0, ⟨"eng".toList, "Hello there".toList,
            [⟨"Hello".toList, 0, 1, "word"⟩, ⟨"there".toList, 59, 60, "word"⟩]⟩⟩] :
            List chunkResult).map
          (fun r => { Index := r.Index, Transcript := offsetChunk r.Index 60 r.Transcript })) =
        some out →
      out.Words.Pairwise (fun a b => a.Start ≤ b.Start)) ∧
    ∃ out, mergeResults sortByIndex
        (([⟨1, ⟨"eng".toList, "world".toList, [⟨"world".toList, 1 / 2, 1, "word"⟩]⟩⟩,
          ⟨0, ⟨"eng".toList, "Hello there".toList,
            [⟨"Hello".toList, 0, 1, "word"⟩, ⟨"there".toList, 59, 60, "word"⟩]⟩⟩] :
            List chunkResult).map
          (fun r => { Index := r.Index, Transcript := offsetChunk r.Index 60 r.Transcript })) =
        some out := by
  have h := merged_words_sorted sortByIndex sortByIndex_isIndexSort 60
    [⟨1, ⟨"eng".toList, "world".toList, [⟨"world".toList, 1 / 2, 1, "word"⟩]⟩⟩,
      ⟨0, ⟨"eng".toList, "Hello there".toList,
        [⟨"Hello".toList, 0, 1, "word"⟩, ⟨"there".toList, 59, 60, "word"⟩]⟩⟩]
    (by decide) (by simp)
    (by
      intro r hr
      simp only [List.mem_cons, List.mem_singleton, List.not_mem_nil, or_false] at hr
      rcases hr with rfl | rfl
      · simp
      · simp only [List.pairwise_cons, List.mem_singleton, forall_eq, List.not_mem_nil,
          false_imp_iff, implies_true, List.Pairwise.nil, and_true]
        norm_num)
    (by
      intro r hr w hw
      simp only [List.mem_cons, List.mem_singleton, List.not_mem_nil, or_false] at hr
      rcases hr with rfl | rfl
      · simp only [List.mem_singleton] at hw
        subst hw
        norm_num
      · simp only [List.mem_cons, List.mem_singleton, List.not_mem_nil, or_false] at hw
        rcases hw with rfl | rfl <;> norm_num)
  exact ⟨h.1, h.2 (by simp)⟩

/-! ## The retry loop of a chunk task -/

theorem callsOf_append (a b : List TaskEvent) : callsOf (a ++ b) = callsOf a ++ callsOf b := by
  simp [callsOf, List.filterMap_append]

theorem acquisitions_append (a b : List TaskEvent) :
    acquisitions (a ++ b) = acquisitions a + acquisitions b := by
  simp [acquisitions, List.count_append]

theorem retryLoop_error_step {ε : Type} (maxRetries : Int)
    (transcribe : Nat → Except ε TranscriptResponse) (a : Nat) (lastErr : Option ε)
    (trace : List TaskEvent) (e : ε) (ha : (a : Int) < maxRetries)
    (he : transcribe a = .error e) :
    ∃ extra, callsOf extra = [a] ∧ acquisitions extra = 0 ∧
      retryLoop maxRetries transcribe a lastErr trace =
        retryLoop maxRetries transcribe (a + 1) (some e) (trace ++ extra) := by
  by_cases hb : (a : Int) < maxRetries - 1
  · refine ⟨[TaskEvent.call a, TaskEvent.backoff a], rfl, rfl, ?_⟩
    rw [retryLoop]
    simp only [ha, if_true, he, hb, List.append_assoc, List.singleton_append]
  · refine ⟨[TaskEvent.call a], rfl, rfl, ?_⟩
    rw [retryLoop]
    simp only [ha, if_true, he, hb, if_false]

/-- The retry loop when the call of round `k` is the first to succeed. -/
theorem retryLoop_success {ε : Type} (maxRetries : Int)
    (transcribe : Nat → Except ε TranscriptResponse) (k : Nat) (t : TranscriptResponse)
    (hk : (k : Int) < maxRetries) (hok : transcribe k = .ok t) :
    ∀ (d a : Nat), a + d = k → (∀ j, a ≤ j → j < k → ∃ e, transcribe j = .error e) →
      ∀ (lastErr : Option ε) (trace : List TaskEvent),
        ∃ trace2 lastErr2, retryLoop maxRetries transcribe a lastErr trace =
            (trace2, some t, lastErr2) ∧
          callsOf trace2 = callsOf trace ++ List.range' a (d + 1) ∧
          acquisitions trace2 = acquisitions trace := by
  intro d
  induction d with
  | zero =>
    intro a had _ lastErr trace
    have hak : a = k := by omega
    subst hak
    refine ⟨trace ++ [TaskEvent.call a], lastErr, ?_, ?_, ?_⟩
    · rw [retryLoop]
      simp only [hk, if_true, hok]
    · rw [callsOf_append]
      rfl
    · rw [acquisitions_append]
      rfl
  | succ d ih =>
    intro a had hfail lastErr trace
    obtain ⟨e, he⟩ := hfail a (le_refl _) (by omega)
    obtain ⟨extra, hc, hq, hstep⟩ := retryLoop_error_step maxRetries transcribe a lastErr trace e
      (by omega) he
    obtain ⟨trace2, lastErr2, h1, h2, h3⟩ := ih (a + 1) (by omega)
      (fun j hj1 hj2 => hfail j (by omega) hj2) (some e) (trace ++ extra)
    refine ⟨trace2, lastErr2, by rw [hstep, h1], ?_, ?_⟩
    · rw [h2, callsOf_append, hc, List.append_assoc]
      rfl
    · rw [h3, acquisitions_append, hq]
      rfl

/-- The retry loop when every call fails: `maxRetries` calls, and `lastErr`
is the error of the last one. -/
theorem retryLoop_failure {ε : Type} (maxRetries : Int)
    (transcribe : Nat → Except ε TranscriptResponse) (last : ε)
    (hlast : transcribe (maxRetries.toNat - 1) = .error last) :
    ∀ (d a : Nat), a + d = maxRetries.toNat →
      (∀ j, a ≤ j → (j : Int) < maxRetries → ∃ e, transcribe j = .error e) →
      ∀ (lastErr : Option ε) (trace : List TaskEvent),
        ∃ trace2, retryLoop maxRetries transcribe a lastErr trace =
            (trace2, none, if d = 0 then lastErr else some last) ∧
          callsOf trace2 = callsOf trace ++ List.range' a d ∧
          acquisitions trace2 = acquisitions trace := by
  intro d
  induction d with
  | zero =>
    intro a had _ lastErr trace
    refine ⟨trace, ?_, by simp, rfl⟩
    rw [retryLoop]
    have : ¬ ((a : Int) < maxRetries) := by omega
    simp only [this, if_false, if_true]
  | succ d ih =>
    intro a had hfail lastErr trace
    have ha : (a : Int) < maxRetries := by omega
    obtain ⟨e, he⟩ := hfail a (le_refl _) ha
    obtain ⟨extra, hc, hq, hstep⟩ := retryLoop_error_step maxRetries transcribe a lastErr trace e
      ha he
    obtain ⟨trace2, h1, h2, h3⟩ := ih (a + 1) (by omega)
      (fun j hj1 hj2 => hfail j (by omega) hj2) (some e) (trace ++ extra)
    refine ⟨trace2, ?_, ?_, ?_⟩
    · rw [hstep, h1]
      by_cases hd0 : d = 0
      · subst hd0
        have ha2 : maxRetries.toNat - 1 = a := by omega
        rw [ha2, he] at hlast
        cases hlast
        simp
      · simp [hd0]
    · rw [h2, callsOf_append, hc, List.append_assoc]
      rfl
    · rw [h3, acquisitions_append, hq]
      rfl

/-- C34: in a chunk task with `maxRetries ≥ 1` whose limiter wait returns, the
transcriber is called in the rounds 0, 1, 2, … until a call succeeds or
`maxRetries` calls have failed.  When the call of round `k < maxRetries` is
the first to succeed, the task has made `k + 1` calls and its result holds
the transcript of that call (with the time offset of its chunk); when all
calls fail, it has made `maxRetries` calls and returns the error that wraps
the error of the last one. -/
theorem chunkTask_retries {ε : Type} (i total : Nat) (splitDurationSec maxRetries : Int)
    (hmax : 1 ≤ maxRetries) (transcribe : Nat → Except ε TranscriptResponse) :
    (∀ (k : Nat) (t : TranscriptResponse), (k : Int) < maxRetries →
      (∀ j, j < k → ∃ e, transcribe j = .error e) → transcribe k = .ok t →
      ∃ trace, chunkTask i total splitDurationSec maxRetries (.ok ()) transcribe =
          (trace, .ok { Index := i, Transcript := offsetChunk i splitDurationSec t }) ∧
        callsOf trace = List.range (k + 1)) ∧
    (∀ last : ε, (∀ j : Nat, (j : Int) < maxRetries → ∃ e, transcribe j = .error e) →
      transcribe (maxRetries.toNat - 1) = .error last →
      ∃ trace, chunkTask i total splitDurationSec maxRetries (.ok ()) transcribe =
          (trace, .error (TaskError.retriesExhausted ((i : Int) + 1) total maxRetries
            (some last))) ∧
        callsOf trace = List.range maxRetries.toNat) := by
  constructor
  · intro k t hk hfail hok
    obtain ⟨trace2, lastErr2, h1, h2, _⟩ := retryLoop_success maxRetries transcribe k t hk hok
      k 0 (by omega) (fun j _ hj => hfail j hj) none [TaskEvent.acquire]
    refine ⟨trace2, ?_, ?_⟩
    · simp only [chunkTask, h1]
    · rw [h2, List.range_eq_range']
      rfl
  · intro last hfail hlast
    obtain ⟨trace2, h1, h2, _⟩ := retryLoop_failure maxRetries transcribe last hlast
      maxRetries.toNat 0 (by omega) (fun j _ hj => hfail j hj) none [TaskEvent.acquire]
    have hne : maxRetries.toNat ≠ 0 := by omega
    rw [if_neg hne] at h1
    refine ⟨trace2, ?_, ?_⟩
    · simp only [chunkTask, h1]
    · rw [h2, List.range_eq_range']
      rfl

/-- C34 at `maxRetries = 3`: a transcriber that fails once and then succeeds
is called twice, and one that always fails is called three times. -/
theorem chunkTask_retries_witness :
    (∃ trace, chunkTask 1 2 60 3 (.ok ())
        (fun k => if k = 0 then Except.error "timeout"
          else .ok ⟨"eng".toList, "Hi".toList, [⟨"Hi".toList, 0, 1, "word"⟩]⟩) =
        (trace, .ok ⟨1, offsetChunk 1 60
          ⟨"eng".toList, "Hi".toList, [⟨"Hi".toList, 0, 1, "word"⟩]⟩⟩) ∧
      callsOf trace = List.range (1 + 1)) ∧
    (∃ trace, chunkTask 1 2 60 3 (.ok ())
        (fun _ => (Except.error "timeout" : Except String TranscriptResponse)) =
        (trace, .error (TaskError.retriesExhausted ((1 : Nat) + 1) (2 : Nat) 3
          (some "timeout"))) ∧
      callsOf trace = List.range (3 : Int).toNat) :=
  ⟨(chunkTask_retries 1 2 60 3 (by decide)
      (fun k => if k = 0 then Except.error "timeout"
        else .ok ⟨"eng".toList, "Hi".toList, [⟨"Hi".toList, 0, 1, "word"⟩]⟩)).1 1
      ⟨"eng".toList, "Hi".toList, [⟨"Hi".toList, 0, 1, "word"⟩]⟩ (by decide)
      (fun j hj => ⟨"timeout", by
        have : j = 0 := by omega
        subst this
        rfl⟩) rfl,
   (chunkTask_retries 1 2 60 3 (by decide)
      (fun _ => (Except.error "timeout" : Except String TranscriptResponse))).2 "timeout"
      (fun _ _ => ⟨"timeout", rfl⟩) rfl⟩

/-! ## The limiter token of a chunk task -/

/-- C35, the code at a failing input: with `maxRetries = 3`, a task whose
first call of the transcriber fails and whose second succeeds makes two calls,
the second after the backoff only, and has acquired one limiter token, not
two: `limiter.Wait` stands before the retry loop, not in it. -/
theorem chunkTask_retry_without_token :
    (chunkTask 0 2 60 3 (.ok ())
        (fun k => if k = 0 then Except.error "timeout"
          else .ok ⟨"eng".toList, "Hi".toList, [⟨"Hi".toList, 0, 1, "word"⟩]⟩)).1 =
      [TaskEvent.acquire, TaskEvent.call 0, TaskEvent.backoff 0, TaskEvent.call 1] ∧
    (callsOf (chunkTask 0 2 60 3 (.ok ())
        (fun k => if k = 0 then Except.error "timeout"
          else .ok ⟨"eng".toList, "Hi".toList, [⟨"Hi".toList, 0, 1, "word"⟩]⟩)).1).length = 2 ∧
    acquisitions (chunkTask 0 2 60 3 (.ok ())
        (fun k => if k = 0 then Except.error "timeout"
          else .ok ⟨"eng".toList, "Hi".toList, [⟨"Hi".toList, 0, 1, "word"⟩]⟩)).1 = 1 := by
  have h : (chunkTask 0 2 60 3 (.ok ())
      (fun k => if k = 0 then Except.error "timeout"
        else .ok ⟨"eng".toList, "Hi".toList, [⟨"Hi".toList, 0, 1, "word"⟩]⟩)).1 =
      [TaskEvent.acquire, TaskEvent.call 0, TaskEvent.backoff 0, TaskEvent.call 1] := by
    unfold chunkTask
    simp only
    rw [retryLoop]
    simp only [Nat.cast_zero, show (0 : Int) < 3 by decide, if_true,
      show (0 : Int) < 3 - 1 by decide]
    rw [retryLoop]
    simp
  rw [h]
  exact ⟨rfl, rfl, rfl⟩

/-! ## fallbackToSequential -/

/-- The loop of `fallbackToSequential` over indices whose calls all succeed. -/
theorem fallbackLoop_ok {ε : Type} (total : Nat) (splitDurationSec : Int)
    (transcribe : Nat → Except ε TranscriptResponse) (done : List Int)
    (t : Nat → TranscriptResponse) (l : List Nat) :
    (∀ i ∈ l, (i : Int) ∉ done → transcribe i = .ok (t i)) →
    ∀ (completed : List chunkResult) (calls : List Nat),
      fallbackLoop total splitDurationSec transcribe done l completed calls =
        (calls ++ l.filter (notDone done),
          .ok (completed ++ (l.filter (notDone done)).map (fun (i : Nat) =>
            { Index := i, Transcript := offsetChunk i splitDurationSec (t i) }))) := by
  induction l with
  | nil => intro _ completed calls; simp [fallbackLoop]
  | cons i rest ih =>
    intro h completed calls
    have hrest := ih (fun j hj => h j (List.mem_cons_of_mem _ hj))
    unfold fallbackLoop
    by_cases hi : (i : Int) ∈ done
    · rw [if_pos hi, hrest]
      simp [notDone, hi]
    · rw [if_neg hi, h i (List.mem_cons_self _ _) hi]
      simp only
      rw [hrest]
      simp [notDone, hi]

/-- The loop of `fallbackToSequential` when the call for `k` is the first to
fail. -/
theorem fallbackLoop_error {ε : Type} (total : Nat) (splitDurationSec : Int)
    (transcribe : Nat → Except ε TranscriptResponse) (done : List Int)
    (t : Nat → TranscriptResponse) (l1 l2 : List Nat) (k : Nat) (e : ε)
    (h1 : ∀ i ∈ l1, (i : Int) ∉ done → transcribe i = .ok (t i))
    (hk : (k : Int) ∉ done) (he : transcribe k = .error e)
    (completed : List chunkResult) (calls : List Nat) :
    fallbackLoop total splitDurationSec transcribe done (l1 ++ k :: l2) completed calls =
      (calls ++ l1.filter (notDone done) ++ [k],
        .error (FallbackError.chunk ((k : Int) + 1) total e)) := by
  induction l1 generalizing completed calls with
  | nil =>
    simp only [List.nil_append, List.filter_nil, List.append_nil]
    unfold fallbackLoop
    rw [if_neg hk, he]
  | cons i rest ih =>
    have hrest := ih (fun j hj => h1 j (List.mem_cons_of_mem _ hj))
    rw [List.cons_append]
    unfold fallbackLoop
    by_cases hi : (i : Int) ∈ done
    · rw [if_pos hi, hrest]
      simp [notDone, hi]
    · rw [if_neg hi, h1 i (List.mem_cons_self _ _) hi]
      simp only
      rw [hrest]
      simp [notDone, hi]

theorem range_split (n k : Nat) (hk : k < n) :
    List.range n = List.range k ++ k :: List.range' (k + 1) (n - (k + 1)) := by
  have h1 : n = (n - k) + k := by omega
  have h2 : n - k = (n - (k + 1)) + 1 := by omega
  rw [List.range_eq_range', List.range_eq_range']
  conv_lhs => rw [h1]
  rw [← List.range'_append_1 0 k (n - k), Nat.zero_add, h2, List.range'_succ]

theorem intCast_sorted_range (n : Nat) :
    ((List.range n).map (fun i : Nat => (i : Int))).Pairwise (fun a b => a ≤ b) := by
  rw [List.pairwise_map]
  exact (List.pairwise_lt_range n).imp (fun h => by exact_mod_cast Nat.le_of_lt h)

theorem done_indices_perm (total : Nat) (completed : List chunkResult)
    (hd : (completed.map (fun r => r.Index)).Nodup)
    (hrange : ∀ r ∈ completed, 0 ≤ r.Index ∧ r.Index < (total : Int)) :
    (completed.map (fun r => r.Index) ++
      ((List.range total).filter (notDone (completed.map (fun r => r.Index)))).map
        (fun i : Nat => (i : Int))).Perm
      ((List.range total).map (fun i : Nat => (i : Int))) := by
  have hinj : Function.Injective (fun i : Nat => (i : Int)) := fun a b h => by
    simp only at h
    exact_mod_cast h
  rw [List.perm_ext_iff_of_nodup]
  · intro x
    simp only [List.mem_append, List.mem_map, List.mem_filter, List.mem_range, notDone,
      decide_eq_true_eq]
    constructor
    · rintro (⟨r, hr, rfl⟩ | ⟨i, ⟨hi, _⟩, rfl⟩)
      · obtain ⟨h0, h1⟩ := hrange r hr
        exact ⟨r.Index.toNat, by omega, Int.toNat_of_nonneg h0⟩
      · exact ⟨i, hi, rfl⟩
    · rintro ⟨i, hi, rfl⟩
      by_cases hdone : ∃ r ∈ completed, r.Index = (i : Int)
      · exact Or.inl hdone
      · exact Or.inr ⟨i, ⟨hi, hdone⟩, rfl⟩
  · rw [List.nodup_append]
    refine ⟨hd, ((List.nodup_range total).filter _).map hinj, ?_⟩
    intro x hx1 hx2
    simp only [List.mem_map, List.mem_filter, List.mem_range, notDone,
      decide_eq_true_eq] at hx2
    obtain ⟨i, ⟨_, hnd⟩, rfl⟩ := hx2
    exact hnd (by simpa using hx1)
  · exact (List.nodup_range total).map hinj

/-- C36: given `total` chunks and completed results with pairwise distinct
indices below `total` (at least one result or one chunk), when the single
call for every chunk that is not completed succeeds, `fallbackToSequential`
calls the transcriber once for each such chunk, in ascending order, and for
no completed one, and returns the transcript whose `Words` are those of the
results with the indices 0 to `total - 1` in this order, the new results
carrying the time offset of their chunk; when the call for the chunk `k` is
the first to fail, it returns the error of that chunk and has called the
transcriber for no later chunk. -/
theorem fallbackToSequential_spec {ε : Type} (sortSlice : List chunkResult → List chunkResult)
    (hsort : IsIndexSort sortSlice) (total : Nat) (splitDurationSec : Int)
    (transcribe : Nat → Except ε TranscriptResponse) (t : Nat → TranscriptResponse)
    (completed : List chunkResult)
    (hd : (completed.map (fun r => r.Index)).Nodup)
    (hrange : ∀ r ∈ completed, 0 ≤ r.Index ∧ r.Index < (total : Int))
    (hne : completed ≠ [] ∨ 0 < total) :
    ((∀ i, i < total → (i : Int) ∉ completed.map (fun r => r.Index) →
        transcribe i = .ok (t i)) →
      ∃ (sorted : List chunkResult) (out : TranscriptResponse),
        fallbackToSequential sortSlice total splitDurationSec transcribe completed =
          ((List.range total).filter
              (notDone (completed.map (fun r => r.Index))),
            some (.ok out)) ∧
        sorted.Perm (completed ++
          ((List.range total).filter
            (notDone (completed.map (fun r => r.Index)))).map (fun (i : Nat) =>
              { Index := i, Transcript := offsetChunk i splitDurationSec (t i) })) ∧
        sorted.map (fun r => r.Index) = (List.range total).map (fun i : Nat => (i : Int)) ∧
        out.Words = (sorted.map (fun r => r.Transcript.Words)).flatten) ∧
    (∀ (k : Nat) (e : ε), k < total → (k : Int) ∉ completed.map (fun r => r.Index) →
      (∀ i, i < k → (i : Int) ∉ completed.map (fun r => r.Index) →
        transcribe i = .ok (t i)) →
      transcribe k = .error e →
      fallbackToSequential sortSlice total splitDurationSec transcribe completed =
        ((List.range (k + 1)).filter
            (notDone (completed.map (fun r => r.Index))),
          some (.error (FallbackError.chunk ((k : Int) + 1) total e)))) := by
  constructor
  · intro hok
    have hloop := fallbackLoop_ok total splitDurationSec transcribe
      (completed.map (fun r => r.Index)) t (List.range total)
      (fun i hi hnd => hok i (List.mem_range.1 hi) hnd) completed []
    set remaining := (List.range total).filter
      (notDone (completed.map (fun r => r.Index))) with hrem
    set final := completed ++ remaining.map (fun (i : Nat) =>
      ({ Index := i, Transcript := offsetChunk i splitDurationSec (t i) } : chunkResult))
      with hfinal
    have hidx : (final.map (fun r => r.Index)).Perm
        ((List.range total).map (fun i : Nat => (i : Int))) := by
      rw [hfinal, List.map_append, List.map_map]
      exact done_indices_perm total completed hd hrange
    have hps := (hsort final).1
    have hss := (hsort final).2
    have hsidx : (sortSlice final).map (fun r => r.Index) =
        (List.range total).map (fun i : Nat => (i : Int)) := by
      have s1 : ((sortSlice final).map (fun r => r.Index)).Sorted (fun a b : Int => a ≤ b) := by
        rw [List.Sorted, List.pairwise_map]
        exact hss
      exact List.eq_of_perm_of_sorted ((hps.map _).trans hidx) s1 (intCast_sorted_range total)
    have hfne : sortSlice final ≠ [] := by
      intro h0
      have hl := congrArg List.length hsidx
      rw [h0] at hl
      simp only [List.map_nil, List.length_nil, List.length_map, List.length_range] at hl
      rcases hne with hc | hc
      · have h2 : final = [] := by
          have := hps
          rw [h0] at this
          exact this.symm.eq_nil
        rw [hfinal] at h2
        exact hc (List.append_eq_nil.1 h2).1
      · omega
    cases hsr : sortSlice final with
    | nil => exact absurd hsr hfne
    | cons first rest =>
      refine ⟨first :: rest,
        { LanguageCode := first.Transcript.LanguageCode
          Text := List.intercalate [' ']
            (((first :: rest).map (fun r => r.Transcript.Text)).dropWhile
              (fun t => decide (t = [])))
          Words := ((first :: rest).map (fun r => r.Transcript.Words)).flatten },
        ?_, ?_, ?_, rfl⟩
      · unfold fallbackToSequential
        simp only
        rw [hloop]
        simp only [List.nil_append]
        rw [mergeResults_eq sortSlice final first rest hsr]
        rfl
      · rw [← hsr]
        exact hps
      · rw [← hsr]
        exact hsidx
  · intro k e hk hkd hok he
    have hloop := fallbackLoop_error total splitDurationSec transcribe
      (completed.map (fun r => r.Index)) t (List.range k)
      (List.range' (k + 1) (total - (k + 1))) k e
      (fun i hi hnd => hok i (List.mem_range.1 hi) hnd) hkd he completed []
    unfold fallbackToSequential
    simp only
    rw [range_split total k hk, hloop]
    have hnk : notDone (completed.map (fun r => r.Index)) k = true := by
      simp only [notDone, decide_eq_true_eq]
      exact hkd
    simp only [List.nil_append, List.range_succ, List.filter_append, List.filter_cons,
      List.filter_nil, hnk, if_true]

/-- C36 at three chunks of 60 seconds of which chunk 1 is completed, with
insertion sort on the indices for `sort.Slice`: a transcriber that succeeds,
and one that fails on chunk 0. -/
theorem fallbackToSequential_spec_witness :
    (∃ (sorted : List chunkResult) (out : TranscriptResponse),
      fallbackToSequential sortByIndex 3 60
          (fun _ => (Except.ok ⟨"eng".toList, "Hi".toList, [⟨"Hi".toList, 0, 1, "word"⟩]⟩ :
            Except String TranscriptResponse))
          [⟨1, ⟨"eng".toList, "Yes".toList, [⟨"Yes".toList, 60, 61, "word"⟩]⟩⟩] =
        ((List.range 3).filter (notDone
            (([⟨1, ⟨"eng".toList, "Yes".toList, [⟨"Yes".toList, 60, 61, "word"⟩]⟩⟩] :
              List chunkResult).map (fun r => r.Index))),
          some (.ok out)) ∧
      sorted.Perm (([⟨1, ⟨"eng".toList, "Yes".toList, [⟨"Yes".toList, 60, 61, "word"⟩]⟩⟩] :
          List chunkResult) ++
        ((List.range 3).filter (notDone
          (([⟨1, ⟨"eng".toList, "Yes".toList, [⟨"Yes".toList, 60, 61, "word"⟩]⟩⟩] :
            List chunkResult).map (fun r => r.Index)))).map (fun (i : Nat) =>
            { Index := i, Transcript := offsetChunk i 60
                ((fun _ => ⟨"eng".toList, "Hi".toList, [⟨"Hi".toList, 0, 1, "word"⟩]⟩ :
                  Nat → TranscriptResponse) i) })) ∧
      sorted.map (fun r => r.Index) = (List.range 3).map (fun i : Nat => (i : Int)) ∧
      out.Words = (sorted.map (fun r => r.Transcript.Words)).flatten) ∧
    fallbackToSequential sortByIndex 3 60
        (fun _ => (Except.error "timeout" : Except String TranscriptResponse))
        [⟨1, ⟨"eng".toList, "Yes".toList, [⟨"Yes".toList, 60, 61, "word"⟩]⟩⟩] =
      ((List.range (0 + 1)).filter (notDone
          (([⟨1, ⟨"eng".toList, "Yes".toList, [⟨"Yes".toList, 60, 61, "word"⟩]⟩⟩] :
            List chunkResult).map (fun r => r.Index))),
        some (.error (FallbackError.chunk (((0 : Nat) : Int) + 1) (3 : Nat) "timeout"))) :=
  ⟨(fallbackToSequential_spec sortByIndex sortByIndex_isIndexSort 3 60
      (fun _ => (Except.ok ⟨"eng".toList, "Hi".toList, [⟨"Hi".toList, 0, 1, "word"⟩]⟩ :
        Except String TranscriptResponse))
      (fun _ => ⟨"eng".toList, "Hi".toList, [⟨"Hi".toList, 0, 1, "word"⟩]⟩)
      [⟨1, ⟨"eng".toList, "Yes".toList, [⟨"Yes".toList, 60, 61, "word"⟩]⟩⟩]
      (by decide) (by simp) (Or.inl (by simp))).1 (fun _ _ _ => rfl),
   (fallbackToSequential_spec sortByIndex sortByIndex_isIndexSort 3 60
      (fun _ => (Except.error "timeout" : Except String TranscriptResponse))
      (fun _ => ⟨"eng".toList, "Hi".toList, [⟨"Hi".toList, 0, 1, "word"⟩]⟩)
      [⟨1, ⟨"eng".toList, "Yes".toList, [⟨"Yes".toList, 60, 61, "word"⟩]⟩⟩]
      (by decide) (by simp) (Or.inl (by simp))).2 0 "timeout" (by decide) (by decide)
      (fun i hi => absurd hi (Nat.not_lt_zero i)) rfl⟩

end Scribe2srt
